import Mathlib

/-!
Risk-assessment pooling (`aggregate.go`)

A shallow embedding of the numerical core of `aggregate.go`: the PERT statistics
(`computeMean`, `computeStdDev`), the range determiner (`determineOutputRange`), the
discretizer (`constructInputBases`) and the two pooling combinators (`linearPooling`,
`logisticPooling`), together with the risk-item / risk-event wrappers.

Modelling conventions.

* The functions are transcribed once, over an arbitrary carrier `α` of numbers that has the
  operations the source uses (`+ - * /`, `<`, literals and conversion from `int`). Nothing
  is assumed about these operations in the definitions.
* `F64` is a model of IEEE 754 binary64, the `float64` of the source: round to nearest, ties
  to even, with `NaN` and the infinities. Instantiating the carrier with `F64` and `Sqrt`
  with `F64.sqrt` gives the values the program computes, and statements about `F64` are
  evaluated by the kernel.
* Instantiating the carrier with a linearly ordered field gives exact arithmetic, in which
  the algebraic claims of the specification are stated; over `ℝ` the library functions are
  read as `Real.sqrt`, `Real.rpow` and the cumulative distribution function of the Gaussian
  measure with mean `mu` and variance `sigma ^ 2`.
* Statements over `F64` are statements about the values the program computes, `NaN` and
  rounding included. Lemmas named `exact_…` hold in exact arithmetic only: binary64 rounding
  breaks them at particular inputs, which statements over `F64` exhibit.
* The three library functions the source calls but does not define, `math.Sqrt`, `math.Pow`
  and `distuv.Normal{Mu, Sigma}.CDF`, are parameters (`Sqrt`, `Pow`, `NormalCDF`).
* A Go run-time panic (index out of range) is the result `Except.error Fault.indexOutOfRange`.
* The binning loop `for j := minPoint; j < maxPoint; j += interval` is not bounded by a
  counter in the source, so its model takes a `fuel` argument: it returns
  `Except.error Fault.fuelExhausted` when the loop is still running after `fuel` iterations.
-/

namespace Aggregate

/-- The Go struct `ThreePointEstimate`. -/
structure ThreePointEstimate (α : Type) where
  lowPoint : α
  midPoint : α
  highPoint : α

/-- The Go struct `RiskEventInput`. -/
structure RiskEventInput (α : Type) where
  estimate : ThreePointEstimate α
  likelihood : α

/-- The Go struct `RiskItemInput`. -/
structure RiskItemInput (α : Type) where
  estimate : ThreePointEstimate α

/-- Ways in which a run of the embedded code does not produce a value. -/
inductive Fault where
  | indexOutOfRange
  | fuelExhausted
  deriving DecidableEq, Repr

/-- An IEEE 754 binary64 value. Every finite binary64 number is an integer multiple of
`2^(-1074)`, and `fin k` stands for `k * 2^(-1074)`; zero carries no sign. -/
inductive F64 where
  | nan : F64
  | inf (neg : Bool) : F64
  | fin (k : Int) : F64
  deriving DecidableEq

namespace F64

/-- The least `i' ≥ i` with `n < 2^(2^i')`, searched upwards from `i`. -/
def expBound : Nat → Nat → Nat → Nat
  | 0, _, i => i
  | fuel + 1, n, i => if n < 2 ^ 2 ^ i then i else expBound fuel n (i + 1)

/-- Binary search for the binary logarithm: with `2^acc ≤ n < 2^(acc + 2^i)` on entry, the
result is the `l` with `2^l ≤ n < 2^(l+1)`. -/
def log2Aux (n : Nat) : Nat → Nat → Nat
  | 0, acc => acc
  | i + 1, acc => if 2 ^ (acc + 2 ^ i) ≤ n then log2Aux n i (acc + 2 ^ i) else log2Aux n i acc

/-- The number of binary digits of `n`, so that `2^(bitLength n - 1) ≤ n < 2^(bitLength n)`
for `n > 0`. -/
def bitLength (n : Nat) : Nat :=
  if n = 0 then 0 else log2Aux n (expBound n n 0) 0 + 1

/-- The magnitude, in units of `2^(-1074)`, of the binary64 value nearest to `a * 2^e` for
`a > 0`: `a` is brought to 53 significant bits (fewer below `2^(-1022)`), rounding to
nearest, ties to the even significand. -/
def roundMag (a : Nat) (e : Int) : Nat :=
  let q : Int := max (e + (bitLength a : Int) - 53) (-1074)
  let m : Nat :=
    if q ≤ e then a * 2 ^ (e - q).toNat
    else
      let s := (q - e).toNat
      let t := a / 2 ^ s
      let r := a % 2 ^ s
      let half := 2 ^ (s - 1)
      if r < half then t else if half < r then t + 1 else if t % 2 = 0 then t else t + 1
  m * 2 ^ (q + 1074).toNat

/-- The binary64 value nearest to `(-1)^neg * a * 2^e`, ties to the even significand;
magnitudes of `2^1024` and more overflow to infinity. -/
def round (neg : Bool) (a : Nat) (e : Int) : F64 :=
  if a = 0 then fin 0 else
    let k : Nat := roundMag a e
    if 2 ^ 2098 ≤ k then inf neg else fin (if neg then -(k : Int) else (k : Int))

/-- Rounding of the integer multiple `z * 2^e`. -/
def roundInt (z : Int) (e : Int) : F64 :=
  round (decide (z < 0)) z.natAbs e

/-- Negation. -/
def neg : F64 → F64
  | nan => nan
  | inf s => inf (!s)
  | fin k => fin (-k)

/-- Addition of binary64 values. -/
def add : F64 → F64 → F64
  | nan, _ => nan
  | _, nan => nan
  | inf s, inf t => if s = t then inf s else nan
  | inf s, fin _ => inf s
  | fin _, inf t => inf t
  | fin a, fin b => roundInt (a + b) (-1074)

/-- Subtraction of binary64 values. -/
def sub (x y : F64) : F64 := add x (neg y)

/-- Multiplication of binary64 values. -/
def mul : F64 → F64 → F64
  | nan, _ => nan
  | _, nan => nan
  | inf s, inf t => inf (xor s t)
  | inf s, fin b => if b = 0 then nan else inf (xor s (decide (b < 0)))
  | fin a, inf t => if a = 0 then nan else inf (xor (decide (a < 0)) t)
  | fin a, fin b => roundInt (a * b) (-2148)

/-- Division of binary64 values: the quotient is computed with 2200 extra bits and a sticky
bit, then rounded once. -/
def div : F64 → F64 → F64
  | nan, _ => nan
  | _, nan => nan
  | inf _, inf _ => nan
  | inf s, fin b => inf (xor s (decide (b < 0)))
  | fin _, inf _ => fin 0
  | fin a, fin b =>
    if b = 0 then (if a = 0 then nan else inf (decide (a < 0)))
    else
      let n := a.natAbs * 2 ^ 2200
      let q := n / b.natAbs
      let r := n % b.natAbs
      round (xor (decide (a < 0)) (decide (b < 0))) (2 * q + (if r = 0 then 0 else 1)) (-2201)

/-- Digit-by-digit integer square root: `isqrtAux n i r` decides the bits `2^(i-1), ..., 1`. -/
def isqrtAux (n : Nat) : Nat → Nat → Nat
  | 0, r => r
  | i + 1, r => if (r + 2 ^ i) ^ 2 ≤ n then isqrtAux n i (r + 2 ^ i) else isqrtAux n i r

/-- The integer square root, the largest `r` with `r^2 ≤ n`. -/
def isqrt (n : Nat) : Nat := isqrtAux n (bitLength n / 2 + 1) 0

/-- Square root of a binary64 value (`math.Sqrt`): the root is computed with 64 extra bits
and a sticky bit, then rounded once. -/
def sqrt : F64 → F64
  | nan => nan
  | inf s => if s then nan else inf false
  | fin k =>
    if k < 0 then nan
    else
      let n := k.natAbs * 2 ^ 128
      let r := isqrt n
      round false (2 * r + (if r ^ 2 = n then 0 else 1)) (-602)

/-- The comparison `<` of binary64 values; it is false when either side is `NaN`. -/
def lt : F64 → F64 → Bool
  | nan, _ => false
  | _, nan => false
  | inf s, inf t => s && !t
  | inf s, fin _ => s
  | fin _, inf t => !t
  | fin a, fin b => decide (a < b)

/-- The comparison `<=` of binary64 values; it is false when either side is `NaN`. -/
def le : F64 → F64 → Bool
  | nan, _ => false
  | _, nan => false
  | inf s, inf t => s || !t
  | inf s, fin _ => s
  | fin _, inf t => !t
  | fin a, fin b => decide (a ≤ b)

/-- Whether a binary64 value is not above zero: `NaN`, `-Inf`, zero or a negative number. -/
def isNonPos : F64 → Bool
  | nan => true
  | inf s => s
  | fin k => decide (k ≤ 0)

/-- Whether a binary64 value is not below zero: `NaN`, `+Inf`, zero or a positive number. -/
def isNonNeg : F64 → Bool
  | nan => true
  | inf s => !s
  | fin k => decide (0 ≤ k)

instance : Zero F64 := ⟨fin 0⟩
instance : One F64 := ⟨round false 1 0⟩
instance : NatCast F64 := ⟨fun n => round false n 0⟩
instance : Add F64 := ⟨add⟩
instance : Sub F64 := ⟨sub⟩
instance : Mul F64 := ⟨mul⟩
instance : Div F64 := ⟨div⟩
instance : Neg F64 := ⟨neg⟩
instance : LT F64 := ⟨fun x y => lt x y = true⟩
instance : LE F64 := ⟨fun x y => le x y = true⟩
instance : DecidableRel (fun (a b : F64) => a < b) := fun x y => decEq (lt x y) true
instance : DecidableRel (fun (a b : F64) => a ≤ b) := fun x y => decEq (le x y) true

end F64

section Core

variable {α : Type} [Zero α] [One α] [NatCast α] [Add α] [Sub α] [Mul α] [Div α] [LT α]
  [DecidableRel (fun (a b : α) => a < b)]

/-- Source `computeMean`: `(low + 4*mid + high) / 6`. -/
def computeMean (est : ThreePointEstimate α) : α :=
  (est.lowPoint + 4 * est.midPoint + est.highPoint) / 6

/-- The argument that `computeStdDev` hands to `math.Sqrt`:
`(mean - low) * (high - mean) / 7` with `mean := computeMean est`. -/
def stdDevRadicand (est : ThreePointEstimate α) : α :=
  let mean := computeMean est
  (mean - est.lowPoint) * (est.highPoint - mean) / 7

/-- Source `computeStdDev`: `math.Sqrt((mean - low) * (high - mean) / 7)`. -/
def computeStdDev (Sqrt : α → α) (est : ThreePointEstimate α) : α :=
  Sqrt (stdDevRadicand est)

/-- One iteration of the loop of `determineOutputRange` (lines 206-217): the window of
`inputs[i]` replaces the current pair exactly when its lower end is strictly smaller. -/
def rangeStep (Sqrt : α → α) (acc : α × α) (est : ThreePointEstimate α) : α × α :=
  let mean := computeMean est
  let std := computeStdDev Sqrt est
  let min := mean - 8 * std
  let max := mean + 8 * std
  if min < acc.1 then (min, max) else acc

/-- Source `determineOutputRange`. The unconditional `inputs[0]` panics on the empty slice;
the loop then runs over `inputs[1:]`. -/
def determineOutputRange (Sqrt : α → α) :
    List (ThreePointEstimate α) → Except Fault (α × α)
  | [] => Except.error Fault.indexOutOfRange
  | e0 :: rest =>
    Except.ok (rest.foldl (rangeStep Sqrt)
      (computeMean e0 - 8 * computeStdDev Sqrt e0, computeMean e0 + 8 * computeStdDev Sqrt e0))

/-- The binning loop of `constructInputBases` (lines 187-190) for one estimate, whose CDF is
`cdf`: `for j := minPoint; j < maxPoint; j += interval { basis = append(basis, cdf(j+interval) - cdf(j)) }`.
The first argument is the fuel, the second the current `j`, the third the current `basis`. -/
def binLoop (cdf : α → α) (maxPoint interval : α) : Nat → α → List α → Except Fault (List α)
  | 0, j, basis => if j < maxPoint then Except.error Fault.fuelExhausted else Except.ok basis
  | fuel + 1, j, basis =>
    if j < maxPoint then
      binLoop cdf maxPoint interval fuel (j + interval) (basis ++ [cdf (j + interval) - cdf j])
    else Except.ok basis

/-- The outer loop of `constructInputBases` (lines 177-193): one basis per estimate, appended
in order to `inputBases`. -/
def basesLoop (Sqrt : α → α) (NormalCDF : α → α → α → α) (fuel : Nat)
    (minPoint maxPoint interval : α) :
    List (ThreePointEstimate α) → List (List α) → Except Fault (List (List α))
  | [], inputBases => Except.ok inputBases
  | est :: rest, inputBases =>
    match binLoop (NormalCDF (computeMean est) (computeStdDev Sqrt est)) maxPoint interval
        fuel minPoint [] with
    | Except.error f => Except.error f
    | Except.ok basis =>
      basesLoop Sqrt NormalCDF fuel minPoint maxPoint interval rest (inputBases ++ [basis])

/-- Source `constructInputBases`; `NormalCDF mu sigma x` stands for
`distuv.Normal{Mu: mu, Sigma: sigma}.CDF(x)`. -/
def constructInputBases (Sqrt : α → α) (NormalCDF : α → α → α → α) (fuel : Nat)
    (inputs : List (ThreePointEstimate α)) : Except Fault (List (List α) × α × α) :=
  match determineOutputRange Sqrt inputs with
  | Except.error f => Except.error f
  | Except.ok (minPoint, maxPoint) =>
    let interval := (maxPoint - minPoint) / 1000
    match basesLoop Sqrt NormalCDF fuel minPoint maxPoint interval inputs [] with
    | Except.error f => Except.error f
    | Except.ok inputBases => Except.ok (inputBases, minPoint, maxPoint)

/-- The inner loops of the two pooling functions (lines 116-118 and 159-161):
`for j := 0; j < len(inputBases); j++ { point = op(point, inputBases[j][i]) }`.
The access `inputBases[j][i]` panics when basis `j` has no index `i`. -/
def columnFold (op : α → α → α) (i : Nat) : List (List α) → α → Except Fault α
  | [], point => Except.ok point
  | basis :: rest, point =>
    match basis[i]? with
    | none => Except.error Fault.indexOutOfRange
    | some x => columnFold op i rest (op point x)

/-- The outer loops of the two pooling functions (lines 114-121 and 157-164):
`for i := 0; i < n; i++ { pooledBasis = append(pooledBasis, body(i)) }`. The first argument
counts the iterations still to run, the second is the current `i`. -/
def poolLoop (body : Nat → Except Fault α) : Nat → Nat → List α → Except Fault (List α)
  | 0, _, pooledBasis => Except.ok pooledBasis
  | remaining + 1, i, pooledBasis =>
    match body i with
    | Except.error f => Except.error f
    | Except.ok point => poolLoop body remaining (i + 1) (pooledBasis ++ [point])

/-- Source `linearPooling`. -/
def linearPooling (Sqrt : α → α) (NormalCDF : α → α → α → α) (fuel : Nat)
    (inputs : List (ThreePointEstimate α)) : Except Fault (List α × α × α) :=
  match constructInputBases Sqrt NormalCDF fuel inputs with
  | Except.error f => Except.error f
  | Except.ok (inputBases, minPoint, maxPoint) =>
    match inputBases[0]? with
    | none => Except.error Fault.indexOutOfRange
    | some first =>
      match poolLoop (fun i =>
          match columnFold (fun point x => point + x) i inputBases 0 with
          | Except.error f => Except.error f
          | Except.ok point => Except.ok (point / (inputBases.length : α)))
          first.length 0 [] with
      | Except.error f => Except.error f
      | Except.ok pooledBasis => Except.ok (pooledBasis, minPoint, maxPoint)

/-- Source `logisticPooling`; `Pow` stands for `math.Pow`. -/
def logisticPooling (Sqrt : α → α) (NormalCDF : α → α → α → α) (Pow : α → α → α) (fuel : Nat)
    (inputs : List (ThreePointEstimate α)) : Except Fault (List α × α × α) :=
  match constructInputBases Sqrt NormalCDF fuel inputs with
  | Except.error f => Except.error f
  | Except.ok (inputBases, minPoint, maxPoint) =>
    match inputBases[0]? with
    | none => Except.error Fault.indexOutOfRange
    | some first =>
      match poolLoop (fun i =>
          match columnFold (fun point x => point * x) i inputBases 1 with
          | Except.error f => Except.error f
          | Except.ok point => Except.ok (Pow point (1 / (inputBases.length : α))))
          first.length 0 [] with
      | Except.error f => Except.error f
      | Except.ok pooledBasis => Except.ok (pooledBasis, minPoint, maxPoint)

/-- Source `linearPoolingRiskItems`: extract the estimates, then `linearPooling`. -/
def linearPoolingRiskItems (Sqrt : α → α) (NormalCDF : α → α → α → α) (fuel : Nat)
    (inputs : List (RiskItemInput α)) : Except Fault (List α × α × α) :=
  linearPooling Sqrt NormalCDF fuel (inputs.foldl (fun ests inp => ests ++ [inp.estimate]) [])

/-- Source `logisticPoolingRiskItems`: extract the estimates, then `logisticPooling`. -/
def logisticPoolingRiskItems (Sqrt : α → α) (NormalCDF : α → α → α → α) (Pow : α → α → α)
    (fuel : Nat) (inputs : List (RiskItemInput α)) : Except Fault (List α × α × α) :=
  logisticPooling Sqrt NormalCDF Pow fuel
    (inputs.foldl (fun ests inp => ests ++ [inp.estimate]) [])

/-- The loop shared by the two risk-event wrappers (lines 98-101 and 141-144): it collects
the estimates and adds up the likelihoods. -/
def collectEvents (inputs : List (RiskEventInput α)) : List (ThreePointEstimate α) × α :=
  inputs.foldl (fun acc inp => (acc.1 ++ [inp.estimate], acc.2 + inp.likelihood)) ([], 0)

/-- Source `linearPoolingRiskEvents`. -/
def linearPoolingRiskEvents (Sqrt : α → α) (NormalCDF : α → α → α → α) (fuel : Nat)
    (inputs : List (RiskEventInput α)) : Except Fault (List α × α × α × α) :=
  let (ests, sumLikelihood) := collectEvents inputs
  match linearPooling Sqrt NormalCDF fuel ests with
  | Except.error f => Except.error f
  | Except.ok (dist, minPoint, maxPoint) =>
    Except.ok (dist, minPoint, maxPoint, sumLikelihood / (inputs.length : α))

/-- Source `logisticPoolingRiskEvents`. -/
def logisticPoolingRiskEvents (Sqrt : α → α) (NormalCDF : α → α → α → α) (Pow : α → α → α)
    (fuel : Nat) (inputs : List (RiskEventInput α)) : Except Fault (List α × α × α × α) :=
  let (ests, sumLikelihood) := collectEvents inputs
  match logisticPooling Sqrt NormalCDF Pow fuel ests with
  | Except.error f => Except.error f
  | Except.ok (dist, minPoint, maxPoint) =>
    Except.ok (dist, minPoint, maxPoint, sumLikelihood / (inputs.length : α))

/-- The lower end `mean - 8*std` of an estimate's own 8-sigma window. -/
def windowLow (Sqrt : α → α) (est : ThreePointEstimate α) : α :=
  computeMean est - 8 * computeStdDev Sqrt est

/-- The upper end `mean + 8*std` of an estimate's own 8-sigma window. -/
def windowHigh (Sqrt : α → α) (est : ThreePointEstimate α) : α :=
  computeMean est + 8 * computeStdDev Sqrt est

/-- Number of iterations of the binning loop over `[minPoint, maxPoint)` in exact
arithmetic: 1000 when the window is non-empty, none otherwise. -/
def binCount (minPoint maxPoint : α) : Nat :=
  if minPoint < maxPoint then 1000 else 0

/-- The basis the binning loop builds for a CDF `cdf`, written in closed form: bin `j` is
`cdf (x_j + interval) - cdf x_j` with `x_j = minPoint + j * interval`. -/
def basisOf (cdf : α → α) (minPoint interval : α) (n : Nat) : List α :=
  (List.range n).map (fun (j : Nat) =>
    cdf (minPoint + (j : α) * interval + interval) - cdf (minPoint + (j : α) * interval))

/-- The bases that `constructInputBases` builds over the window `(minPoint, maxPoint)`, in
closed form: one `basisOf` per estimate, all with the same number of bins. -/
def basesOf (Sqrt : α → α) (NormalCDF : α → α → α → α) (minPoint maxPoint : α)
    (inputs : List (ThreePointEstimate α)) : List (List α) :=
  inputs.map (fun est => basisOf (NormalCDF (computeMean est) (computeStdDev Sqrt est))
    minPoint ((maxPoint - minPoint) / 1000) (binCount minPoint maxPoint))

/-- The sample inputs of `main` (lines 35-64), the "labor" item: `(7.5, 10, 15)`,
`(6, 8.5, 12.5)`, `(5, 7.5, 13)` and `(7, 11, 15)`. -/
def testRiskItemInputs : List (RiskItemInput α) :=
  [⟨⟨15 / 2, 10, 15⟩⟩, ⟨⟨6, 17 / 2, 25 / 2⟩⟩, ⟨⟨5, 15 / 2, 13⟩⟩, ⟨⟨7, 11, 15⟩⟩]

/-- The loop variable of the binning loop after `n` iterations from `j`, provided the loop
condition `j < maxPoint` holds at each of them; `none` when it fails before. -/
def binSteps (maxPoint interval : α) : Nat → α → Option α
  | 0, j => some j
  | n + 1, j => if j < maxPoint then binSteps maxPoint interval n (j + interval) else none

/-- The `n` bins the binning loop appends when it starts at `j`: the first is
`cdf (j + interval) - cdf j`, the others are the bins from `j + interval` on. -/
def binsFrom (cdf : α → α) (interval : α) : α → Nat → List α
  | _, 0 => []
  | j, n + 1 => (cdf (j + interval) - cdf j) :: binsFrom cdf interval (j + interval) n

end Core

section LoopLemmas

variable {α : Type}

theorem poolLoop_run (body : Nat → Except Fault α) (g : Nat → α) :
    ∀ (remaining i : Nat) (pooledBasis : List α),
      (∀ k, k < remaining → body (i + k) = Except.ok (g (i + k))) →
      poolLoop body remaining i pooledBasis
        = Except.ok (pooledBasis ++ (List.range remaining).map (fun k => g (i + k))) := by
  intro remaining
  induction remaining with
  | zero => intro i pooledBasis _; simp [poolLoop]
  | succ r ih =>
    intro i pooledBasis hbody
    have h0 : body i = Except.ok (g i) := by simpa using hbody 0 (Nat.succ_pos r)
    rw [poolLoop, h0]
    simp only
    rw [ih (i + 1) _ (fun k hk => by
      have := hbody (k + 1) (Nat.succ_lt_succ hk)
      rwa [show i + (k + 1) = i + 1 + k by omega] at this)]
    rw [List.range_succ_eq_map, List.map_cons, List.map_map]
    simp only [List.append_assoc, List.singleton_append, Nat.add_zero]
    congr 3
    apply List.map_congr_left
    intro k _
    simp only [Function.comp, Nat.succ_eq_add_one]
    congr 1
    omega

theorem foldl_collectItems (inputs : List (RiskItemInput α)) :
    ∀ (ests : List (ThreePointEstimate α)),
      inputs.foldl (fun ests inp => ests ++ [inp.estimate]) ests
        = ests ++ inputs.map (fun inp => inp.estimate) := by
  induction inputs with
  | nil => intro ests; simp
  | cons inp rest ih =>
    intro ests
    simp only [List.foldl_cons, ih, List.map_cons, List.append_assoc, List.singleton_append]

end LoopLemmas

section CarrierLemmas

variable {α : Type}

theorem binsFrom_length [Add α] [Sub α] (cdf : α → α) (interval : α) :
    ∀ (n : Nat) (j : α), (binsFrom cdf interval j n).length = n := by
  intro n
  induction n with
  | zero => intro j; rfl
  | succ n ih => intro j; simp [binsFrom, ih]

/-- Bin `i` of `binsFrom` lies between the `i`-th value of the loop variable and the next. -/
theorem binsFrom_getElem? [Add α] [Sub α] (cdf : α → α) (interval : α) :
    ∀ (n i : Nat) (j : α), i < n →
      (binsFrom cdf interval j n)[i]?
        = some (cdf (Nat.iterate (fun x => x + interval) i j + interval)
            - cdf (Nat.iterate (fun x => x + interval) i j)) := by
  intro n
  induction n with
  | zero => intro i j hi; exact absurd hi (Nat.not_lt_zero i)
  | succ n ih =>
    intro i j hi
    cases i with
    | zero => simp [binsFrom]
    | succ i =>
      rw [binsFrom, List.getElem?_cons_succ, ih i (j + interval) (Nat.lt_of_succ_lt_succ hi)]
      rfl

theorem binsFrom_succ_last [Add α] [Sub α] (cdf : α → α) (interval : α) :
    ∀ (n : Nat) (j : α),
      binsFrom cdf interval j (n + 1)
        = binsFrom cdf interval j n
          ++ [cdf (Nat.iterate (fun x => x + interval) n j + interval)
            - cdf (Nat.iterate (fun x => x + interval) n j)] := by
  intro n
  induction n with
  | zero => intro j; rfl
  | succ n ih =>
    intro j
    rw [binsFrom, ih (j + interval)]
    rfl

/-- The binning loop in closed form, over any carrier: if the loop condition holds at the
first `n` values of `j` and fails at the next one, the loop appends exactly the `n` bins
`binsFrom cdf interval j n`, provided it has fuel for `n` iterations. -/
theorem binLoop_binsFrom [Add α] [Sub α] [LT α] [DecidableRel (fun (a b : α) => a < b)]
    (cdf : α → α) (maxPoint interval : α) :
    ∀ (n fuel : Nat) (j : α) (basis : List α), n ≤ fuel →
      (∀ m : Nat, m < n → Nat.iterate (fun x => x + interval) m j < maxPoint) →
      ¬ (Nat.iterate (fun x => x + interval) n j < maxPoint) →
      binLoop cdf maxPoint interval fuel j basis
        = Except.ok (basis ++ binsFrom cdf interval j n) := by
  intro n
  induction n with
  | zero =>
    intro fuel j basis _ _ hstop
    have hj : ¬ j < maxPoint := hstop
    cases fuel <;> simp [binLoop, hj, binsFrom]
  | succ n ih =>
    intro fuel j basis hfuel hrun hstop
    obtain ⟨f, rfl⟩ : ∃ f, fuel = f + 1 := ⟨fuel - 1, by omega⟩
    have hj : j < maxPoint := hrun 0 (Nat.succ_pos n)
    rw [binLoop, if_pos hj, ih f (j + interval) _ (by omega)
      (fun m hm => hrun (m + 1) (Nat.succ_lt_succ hm)) hstop, binsFrom]
    simp

/-- While the loop condition holds at the first `fuel + 1` values of `j`, the binning loop is
still running when its fuel is spent. -/
theorem binLoop_running [Add α] [Sub α] [LT α] [DecidableRel (fun (a b : α) => a < b)]
    (cdf : α → α) (maxPoint interval : α) :
    ∀ (fuel : Nat) (j : α) (basis : List α),
      (∀ m : Nat, m ≤ fuel → Nat.iterate (fun x => x + interval) m j < maxPoint) →
      binLoop cdf maxPoint interval fuel j basis = Except.error Fault.fuelExhausted := by
  intro fuel
  induction fuel with
  | zero =>
    intro j basis hrun
    have hj : j < maxPoint := hrun 0 (Nat.le_refl 0)
    simp [binLoop, hj]
  | succ f ih =>
    intro j basis hrun
    have hj : j < maxPoint := hrun 0 (Nat.zero_le _)
    rw [binLoop, if_pos hj]
    exact ih (j + interval) _ (fun m hm => hrun (m + 1) (Nat.succ_le_succ hm))

/-- A run of the binning loop that returns has found the loop condition false at some
value of the loop variable, after it held at all the values before. -/
theorem binLoop_ok_run [Add α] [Sub α] [LT α] [DecidableRel (fun (a b : α) => a < b)]
    (cdf : α → α) (maxPoint interval : α) :
    ∀ (fuel : Nat) (j : α) (basis result : List α),
      binLoop cdf maxPoint interval fuel j basis = Except.ok result →
      ∃ n : Nat, n ≤ fuel ∧
        (∀ m : Nat, m < n → Nat.iterate (fun x => x + interval) m j < maxPoint) ∧
        ¬ (Nat.iterate (fun x => x + interval) n j < maxPoint) := by
  intro fuel
  induction fuel with
  | zero =>
    intro j basis result h
    by_cases hj : j < maxPoint
    · simp [binLoop, hj] at h
    · exact ⟨0, Nat.le_refl 0, fun m hm => absurd hm (Nat.not_lt_zero m), hj⟩
  | succ f ih =>
    intro j basis result h
    by_cases hj : j < maxPoint
    · rw [binLoop, if_pos hj] at h
      obtain ⟨n, hn, hrun, hstop⟩ := ih (j + interval) _ result h
      refine ⟨n + 1, Nat.succ_le_succ hn, ?_, hstop⟩
      intro m hm
      cases m with
      | zero => exact hj
      | succ m => exact hrun m (Nat.lt_of_succ_lt_succ hm)
    · exact ⟨0, Nat.zero_le _, fun m hm => absurd hm (Nat.not_lt_zero m), hj⟩

/-- A loop variable that the addition of `interval` leaves unchanged stays below `maxPoint`
for ever: the binning loop never ends, whatever the fuel. -/
theorem binLoop_stuck [Add α] [Sub α] [LT α] [DecidableRel (fun (a b : α) => a < b)]
    (cdf : α → α) (maxPoint interval j : α) (hj : j < maxPoint) (hfix : j + interval = j)
    (fuel : Nat) (basis : List α) :
    binLoop cdf maxPoint interval fuel j basis = Except.error Fault.fuelExhausted := by
  have h : ∀ m : Nat, Nat.iterate (fun x => x + interval) m j = j := by
    intro m
    induction m with
    | zero => rfl
    | succ m ih => rw [Function.iterate_succ_apply, hfix, ih]
  apply binLoop_running
  intro m _
  rw [h]
  exact hj

/-- What `binSteps` returns describes the run of the loop condition: it holds at the first
`n` values of the loop variable, and the value returned is the `n`-th one. -/
theorem binSteps_spec [Add α] [LT α] [DecidableRel (fun (a b : α) => a < b)]
    (maxPoint interval : α) :
    ∀ (n : Nat) (j jn : α), binSteps maxPoint interval n j = some jn →
      (∀ m : Nat, m < n → Nat.iterate (fun x => x + interval) m j < maxPoint) ∧
      Nat.iterate (fun x => x + interval) n j = jn := by
  intro n
  induction n with
  | zero =>
    intro j jn h
    simp only [binSteps, Option.some.injEq] at h
    exact ⟨fun m hm => absurd hm (Nat.not_lt_zero m), h⟩
  | succ n ih =>
    intro j jn h
    by_cases hj : j < maxPoint
    · rw [binSteps, if_pos hj] at h
      obtain ⟨hrun, hend⟩ := ih (j + interval) jn h
      refine ⟨?_, hend⟩
      intro m hm
      cases m with
      | zero => exact hj
      | succ m => exact hrun m (Nat.lt_of_succ_lt_succ hm)
    · simp [binSteps, hj] at h

/-- Runs of the loop condition compose: `a` iterations from `j` to `j1` followed by `b`
iterations from `j1` to `j2` are `a + b` iterations from `j` to `j2`. -/
theorem binSteps_append [Add α] [LT α] [DecidableRel (fun (a b : α) => a < b)]
    (maxPoint interval : α) (b : Nat) (j1 j2 : α)
    (hb : binSteps maxPoint interval b j1 = some j2) :
    ∀ (a : Nat) (j : α), binSteps maxPoint interval a j = some j1 →
      binSteps maxPoint interval (a + b) j = some j2 := by
  intro a
  induction a with
  | zero =>
    intro j h
    simp only [binSteps, Option.some.injEq] at h
    rw [Nat.zero_add, h]
    exact hb
  | succ a ih =>
    intro j h
    by_cases hj : j < maxPoint
    · rw [binSteps, if_pos hj] at h
      rw [show a + 1 + b = (a + b) + 1 by omega, binSteps, if_pos hj]
      exact ih (j + interval) h
    · simp [binSteps, hj] at h

theorem columnFold_ok (op : α → α → α) (i : Nat) :
    ∀ (bases : List (List α)) (point : α), (∀ b ∈ bases, i < b.length) →
      ∃ p : α, columnFold op i bases point = Except.ok p := by
  intro bases
  induction bases with
  | nil => intro point _; exact ⟨point, rfl⟩
  | cons b rest ih =>
    intro point hlen
    have hb : i < b.length := hlen b (List.mem_cons_self _ _)
    rw [columnFold, List.getElem?_eq_getElem hb]
    exact ih _ (fun b2 hb2 => hlen b2 (List.mem_cons_of_mem _ hb2))

theorem poolLoop_length (body : Nat → Except Fault α) :
    ∀ (remaining i : Nat) (pooledBasis : List α),
      (∀ k, k < remaining → ∃ p : α, body (i + k) = Except.ok p) →
      ∃ arr : List α, poolLoop body remaining i pooledBasis = Except.ok arr ∧
        arr.length = pooledBasis.length + remaining := by
  intro remaining
  induction remaining with
  | zero => intro i pooledBasis _; exact ⟨pooledBasis, rfl, rfl⟩
  | succ r ih =>
    intro i pooledBasis hbody
    obtain ⟨p, hp⟩ := hbody 0 (Nat.succ_pos r)
    rw [Nat.add_zero] at hp
    obtain ⟨arr, harr, hlen⟩ := ih (i + 1) (pooledBasis ++ [p]) (fun k hk => by
      have := hbody (k + 1) (Nat.succ_lt_succ hk)
      rwa [show i + (k + 1) = i + 1 + k by omega] at this)
    refine ⟨arr, ?_, ?_⟩
    · rw [poolLoop, hp]
      exact harr
    · rw [hlen, List.length_append, List.length_singleton]
      omega

/-- Over bases that all have `n` bins, both pooling loops return an array of `n` entries. -/
theorem pooled_length (op : α → α → α) (init : α) (final : α → α) (bases : List (List α))
    (n : Nat) (first : List α) (h0 : bases[0]? = some first)
    (hlen : ∀ b ∈ bases, b.length = n) :
    ∃ arr : List α,
      poolLoop (fun i =>
        match columnFold op i bases init with
        | Except.error f => Except.error f
        | Except.ok point => Except.ok (final point)) first.length 0 []
        = Except.ok arr ∧ arr.length = n := by
  have hfirst : first.length = n := by
    apply hlen
    obtain ⟨h1, h2⟩ := List.getElem?_eq_some.mp h0
    rw [← h2]
    exact List.getElem_mem _
  rw [hfirst]
  obtain ⟨arr, harr, hl⟩ := poolLoop_length (fun i =>
        match columnFold op i bases init with
        | Except.error f => Except.error f
        | Except.ok point => Except.ok (final point)) n 0 []
      (by
        intro k hk
        obtain ⟨p, hp⟩ := columnFold_ok op (0 + k) bases init
          (fun b hb => by rw [hlen b hb]; omega)
        exact ⟨final p, by simp only [hp]⟩)
  exact ⟨arr, harr, by simpa using hl⟩

end CarrierLemmas

section CarrierRun

variable {α : Type} [NatCast α] [Add α] [Sub α] [Mul α] [Div α] [LT α]
  [DecidableRel (fun (a b : α) => a < b)]

theorem determineOutputRange_single (Sqrt : α → α) (est : ThreePointEstimate α) :
    determineOutputRange Sqrt [est] = Except.ok (windowLow Sqrt est, windowHigh Sqrt est) := rfl

/-- The bases of all estimates are built by the same run of the loop variable: when the
loop condition holds at its first `n` values and fails at the next, every basis is the list
of `n` bins `binsFrom` of its estimate's CDF. -/
theorem basesLoop_binsFrom (Sqrt : α → α) (NormalCDF : α → α → α → α) (fuel n : Nat)
    (minPoint maxPoint interval : α) (hfuel : n ≤ fuel)
    (hrun : ∀ m : Nat, m < n → Nat.iterate (fun x => x + interval) m minPoint < maxPoint)
    (hstop : ¬ (Nat.iterate (fun x => x + interval) n minPoint < maxPoint)) :
    ∀ (inputs : List (ThreePointEstimate α)) (inputBases : List (List α)),
      basesLoop Sqrt NormalCDF fuel minPoint maxPoint interval inputs inputBases
        = Except.ok (inputBases ++ inputs.map (fun est =>
            binsFrom (NormalCDF (computeMean est) (computeStdDev Sqrt est)) interval
              minPoint n)) := by
  intro inputs
  induction inputs with
  | nil => intro inputBases; simp [basesLoop]
  | cons est rest ih =>
    intro inputBases
    rw [basesLoop, binLoop_binsFrom _ maxPoint interval n fuel minPoint [] hfuel hrun hstop]
    simp only [ih]
    simp

theorem constructInputBases_binsFrom (Sqrt : α → α) (NormalCDF : α → α → α → α)
    (fuel n : Nat) (inputs : List (ThreePointEstimate α)) (minPoint maxPoint : α)
    (hrange : determineOutputRange Sqrt inputs = Except.ok (minPoint, maxPoint))
    (hfuel : n ≤ fuel)
    (hrun : ∀ m : Nat, m < n →
      Nat.iterate (fun x => x + (maxPoint - minPoint) / 1000) m minPoint < maxPoint)
    (hstop : ¬ (Nat.iterate (fun x => x + (maxPoint - minPoint) / 1000) n minPoint
      < maxPoint)) :
    constructInputBases Sqrt NormalCDF fuel inputs
      = Except.ok (inputs.map (fun est =>
          binsFrom (NormalCDF (computeMean est) (computeStdDev Sqrt est))
            ((maxPoint - minPoint) / 1000) minPoint n), minPoint, maxPoint) := by
  unfold constructInputBases
  rw [hrange]
  simp only [basesLoop_binsFrom Sqrt NormalCDF fuel n minPoint maxPoint _ hfuel hrun hstop,
    List.nil_append]

/-- When `constructInputBases` returns, the loop condition has failed at some value of the
loop variable within the fuel, after holding at all the values before. -/
theorem constructInputBases_ok_run (Sqrt : α → α) (NormalCDF : α → α → α → α)
    (fuel : Nat) (inputs : List (ThreePointEstimate α)) (minPoint maxPoint : α)
    (hrange : determineOutputRange Sqrt inputs = Except.ok (minPoint, maxPoint))
    (r : List (List α) × α × α)
    (hr : constructInputBases Sqrt NormalCDF fuel inputs = Except.ok r) :
    ∃ n : Nat, n ≤ fuel ∧
      (∀ m : Nat, m < n →
        Nat.iterate (fun x => x + (maxPoint - minPoint) / 1000) m minPoint < maxPoint) ∧
      ¬ (Nat.iterate (fun x => x + (maxPoint - minPoint) / 1000) n minPoint < maxPoint) := by
  cases inputs with
  | nil => simp [determineOutputRange] at hrange
  | cons est rest =>
    unfold constructInputBases at hr
    rw [hrange] at hr
    simp only [basesLoop] at hr
    cases hb : binLoop (NormalCDF (computeMean est) (computeStdDev Sqrt est)) maxPoint
        ((maxPoint - minPoint) / 1000) fuel minPoint [] with
    | error f => simp [hb] at hr
    | ok basis => exact binLoop_ok_run _ _ _ fuel minPoint [] basis hb

/-- If the loop condition still holds after `fuel` additions of the interval, the run of
`constructInputBases` on a non-empty list is cut off by the fuel. -/
theorem constructInputBases_running (Sqrt : α → α) (NormalCDF : α → α → α → α)
    (fuel : Nat) (est : ThreePointEstimate α) (rest : List (ThreePointEstimate α))
    (minPoint maxPoint : α)
    (hrange : determineOutputRange Sqrt (est :: rest) = Except.ok (minPoint, maxPoint))
    (hrun : ∀ m : Nat, m ≤ fuel →
      Nat.iterate (fun x => x + (maxPoint - minPoint) / 1000) m minPoint < maxPoint) :
    constructInputBases Sqrt NormalCDF fuel (est :: rest)
      = Except.error Fault.fuelExhausted := by
  unfold constructInputBases
  rw [hrange]
  simp only [basesLoop, binLoop_running _ maxPoint _ fuel minPoint [] hrun]

theorem linearPooling_length [Zero α] (Sqrt : α → α) (NormalCDF : α → α → α → α) (fuel n : Nat)
    (inputs : List (ThreePointEstimate α)) (bases : List (List α)) (first : List α)
    (minPoint maxPoint : α)
    (hbases : constructInputBases Sqrt NormalCDF fuel inputs
      = Except.ok (bases, minPoint, maxPoint))
    (h0 : bases[0]? = some first) (hlen : ∀ b ∈ bases, b.length = n) :
    ∃ arr : List α, linearPooling Sqrt NormalCDF fuel inputs
      = Except.ok (arr, minPoint, maxPoint) ∧ arr.length = n := by
  obtain ⟨arr, harr, hl⟩ := pooled_length (fun point x => point + x) 0
    (fun point => point / (bases.length : α)) bases n first h0 hlen
  refine ⟨arr, ?_, hl⟩
  unfold linearPooling
  rw [hbases]
  simp only [h0, harr]

theorem logisticPooling_length [One α] (Sqrt : α → α) (NormalCDF : α → α → α → α)
    (Pow : α → α → α) (fuel n : Nat)
    (inputs : List (ThreePointEstimate α)) (bases : List (List α)) (first : List α)
    (minPoint maxPoint : α)
    (hbases : constructInputBases Sqrt NormalCDF fuel inputs
      = Except.ok (bases, minPoint, maxPoint))
    (h0 : bases[0]? = some first) (hlen : ∀ b ∈ bases, b.length = n) :
    ∃ arr : List α, logisticPooling Sqrt NormalCDF Pow fuel inputs
      = Except.ok (arr, minPoint, maxPoint) ∧ arr.length = n := by
  obtain ⟨arr, harr, hl⟩ := pooled_length (fun point x => point * x) 1
    (fun point => Pow point (1 / (bases.length : α))) bases n first h0 hlen
  refine ⟨arr, ?_, hl⟩
  unfold logisticPooling
  rw [hbases]
  simp only [h0, harr]

end CarrierRun

section CarrierRange

variable {α : Type} [NatCast α] [Add α] [Sub α] [Mul α] [Div α] [LT α]
  [DecidableRel (fun (a b : α) => a < b)]

theorem determineOutputRange_cons_eq (Sqrt : α → α) (e0 : ThreePointEstimate α)
    (rest : List (ThreePointEstimate α)) :
    determineOutputRange Sqrt (e0 :: rest)
      = Except.ok (rest.foldl (rangeStep Sqrt) (windowLow Sqrt e0, windowHigh Sqrt e0)) := rfl

theorem rangeStep_eq (Sqrt : α → α) (acc : α × α) (est : ThreePointEstimate α) :
    rangeStep Sqrt acc est
      = if windowLow Sqrt est < acc.1 then (windowLow Sqrt est, windowHigh Sqrt est)
        else acc := rfl

/-- Invariant of the loop of `determineOutputRange` that needs only an irreflexive and
transitive `<` (as that of `float64` is, `NaN` included): whatever is not below the starting
lower end is not below the final one, no window seen starts below the final lower end, and
the final pair is the starting pair or the window of an estimate seen. -/
theorem foldl_rangeStep_not_below (Sqrt : α → α) (hirr : ∀ a : α, ¬ a < a)
    (htrans : ∀ a b c : α, a < b → b < c → a < c) :
    ∀ (rest : List (ThreePointEstimate α)) (acc : α × α),
      (∀ x : α, ¬ x < acc.1 → ¬ x < (rest.foldl (rangeStep Sqrt) acc).1) ∧
      (∀ est ∈ rest, ¬ windowLow Sqrt est < (rest.foldl (rangeStep Sqrt) acc).1) ∧
      (rest.foldl (rangeStep Sqrt) acc = acc ∨
        ∃ est ∈ rest,
          rest.foldl (rangeStep Sqrt) acc = (windowLow Sqrt est, windowHigh Sqrt est)) := by
  intro rest
  induction rest with
  | nil =>
    intro acc
    exact ⟨fun x hx => hx, fun est hest => absurd hest (List.not_mem_nil est), Or.inl rfl⟩
  | cons e rest ih =>
    intro acc
    obtain ⟨h1, h2, h3⟩ := ih (rangeStep Sqrt acc e)
    have hkeep : ∀ x : α, ¬ x < acc.1 → ¬ x < (rangeStep Sqrt acc e).1 := by
      intro x hx
      rw [rangeStep_eq]
      by_cases hlt : windowLow Sqrt e < acc.1
      · rw [if_pos hlt]
        exact fun hxe => hx (htrans _ _ _ hxe hlt)
      · rw [if_neg hlt]
        exact hx
    have hself : ¬ windowLow Sqrt e < (rangeStep Sqrt acc e).1 := by
      rw [rangeStep_eq]
      by_cases hlt : windowLow Sqrt e < acc.1
      · rw [if_pos hlt]
        exact hirr _
      · rw [if_neg hlt]
        exact hlt
    simp only [List.foldl_cons]
    refine ⟨fun x hx => h1 x (hkeep x hx), ?_, ?_⟩
    · intro est hest
      rcases List.mem_cons.mp hest with rfl | hmem
      · exact h1 _ hself
      · exact h2 est hmem
    · rcases h3 with h3 | ⟨est, hmem, h3⟩
      · rw [h3, rangeStep_eq]
        by_cases hlt : windowLow Sqrt e < acc.1
        · rw [if_pos hlt]
          exact Or.inr ⟨e, List.mem_cons_self _ _, rfl⟩
        · rw [if_neg hlt]
          exact Or.inl rfl
      · exact Or.inr ⟨est, List.mem_cons_of_mem _ hmem, h3⟩

/-- Refined invariant of the loop of `determineOutputRange`, for a `<` that is irreflexive
and transitive and that separates at every lower end seen (`a < c` gives `a < x` or `x < c`,
which fails of `float64` only at `x = NaN`): either no estimate replaced the starting pair,
or the pair is the window of the first estimate attaining the strictly smallest lower end. -/
theorem foldl_rangeStep_first_of (Sqrt : α → α) (hirr : ∀ a : α, ¬ a < a)
    (htrans : ∀ a b c : α, a < b → b < c → a < c) :
    ∀ (rest : List (ThreePointEstimate α)) (acc : α × α),
      (∀ e ∈ rest, ∀ a c : α, a < c → a < windowLow Sqrt e ∨ windowLow Sqrt e < c) →
      (rest.foldl (rangeStep Sqrt) acc = acc ∧ ∀ e ∈ rest, ¬ windowLow Sqrt e < acc.1) ∨
      ∃ (m : Nat) (est : ThreePointEstimate α),
        rest[m]? = some est ∧
        rest.foldl (rangeStep Sqrt) acc = (windowLow Sqrt est, windowHigh Sqrt est) ∧
        windowLow Sqrt est < acc.1 ∧
        (∀ i e, i < m → rest[i]? = some e → windowLow Sqrt est < windowLow Sqrt e) ∧
        ∀ e ∈ rest, ¬ windowLow Sqrt e < windowLow Sqrt est := by
  intro rest
  induction rest with
  | nil => intro acc _; exact Or.inl ⟨rfl, fun e he => absurd he (List.not_mem_nil e)⟩
  | cons e0 rest ih =>
    intro acc hsep
    have hsep0 := hsep e0 (List.mem_cons_self _ _)
    have hseprest : ∀ e ∈ rest, ∀ a c : α, a < c →
        a < windowLow Sqrt e ∨ windowLow Sqrt e < c :=
      fun e he => hsep e (List.mem_cons_of_mem _ he)
    simp only [List.foldl_cons]
    by_cases hlt : windowLow Sqrt e0 < acc.1
    · rw [rangeStep_eq, if_pos hlt]
      rcases ih (windowLow Sqrt e0, windowHigh Sqrt e0) hseprest with
        ⟨hr, hall⟩ | ⟨m, est, hm, hr, hlow, hfirst, hall⟩
      · refine Or.inr ⟨0, e0, List.getElem?_cons_zero, hr, hlt, ?_, ?_⟩
        · intro i e hi _
          exact absurd hi (Nat.not_lt_zero i)
        · intro e he
          rcases List.mem_cons.mp he with rfl | hmem
          · exact hirr _
          · exact hall e hmem
      · refine Or.inr ⟨m + 1, est, by rw [List.getElem?_cons_succ]; exact hm, hr,
          htrans _ _ _ hlow hlt, ?_, ?_⟩
        · intro i e hi hget
          cases i with
          | zero =>
            have : e0 = e := by simpa using hget
            rw [← this]
            exact hlow
          | succ i =>
            rw [List.getElem?_cons_succ] at hget
            exact hfirst i e (Nat.lt_of_succ_lt_succ hi) hget
        · intro e he
          rcases List.mem_cons.mp he with rfl | hmem
          · exact fun h => hirr _ (htrans _ _ _ h hlow)
          · exact hall e hmem
    · rw [rangeStep_eq, if_neg hlt]
      rcases ih acc hseprest with ⟨hr, hall⟩ | ⟨m, est, hm, hr, hlow, hfirst, hall⟩
      · refine Or.inl ⟨hr, ?_⟩
        intro e he
        rcases List.mem_cons.mp he with rfl | hmem
        · exact hlt
        · exact hall e hmem
      · refine Or.inr ⟨m + 1, est, by rw [List.getElem?_cons_succ]; exact hm, hr, hlow, ?_, ?_⟩
        · intro i e hi hget
          cases i with
          | zero =>
            have : e0 = e := by simpa using hget
            rw [← this]
            rcases hsep0 _ _ hlow with h | h
            · exact h
            · exact absurd h hlt
          | succ i =>
            rw [List.getElem?_cons_succ] at hget
            exact hfirst i e (Nat.lt_of_succ_lt_succ hi) hget
        · intro e he
          rcases List.mem_cons.mp he with rfl | hmem
          · exact fun h => hlt (htrans _ _ _ h hlow)
          · exact hall e hmem

end CarrierRange

section F64Lemmas

theorem F64.lt_irrefl (a : F64) : ¬ a < a := by
  intro h
  change F64.lt a a = true at h
  cases a <;> simp [F64.lt] at h

theorem F64.lt_trans (a b c : F64) (hab : a < b) (hbc : b < c) : a < c := by
  change F64.lt a b = true at hab
  change F64.lt b c = true at hbc
  change F64.lt a c = true
  cases a <;> cases b <;> cases c <;> simp_all [F64.lt]
  omega

/-- Away from `NaN` the comparison separates: a value that is not `NaN` lies above the
smaller or below the larger of two values in strict order. -/
theorem F64.lt_separates (x : F64) (hx : x ≠ F64.nan) (a c : F64) (hac : a < c) :
    a < x ∨ x < c := by
  change F64.lt a c = true at hac
  change F64.lt a x = true ∨ F64.lt x c = true
  cases a <;> cases x <;> cases c <;> simp_all [F64.lt]
  omega

theorem F64.le_of_not_lt (a b : F64) (ha : a ≠ F64.nan) (hb : b ≠ F64.nan) (h : ¬ a < b) :
    b ≤ a := by
  change ¬ F64.lt a b = true at h
  change F64.le b a = true
  cases a <;> cases b <;> simp_all [F64.lt, F64.le]
  rename_i s t
  cases s <;> simp_all

theorem F64.not_lt_nan (a : F64) : ¬ a < F64.nan := by
  intro h
  change F64.lt a F64.nan = true at h
  cases a <;> simp [F64.lt] at h

theorem F64.sub_self_fin (k : Int) : F64.fin k - F64.fin k = 0 := by
  change F64.roundInt (k + -k) (-1074) = F64.fin 0
  rw [add_neg_cancel]
  rfl

end F64Lemmas

section F64Sign

/-- The sign of a rounded value is the sign it was given: `round s a e` is `±k * 2^(-1074)`
with `k ≥ 0` and the sign `s`, or the infinity of sign `s`. -/
theorem F64.round_sign (s : Bool) (a : Nat) (e : Int) :
    (∃ k : Int, 0 ≤ k ∧ F64.round s a e = F64.fin (if s then -k else k)) ∨
    F64.round s a e = F64.inf s := by
  unfold F64.round
  by_cases ha : a = 0
  · left
    refine ⟨0, le_refl 0, ?_⟩
    rw [if_pos ha]
    cases s <;> rfl
  · rw [if_neg ha]
    by_cases hov : 2 ^ 2098 ≤ F64.roundMag a e
    · right
      exact if_pos hov
    · left
      exact ⟨_, Int.natCast_nonneg _, if_neg hov⟩

theorem F64.round_true_nonPos (a : Nat) (e : Int) : F64.isNonPos (F64.round true a e) = true := by
  rcases F64.round_sign true a e with ⟨k, hk, h⟩ | h
  · rw [h]
    simp only [if_true, F64.isNonPos, decide_eq_true_eq]
    omega
  · rw [h]
    rfl

theorem F64.round_false_nonNeg (a : Nat) (e : Int) :
    F64.isNonNeg (F64.round false a e) = true := by
  rcases F64.round_sign false a e with ⟨k, hk, h⟩ | h
  · rw [h]
    simpa [F64.isNonNeg] using hk
  · rw [h]
    rfl

theorem F64.round_zero (s : Bool) (e : Int) : F64.round s 0 e = F64.fin 0 := rfl

theorem F64.roundInt_nonPos (z e : Int) (hz : z ≤ 0) :
    F64.isNonPos (F64.roundInt z e) = true := by
  unfold F64.roundInt
  by_cases h0 : z = 0
  · rw [h0]
    rfl
  · have hneg : z < 0 := lt_of_le_of_ne hz h0
    rw [decide_eq_true hneg]
    exact F64.round_true_nonPos _ _

theorem F64.roundInt_nonNeg (z e : Int) (hz : 0 ≤ z) :
    F64.isNonNeg (F64.roundInt z e) = true := by
  unfold F64.roundInt
  rw [decide_eq_false (not_lt.mpr hz)]
  exact F64.round_false_nonNeg _ _

/-- The two differences `x - l` and `l - x` have opposite signs, for finite `l`. -/
theorem F64.sub_opposite (x : F64) (l : Int) :
    (F64.isNonNeg (x - F64.fin l) = true ∧ F64.isNonPos (F64.fin l - x) = true) ∨
    (F64.isNonPos (x - F64.fin l) = true ∧ F64.isNonNeg (F64.fin l - x) = true) := by
  cases x with
  | nan => exact Or.inl ⟨rfl, rfl⟩
  | inf s => cases s
             · exact Or.inl ⟨rfl, rfl⟩
             · exact Or.inr ⟨rfl, rfl⟩
  | fin m =>
    change (F64.isNonNeg (F64.roundInt (m + -l) (-1074)) = true
        ∧ F64.isNonPos (F64.roundInt (l + -m) (-1074)) = true)
      ∨ (F64.isNonPos (F64.roundInt (m + -l) (-1074)) = true
        ∧ F64.isNonNeg (F64.roundInt (l + -m) (-1074)) = true)
    by_cases h : l ≤ m
    · exact Or.inl ⟨F64.roundInt_nonNeg _ _ (by omega), F64.roundInt_nonPos _ _ (by omega)⟩
    · exact Or.inr ⟨F64.roundInt_nonPos _ _ (by omega), F64.roundInt_nonNeg _ _ (by omega)⟩

/-- A product of factors of opposite signs is not above zero. -/
theorem F64.mul_nonNeg_nonPos (x y : F64) (hx : F64.isNonNeg x = true)
    (hy : F64.isNonPos y = true) : F64.isNonPos (x * y) = true := by
  cases x with
  | nan => cases y <;> rfl
  | inf s =>
    cases y with
    | nan => rfl
    | inf t =>
      simp only [F64.isNonNeg, Bool.not_eq_true'] at hx
      simp only [F64.isNonPos] at hy
      rw [hx, hy]
      rfl
    | fin b =>
      simp only [F64.isNonNeg, Bool.not_eq_true'] at hx
      simp only [F64.isNonPos, decide_eq_true_eq] at hy
      rw [hx]
      change F64.isNonPos (if b = 0 then F64.nan else F64.inf (xor false (decide (b < 0)))) = true
      by_cases hb : b = 0
      · rw [if_pos hb]
        rfl
      · rw [if_neg hb, decide_eq_true (lt_of_le_of_ne hy hb)]
        rfl
  | fin a =>
    simp only [F64.isNonNeg, decide_eq_true_eq] at hx
    cases y with
    | nan => rfl
    | inf t =>
      simp only [F64.isNonPos] at hy
      rw [hy]
      change F64.isNonPos (if a = 0 then F64.nan else F64.inf (xor (decide (a < 0)) true)) = true
      by_cases ha : a = 0
      · rw [if_pos ha]
        rfl
      · rw [if_neg ha, decide_eq_false (not_lt.mpr hx)]
        rfl
    | fin b =>
      simp only [F64.isNonPos, decide_eq_true_eq] at hy
      exact F64.roundInt_nonPos _ _ (mul_nonpos_of_nonneg_of_nonpos hx hy)

theorem F64.mul_nonPos_nonNeg (x y : F64) (hx : F64.isNonPos x = true)
    (hy : F64.isNonNeg y = true) : F64.isNonPos (x * y) = true := by
  cases x with
  | nan => cases y <;> rfl
  | inf s =>
    cases y with
    | nan => rfl
    | inf t =>
      simp only [F64.isNonPos] at hx
      simp only [F64.isNonNeg, Bool.not_eq_true'] at hy
      rw [hx, hy]
      rfl
    | fin b =>
      simp only [F64.isNonPos] at hx
      simp only [F64.isNonNeg, decide_eq_true_eq] at hy
      rw [hx]
      change F64.isNonPos (if b = 0 then F64.nan else F64.inf (xor true (decide (b < 0)))) = true
      by_cases hb : b = 0
      · rw [if_pos hb]
        rfl
      · rw [if_neg hb, decide_eq_false (not_lt.mpr hy)]
        rfl
  | fin a =>
    simp only [F64.isNonPos, decide_eq_true_eq] at hx
    cases y with
    | nan => rfl
    | inf t =>
      simp only [F64.isNonNeg, Bool.not_eq_true'] at hy
      rw [hy]
      change F64.isNonPos (if a = 0 then F64.nan else F64.inf (xor (decide (a < 0)) false)) = true
      by_cases ha : a = 0
      · rw [if_pos ha]
        rfl
      · rw [if_neg ha, decide_eq_true (lt_of_le_of_ne hx ha)]
        rfl
    | fin b =>
      simp only [F64.isNonNeg, decide_eq_true_eq] at hy
      exact F64.roundInt_nonPos _ _ (mul_nonpos_of_nonpos_of_nonneg hx hy)

theorem F64.seven_eq : (7 : F64) = F64.fin (7 * 2 ^ 1074) := by decide!

/-- Division by a positive finite number keeps a value that is not above zero so. -/
theorem F64.div_pos_nonPos (x : F64) (b : Int) (hb : 0 < b) (hx : F64.isNonPos x = true) :
    F64.isNonPos (F64.div x (F64.fin b)) = true := by
  have hb0 : ¬ b = 0 := ne_of_gt hb
  have hbneg : decide (b < 0) = false := decide_eq_false (not_lt.mpr (le_of_lt hb))
  cases x with
  | nan => rfl
  | inf s =>
    simp only [F64.isNonPos] at hx
    simp only [F64.div, hx, hbneg]
    rfl
  | fin a =>
    simp only [F64.isNonPos, decide_eq_true_eq] at hx
    by_cases ha : a = 0
    · simp only [F64.div, if_neg hb0, ha, Int.natAbs_zero, Nat.zero_mul, Nat.zero_div,
        Nat.zero_mod, if_true, Nat.mul_zero, Nat.add_zero, F64.round_zero]
      rfl
    · simp only [F64.div, if_neg hb0, hbneg, decide_eq_true (lt_of_le_of_ne hx ha)]
      exact F64.round_true_nonPos _ _

/-- Division by 7 keeps a value that is not above zero so. -/
theorem F64.div_seven_nonPos (x : F64) (hx : F64.isNonPos x = true) :
    F64.isNonPos (x / 7) = true := by
  rw [F64.seven_eq]
  exact F64.div_pos_nonPos x _ (by positivity) hx

/-- The square root of a value that is not above zero is 0 or `NaN`. -/
theorem F64.sqrt_nonPos (x : F64) (hx : F64.isNonPos x = true) :
    F64.sqrt x = 0 ∨ F64.sqrt x = F64.nan := by
  cases x with
  | nan => exact Or.inr rfl
  | inf s =>
    simp only [F64.isNonPos] at hx
    rw [hx]
    exact Or.inr rfl
  | fin k =>
    simp only [F64.isNonPos, decide_eq_true_eq] at hx
    by_cases hk : k = 0
    · rw [hk]
      exact Or.inl (by decide!)
    · right
      have hneg : k < 0 := lt_of_le_of_ne hx hk
      change (if k < 0 then F64.nan else _) = F64.nan
      rw [if_pos hneg]

theorem F64.not_pos_of_nonPos (x : F64) (hx : F64.isNonPos x = true) : ¬ (0 < x) := by
  intro h
  change F64.lt (F64.fin 0) x = true at h
  cases x with
  | nan => simp [F64.lt] at h
  | inf s =>
    simp only [F64.isNonPos] at hx
    rw [hx] at h
    simp [F64.lt] at h
  | fin k =>
    simp only [F64.isNonPos, decide_eq_true_eq] at hx
    simp only [F64.lt, decide_eq_true_eq] at h
    omega

end F64Sign

section F64Facts

/-- The window of the first labor estimate `(7.5, 10, 15)` of `main` in binary64, and the
thousandth of its width: `minPoint = -0.638749…`, `maxPoint = 21.472082…` and
`interval = 0.022110…`, as integer multiples of `2^(-1074)`. -/
theorem labor_window_values :
    windowLow F64.sqrt (⟨15 / 2, 10, 15⟩ : ThreePointEstimate F64)
        = F64.fin (-89895972337451 * 2 ^ 1027) ∧
    windowHigh F64.sqrt (⟨15 / 2, 10, 15⟩ : ThreePointEstimate F64)
        = F64.fin (6043853959480235 * 2 ^ 1026) ∧
    (windowHigh F64.sqrt (⟨15 / 2, 10, 15⟩ : ThreePointEstimate F64)
        - windowLow F64.sqrt ⟨15 / 2, 10, 15⟩) / 1000
        = F64.fin (1593253351463715 * 2 ^ 1018) := by
  decide!

/-- The run of the binning loop on `(7.5, 10, 15)` in binary64, a hundred iterations at a
time: the loop condition `j < maxPoint` holds at each of the first 1000 values of `j`, the
1000th addition gives `21.47208263451777`, still below `maxPoint = 21.472082634518`, and
one more iteration gives `21.49419346645347`. -/
theorem labor_steps :
    binSteps (F64.fin (6043853959480235 * 2 ^ 1026)) (F64.fin (1593253351463715 * 2 ^ 1018)) 100
        (F64.fin (-89895972337451 * 2 ^ 1027))
      = some (F64.fin (7081162331849779 * 2 ^ 1022)) ∧
    binSteps (F64.fin (6043853959480235 * 2 ^ 1026)) (F64.fin (1593253351463715 * 2 ^ 1018)) 100
        (F64.fin (7081162331849779 * 2 ^ 1022))
      = some (F64.fin (4259748944624495 * 2 ^ 1024)) ∧
    binSteps (F64.fin (6043853959480235 * 2 ^ 1026)) (F64.fin (1593253351463715 * 2 ^ 1018)) 100
        (F64.fin (4259748944624495 * 2 ^ 1024))
      = some (F64.fin (3374603653143295 * 2 ^ 1025)) ∧
    binSteps (F64.fin (6043853959480235 * 2 ^ 1026)) (F64.fin (1593253351463715 * 2 ^ 1018)) 100
        (F64.fin (3374603653143295 * 2 ^ 1025))
      = some (F64.fin (1154833208493585 * 2 ^ 1027)) ∧
    binSteps (F64.fin (6043853959480235 * 2 ^ 1026)) (F64.fin (1593253351463715 * 2 ^ 1018)) 100
        (F64.fin (1154833208493585 * 2 ^ 1027))
      = some (F64.fin (1466015503701335 * 2 ^ 1027)) ∧
    binSteps (F64.fin (6043853959480235 * 2 ^ 1026)) (F64.fin (1593253351463715 * 2 ^ 1018)) 100
        (F64.fin (1466015503701335 * 2 ^ 1027))
      = some (F64.fin (1777197798909085 * 2 ^ 1027)) ∧
    binSteps (F64.fin (6043853959480235 * 2 ^ 1026)) (F64.fin (1593253351463715 * 2 ^ 1018)) 100
        (F64.fin (1777197798909085 * 2 ^ 1027))
      = some (F64.fin (2088380094116835 * 2 ^ 1027)) ∧
    binSteps (F64.fin (6043853959480235 * 2 ^ 1026)) (F64.fin (1593253351463715 * 2 ^ 1018)) 100
        (F64.fin (2088380094116835 * 2 ^ 1027))
      = some (F64.fin (2399562389324585 * 2 ^ 1027)) ∧
    binSteps (F64.fin (6043853959480235 * 2 ^ 1026)) (F64.fin (1593253351463715 * 2 ^ 1018)) 100
        (F64.fin (2399562389324585 * 2 ^ 1027))
      = some (F64.fin (2710744684532335 * 2 ^ 1027)) ∧
    binSteps (F64.fin (6043853959480235 * 2 ^ 1026)) (F64.fin (1593253351463715 * 2 ^ 1018)) 100
        (F64.fin (2710744684532335 * 2 ^ 1027))
      = some (F64.fin (3021926979740085 * 2 ^ 1027)) ∧
    binSteps (F64.fin (6043853959480235 * 2 ^ 1026)) (F64.fin (1593253351463715 * 2 ^ 1018)) 1
        (F64.fin (3021926979740085 * 2 ^ 1027))
      = some (F64.fin (6050077605384325 * 2 ^ 1026)) := by
  refine ⟨?_, ?_, ?_, ?_, ?_, ?_, ?_, ?_, ?_, ?_, ?_⟩ <;> decide!

theorem labor_window_lt :
    windowLow F64.sqrt (⟨15 / 2, 10, 15⟩ : ThreePointEstimate F64)
        < windowHigh F64.sqrt ⟨15 / 2, 10, 15⟩ ∧
    windowHigh F64.sqrt (⟨15 / 2, 10, 15⟩ : ThreePointEstimate F64)
        < F64.fin (6050077605384325 * 2 ^ 1026) := by
  decide!

/-- The loop condition on `(7.5, 10, 15)` in binary64: it holds at the first 1001 values of
the loop variable and fails at the next, which is `21.49419346645347`. -/
theorem labor_run :
    (∀ m : Nat, m < 1001 →
      Nat.iterate (fun x => x + (windowHigh F64.sqrt (⟨15 / 2, 10, 15⟩ : ThreePointEstimate F64)
        - windowLow F64.sqrt ⟨15 / 2, 10, 15⟩) / 1000) m
        (windowLow F64.sqrt ⟨15 / 2, 10, 15⟩)
      < windowHigh F64.sqrt ⟨15 / 2, 10, 15⟩) ∧
    ¬ (Nat.iterate (fun x => x + (windowHigh F64.sqrt (⟨15 / 2, 10, 15⟩ : ThreePointEstimate F64)
        - windowLow F64.sqrt ⟨15 / 2, 10, 15⟩) / 1000) 1001
        (windowLow F64.sqrt ⟨15 / 2, 10, 15⟩)
      < windowHigh F64.sqrt ⟨15 / 2, 10, 15⟩) ∧
    Nat.iterate (fun x => x + (windowHigh F64.sqrt (⟨15 / 2, 10, 15⟩ : ThreePointEstimate F64)
        - windowLow F64.sqrt ⟨15 / 2, 10, 15⟩) / 1000) 1000
        (windowLow F64.sqrt ⟨15 / 2, 10, 15⟩)
      + (windowHigh F64.sqrt (⟨15 / 2, 10, 15⟩ : ThreePointEstimate F64)
        - windowLow F64.sqrt ⟨15 / 2, 10, 15⟩) / 1000
      = F64.fin (6050077605384325 * 2 ^ 1026) := by
  obtain ⟨hlow, hhigh, hint⟩ := labor_window_values
  obtain ⟨h0, h1, h2, h3, h4, h5, h6, h7, h8, h9, h10⟩ := labor_steps
  have hall := binSteps_append _ _ _ _ _ h10 _ _
    (binSteps_append _ _ _ _ _ h9 _ _
    (binSteps_append _ _ _ _ _ h8 _ _
    (binSteps_append _ _ _ _ _ h7 _ _
    (binSteps_append _ _ _ _ _ h6 _ _
    (binSteps_append _ _ _ _ _ h5 _ _
    (binSteps_append _ _ _ _ _ h4 _ _
    (binSteps_append _ _ _ _ _ h3 _ _
    (binSteps_append _ _ _ _ _ h2 _ _
    (binSteps_append _ _ _ _ _ h1 _ _ h0)))))))))
  obtain ⟨hrun, hend⟩ := binSteps_spec _ _ 1001 _ _ hall
  rw [hint, hlow, hhigh]
  refine ⟨hrun, ?_, ?_⟩
  · rw [hend]
    decide!
  · rw [Function.iterate_succ_apply'] at hend
    exact hend

/-- In binary64 the estimate `(2^50 - 1, 2^50, 2^50 + 1)` has a window so narrow that adding
a thousandth of its width to its lower end changes nothing. -/
theorem narrow_window_stuck :
    windowLow F64.sqrt
        (⟨1125899906842623, 1125899906842624, 1125899906842625⟩ : ThreePointEstimate F64)
      < windowHigh F64.sqrt ⟨1125899906842623, 1125899906842624, 1125899906842625⟩ ∧
    windowLow F64.sqrt
        (⟨1125899906842623, 1125899906842624, 1125899906842625⟩ : ThreePointEstimate F64)
      + (windowHigh F64.sqrt
          (⟨1125899906842623, 1125899906842624, 1125899906842625⟩ : ThreePointEstimate F64)
        - windowLow F64.sqrt ⟨1125899906842623, 1125899906842624, 1125899906842625⟩) / 1000
      = windowLow F64.sqrt ⟨1125899906842623, 1125899906842624, 1125899906842625⟩ := by
  decide!

/-- The bins of a CDF that is 0 up to `threshold` and 1 above it are all 0 as long as the
loop variable has not passed `threshold`. -/
theorem binsFrom_step (threshold interval : F64) :
    ∀ (n : Nat) (j : F64),
      (∀ m : Nat, m ≤ n → ¬ (threshold < Nat.iterate (fun x => x + interval) m j)) →
      binsFrom (fun x => if threshold < x then (1 : F64) else 0) interval j n
        = List.replicate n 0 := by
  intro n
  induction n with
  | zero => intro j _; rfl
  | succ n ih =>
    intro j h
    have h0 : ¬ (threshold < j) := h 0 (Nat.zero_le _)
    have h1 : ¬ (threshold < j + interval) := h 1 (Nat.succ_le_succ (Nat.zero_le n))
    rw [binsFrom, ih (j + interval) (fun m hm => h (m + 1) (Nat.succ_le_succ hm)),
      if_neg h0, if_neg h1, List.replicate_succ]
    rfl

theorem foldl_add_replicate_zero :
    ∀ n : Nat, (List.replicate n (0 : F64)).foldl (fun sum x => sum + x) 0 = 0 := by
  intro n
  induction n with
  | zero => rfl
  | succ n ih =>
    rw [List.replicate_succ, List.foldl_cons]
    exact ih

end F64Facts

section Lemmas

variable {α : Type} [LinearOrderedField α]

theorem basisOf_length (cdf : α → α) (minPoint interval : α) (n : Nat) :
    (basisOf cdf minPoint interval n).length = n := by
  simp [basisOf]

theorem basisOf_succ (cdf : α → α) (j interval : α) (n : Nat) :
    basisOf cdf j interval (n + 1)
      = (cdf (j + interval) - cdf j) :: basisOf cdf (j + interval) interval n := by
  unfold basisOf
  rw [List.range_succ_eq_map, List.map_cons, List.map_map]
  congr 1
  · simp
  · apply List.map_congr_left
    intro m _
    have h : j + ((m + 1 : Nat) : α) * interval = j + interval + (m : α) * interval := by
      push_cast
      ring
    simp only [Function.comp, Nat.succ_eq_add_one, h]

/-- If the loop condition holds for the first `n` values of `j` and fails for the next one,
the binning loop runs exactly `n` times, provided it has fuel for `n` iterations. -/
theorem binLoop_run (cdf : α → α) (maxPoint interval : α) :
    ∀ (n fuel : Nat) (j : α) (basis : List α), n ≤ fuel →
      (∀ m : Nat, m < n → j + (m : α) * interval < maxPoint) →
      ¬ (j + (n : α) * interval < maxPoint) →
      binLoop cdf maxPoint interval fuel j basis
        = Except.ok (basis ++ basisOf cdf j interval n) := by
  intro n
  induction n with
  | zero =>
    intro fuel j basis _ _ hstop
    have hj : ¬ j < maxPoint := by simpa using hstop
    cases fuel <;> simp [binLoop, hj, basisOf]
  | succ n ih =>
    intro fuel j basis hfuel hrun hstop
    obtain ⟨f, rfl⟩ : ∃ f, fuel = f + 1 := ⟨fuel - 1, by omega⟩
    have hj : j < maxPoint := by simpa using hrun 0 (Nat.succ_pos n)
    have hrun2 : ∀ m : Nat, m < n → j + interval + (m : α) * interval < maxPoint := by
      intro m hm
      have h := hrun (m + 1) (Nat.succ_lt_succ hm)
      have e : j + ((m + 1 : Nat) : α) * interval = j + interval + (m : α) * interval := by
        push_cast
        ring
      rwa [e] at h
    have hstop2 : ¬ (j + interval + (n : α) * interval < maxPoint) := by
      have e : j + ((n + 1 : Nat) : α) * interval = j + interval + (n : α) * interval := by
        push_cast
        ring
      rwa [e] at hstop
    rw [binLoop, if_pos hj, ih f (j + interval) _ (by omega) hrun2 hstop2, basisOf_succ]
    simp

/-- In exact arithmetic the binning loop over `[minPoint, maxPoint)` with step
`(maxPoint - minPoint) / 1000` stops after `binCount minPoint maxPoint` iterations. -/
theorem binLoop_window (cdf : α → α) (minPoint maxPoint : α) (fuel : Nat) (hfuel : 1000 ≤ fuel) :
    binLoop cdf maxPoint ((maxPoint - minPoint) / 1000) fuel minPoint []
      = Except.ok (basisOf cdf minPoint ((maxPoint - minPoint) / 1000)
          (binCount minPoint maxPoint)) := by
  by_cases h : minPoint < maxPoint
  · have hd : 0 < maxPoint - minPoint := sub_pos.mpr h
    have hrun : ∀ m : Nat, m < 1000 →
        minPoint + (m : α) * ((maxPoint - minPoint) / 1000) < maxPoint := by
      intro m hm
      have hm2 : (m : α) < 1000 := by exact_mod_cast hm
      have e : maxPoint - (minPoint + (m : α) * ((maxPoint - minPoint) / 1000))
          = (maxPoint - minPoint) * ((1000 - (m : α)) / 1000) := by ring
      rw [← sub_pos, e]
      exact mul_pos hd (div_pos (by linarith) (by norm_num))
    have hstop : ¬ (minPoint + ((1000 : Nat) : α) * ((maxPoint - minPoint) / 1000)
        < maxPoint) := by
      have e : minPoint + ((1000 : Nat) : α) * ((maxPoint - minPoint) / 1000) = maxPoint := by
        push_cast
        ring
      rw [e]
      exact lt_irrefl _
    have := binLoop_run cdf maxPoint ((maxPoint - minPoint) / 1000) 1000 fuel minPoint []
      hfuel hrun hstop
    simpa [binCount, h] using this
  · have := binLoop_run cdf maxPoint ((maxPoint - minPoint) / 1000) 0 fuel minPoint []
      (Nat.zero_le _) (fun m hm => absurd hm (Nat.not_lt_zero m)) (by simpa using h)
    simpa [binCount, h] using this

theorem basesLoop_run (Sqrt : α → α) (NormalCDF : α → α → α → α) (fuel : Nat)
    (hfuel : 1000 ≤ fuel) (minPoint maxPoint : α) :
    ∀ (inputs : List (ThreePointEstimate α)) (inputBases : List (List α)),
      basesLoop Sqrt NormalCDF fuel minPoint maxPoint ((maxPoint - minPoint) / 1000)
          inputs inputBases
        = Except.ok (inputBases ++ basesOf Sqrt NormalCDF minPoint maxPoint inputs) := by
  intro inputs
  induction inputs with
  | nil => intro inputBases; simp [basesLoop, basesOf]
  | cons est rest ih =>
    intro inputBases
    rw [basesLoop, binLoop_window _ _ _ _ hfuel]
    simp only [ih]
    simp [basesOf]

theorem determineOutputRange_cons (Sqrt : α → α) (e0 : ThreePointEstimate α)
    (rest : List (ThreePointEstimate α)) :
    determineOutputRange Sqrt (e0 :: rest)
      = Except.ok (rest.foldl (rangeStep Sqrt) (windowLow Sqrt e0, windowHigh Sqrt e0)) := rfl

theorem determineOutputRange_ok (Sqrt : α → α) (inputs : List (ThreePointEstimate α))
    (hne : inputs ≠ []) : ∃ p : α × α, determineOutputRange Sqrt inputs = Except.ok p := by
  cases inputs with
  | nil => exact absurd rfl hne
  | cons e0 rest => exact ⟨_, rfl⟩

theorem constructInputBases_run (Sqrt : α → α) (NormalCDF : α → α → α → α) (fuel : Nat)
    (hfuel : 1000 ≤ fuel) (inputs : List (ThreePointEstimate α)) (minPoint maxPoint : α)
    (hrange : determineOutputRange Sqrt inputs = Except.ok (minPoint, maxPoint)) :
    constructInputBases Sqrt NormalCDF fuel inputs
      = Except.ok (basesOf Sqrt NormalCDF minPoint maxPoint inputs, minPoint, maxPoint) := by
  unfold constructInputBases
  rw [hrange]
  simp only [basesLoop_run Sqrt NormalCDF fuel hfuel, List.nil_append]

theorem basesOf_length (Sqrt : α → α) (NormalCDF : α → α → α → α) (minPoint maxPoint : α)
    (inputs : List (ThreePointEstimate α)) :
    (basesOf Sqrt NormalCDF minPoint maxPoint inputs).length = inputs.length := by
  simp [basesOf]

theorem basesOf_mem_length (Sqrt : α → α) (NormalCDF : α → α → α → α) (minPoint maxPoint : α)
    (inputs : List (ThreePointEstimate α)) (b : List α)
    (hb : b ∈ basesOf Sqrt NormalCDF minPoint maxPoint inputs) :
    b.length = binCount minPoint maxPoint := by
  simp only [basesOf, List.mem_map] at hb
  obtain ⟨est, _, rfl⟩ := hb
  exact basisOf_length _ _ _ _

theorem columnFold_run (op : α → α → α) (i : Nat) :
    ∀ (bases : List (List α)) (point : α), (∀ b ∈ bases, i < b.length) →
      columnFold op i bases point
        = Except.ok (bases.foldl (fun acc b => op acc (b.getD i 0)) point) := by
  intro bases
  induction bases with
  | nil => intro point _; rfl
  | cons b rest ih =>
    intro point hlen
    have hb : i < b.length := hlen b (List.mem_cons_self _ _)
    have hget : b[i]? = some (b.getD i 0) := by
      simp [List.getD, List.getElem?_eq_getElem hb]
    rw [columnFold, hget]
    simp only [List.foldl_cons]
    exact ih _ (fun b2 hb2 => hlen b2 (List.mem_cons_of_mem _ hb2))

theorem foldl_add_getD (i : Nat) :
    ∀ (bases : List (List α)) (point : α),
      bases.foldl (fun acc b => acc + b.getD i 0) point
        = point + (bases.map (fun b => b.getD i 0)).sum := by
  intro bases
  induction bases with
  | nil => intro point; simp
  | cons b rest ih =>
    intro point
    simp only [List.foldl_cons, List.map_cons, List.sum_cons, ih]
    ring

theorem foldl_mul_getD (i : Nat) :
    ∀ (bases : List (List α)) (point : α),
      bases.foldl (fun acc b => acc * b.getD i 0) point
        = point * (bases.map (fun b => b.getD i 0)).prod := by
  intro bases
  induction bases with
  | nil => intro point; simp
  | cons b rest ih =>
    intro point
    simp only [List.foldl_cons, List.map_cons, List.prod_cons, ih]
    ring

/-- Both pooling loops in closed form: when every basis has `n` bins, the outer loop returns
the `n` folded columns, each passed through the final operation `fin`. -/
theorem pooled_run (op : α → α → α) (init : α) (fin : α → α) (bases : List (List α))
    (n : Nat) (first : List α) (h0 : bases[0]? = some first)
    (hlen : ∀ b ∈ bases, b.length = n) :
    poolLoop (fun i =>
        match columnFold op i bases init with
        | Except.error f => Except.error f
        | Except.ok point => Except.ok (fin point)) first.length 0 []
      = Except.ok ((List.range n).map
          (fun i => fin (bases.foldl (fun acc b => op acc (b.getD i 0)) init))) := by
  have hfirst : first.length = n := by
    apply hlen
    have h := List.getElem?_eq_some.mp h0
    obtain ⟨h1, h2⟩ := h
    rw [← h2]
    exact List.getElem_mem _
  rw [hfirst]
  have h := poolLoop_run (fun i =>
        match columnFold op i bases init with
        | Except.error f => Except.error f
        | Except.ok point => Except.ok (fin point))
      (fun i => fin (bases.foldl (fun acc b => op acc (b.getD i 0)) init)) n 0 []
      (by
        intro k hk
        simp only [Nat.zero_add]
        rw [columnFold_run op k bases init (fun b hb => by rw [hlen b hb]; exact hk)])
  simpa using h

theorem basesOf_head (Sqrt : α → α) (NormalCDF : α → α → α → α) (minPoint maxPoint : α)
    (inputs : List (ThreePointEstimate α)) (hne : inputs ≠ []) :
    ∃ first, (basesOf Sqrt NormalCDF minPoint maxPoint inputs)[0]? = some first := by
  cases inputs with
  | nil => exact absurd rfl hne
  | cons e0 rest =>
    exact ⟨basisOf (NormalCDF (computeMean e0) (computeStdDev Sqrt e0)) minPoint
      ((maxPoint - minPoint) / 1000) (binCount minPoint maxPoint), by simp [basesOf]⟩

/-- Closed form of `linearPooling` over a non-empty input with enough fuel. -/
theorem linearPooling_run (Sqrt : α → α) (NormalCDF : α → α → α → α) (fuel : Nat)
    (hfuel : 1000 ≤ fuel) (inputs : List (ThreePointEstimate α)) (hne : inputs ≠ [])
    (minPoint maxPoint : α)
    (hrange : determineOutputRange Sqrt inputs = Except.ok (minPoint, maxPoint)) :
    linearPooling Sqrt NormalCDF fuel inputs
      = Except.ok ((List.range (binCount minPoint maxPoint)).map (fun i =>
            (basesOf Sqrt NormalCDF minPoint maxPoint inputs).foldl
              (fun acc b => acc + b.getD i 0) 0
              / ((basesOf Sqrt NormalCDF minPoint maxPoint inputs).length : α)),
          minPoint, maxPoint) := by
  obtain ⟨first, h0⟩ := basesOf_head Sqrt NormalCDF minPoint maxPoint inputs hne
  unfold linearPooling
  rw [constructInputBases_run Sqrt NormalCDF fuel hfuel inputs minPoint maxPoint hrange]
  simp only [h0]
  rw [pooled_run (fun point x => point + x) 0
    (fun point => point / ((basesOf Sqrt NormalCDF minPoint maxPoint inputs).length : α))
    _ (binCount minPoint maxPoint) first h0
    (basesOf_mem_length Sqrt NormalCDF minPoint maxPoint inputs)]

/-- Closed form of `logisticPooling` over a non-empty input with enough fuel. -/
theorem logisticPooling_run (Sqrt : α → α) (NormalCDF : α → α → α → α) (Pow : α → α → α)
    (fuel : Nat) (hfuel : 1000 ≤ fuel) (inputs : List (ThreePointEstimate α))
    (hne : inputs ≠ []) (minPoint maxPoint : α)
    (hrange : determineOutputRange Sqrt inputs = Except.ok (minPoint, maxPoint)) :
    logisticPooling Sqrt NormalCDF Pow fuel inputs
      = Except.ok ((List.range (binCount minPoint maxPoint)).map (fun i =>
            Pow ((basesOf Sqrt NormalCDF minPoint maxPoint inputs).foldl
              (fun acc b => acc * b.getD i 0) 1)
              (1 / ((basesOf Sqrt NormalCDF minPoint maxPoint inputs).length : α))),
          minPoint, maxPoint) := by
  obtain ⟨first, h0⟩ := basesOf_head Sqrt NormalCDF minPoint maxPoint inputs hne
  unfold logisticPooling
  rw [constructInputBases_run Sqrt NormalCDF fuel hfuel inputs minPoint maxPoint hrange]
  simp only [h0]
  rw [pooled_run (fun point x => point * x) 1
    (fun point => Pow point (1 / ((basesOf Sqrt NormalCDF minPoint maxPoint inputs).length : α)))
    _ (binCount minPoint maxPoint) first h0
    (basesOf_mem_length Sqrt NormalCDF minPoint maxPoint inputs)]

/-- Invariant of the loop of `determineOutputRange`: the pair it ends with has a lower end
below the starting one and below every window it has seen, and it is either the starting
pair or the window of one of the estimates it has seen. -/
theorem foldl_rangeStep (Sqrt : α → α) :
    ∀ (rest : List (ThreePointEstimate α)) (acc : α × α),
      (rest.foldl (rangeStep Sqrt) acc).1 ≤ acc.1 ∧
      (∀ est ∈ rest, (rest.foldl (rangeStep Sqrt) acc).1 ≤ windowLow Sqrt est) ∧
      (rest.foldl (rangeStep Sqrt) acc = acc ∨
        ∃ est ∈ rest,
          rest.foldl (rangeStep Sqrt) acc = (windowLow Sqrt est, windowHigh Sqrt est)) := by
  intro rest
  induction rest with
  | nil => intro acc; simp
  | cons e rest ih =>
    intro acc
    obtain ⟨h1, h2, h3⟩ := ih (rangeStep Sqrt acc e)
    have hstep : rangeStep Sqrt acc e
        = if windowLow Sqrt e < acc.1 then (windowLow Sqrt e, windowHigh Sqrt e) else acc := rfl
    have hle : (rangeStep Sqrt acc e).1 ≤ acc.1 ∧ (rangeStep Sqrt acc e).1 ≤ windowLow Sqrt e := by
      rw [hstep]
      by_cases hlt : windowLow Sqrt e < acc.1
      · rw [if_pos hlt]; exact ⟨le_of_lt hlt, le_refl _⟩
      · rw [if_neg hlt]; exact ⟨le_refl _, not_lt.mp hlt⟩
    simp only [List.foldl_cons]
    refine ⟨le_trans h1 hle.1, ?_, ?_⟩
    · intro est hest
      rcases List.mem_cons.mp hest with rfl | hmem
      · exact le_trans h1 hle.2
      · exact h2 est hmem
    · rcases h3 with h3 | ⟨est, hmem, h3⟩
      · rw [h3, hstep]
        by_cases hlt : windowLow Sqrt e < acc.1
        · rw [if_pos hlt]
          exact Or.inr ⟨e, List.mem_cons_self _ _, rfl⟩
        · rw [if_neg hlt]
          exact Or.inl rfl
      · exact Or.inr ⟨est, List.mem_cons_of_mem _ hmem, h3⟩

/-- The pair returned by `determineOutputRange` on a non-empty list is the 8-sigma window of
one of the input estimates, and its lower end is the smallest of all lower ends. -/
theorem determineOutputRange_window (Sqrt : α → α) (inputs : List (ThreePointEstimate α))
    (hne : inputs ≠ []) :
    ∃ minPoint maxPoint : α,
      determineOutputRange Sqrt inputs = Except.ok (minPoint, maxPoint) ∧
      (∀ est ∈ inputs, minPoint ≤ windowLow Sqrt est) ∧
      ∃ est ∈ inputs, minPoint = windowLow Sqrt est ∧ maxPoint = windowHigh Sqrt est := by
  cases inputs with
  | nil => exact absurd rfl hne
  | cons e0 rest =>
    obtain ⟨h1, h2, h3⟩ := foldl_rangeStep Sqrt rest (windowLow Sqrt e0, windowHigh Sqrt e0)
    refine ⟨_, _, determineOutputRange_cons Sqrt e0 rest, ?_, ?_⟩
    · intro est hest
      rcases List.mem_cons.mp hest with rfl | hmem
      · exact h1
      · exact h2 est hmem
    · rcases h3 with h3 | ⟨est, hmem, h3⟩
      · exact ⟨e0, List.mem_cons_self _ _, by rw [h3], by rw [h3]⟩
      · exact ⟨est, List.mem_cons_of_mem _ hmem, by rw [h3], by rw [h3]⟩

theorem real_sqrt_four : Real.sqrt 4 = 2 := by
  rw [show (4 : ℝ) = 2 ^ 2 by norm_num]
  exact Real.sqrt_sq (by norm_num)

theorem iterate_add_interval (minPoint interval : α) (j : Nat) :
    Nat.iterate (fun x => x + interval) j minPoint = minPoint + (j : α) * interval := by
  induction j with
  | zero => simp
  | succ j ih =>
    rw [Function.iterate_succ_apply', ih]
    push_cast
    ring

theorem basisOf_getElem? (cdf : α → α) (minPoint interval : α) (n j : Nat) (hj : j < n) :
    (basisOf cdf minPoint interval n)[j]?
      = some (cdf (minPoint + (j : α) * interval + interval)
          - cdf (minPoint + (j : α) * interval)) := by
  unfold basisOf
  rw [List.getElem?_map, List.getElem?_range hj, Option.map_some']

theorem computeMean_sub_low (est : ThreePointEstimate α) :
    computeMean est - est.lowPoint
      = (4 * (est.midPoint - est.lowPoint) + (est.highPoint - est.lowPoint)) / 6 := by
  unfold computeMean
  ring

theorem high_sub_computeMean (est : ThreePointEstimate α) :
    est.highPoint - computeMean est
      = (4 * (est.highPoint - est.midPoint) + (est.highPoint - est.lowPoint)) / 6 := by
  unfold computeMean
  ring

theorem stdDevRadicand_eq (est : ThreePointEstimate α) :
    stdDevRadicand est
      = (computeMean est - est.lowPoint) * (est.highPoint - computeMean est) / 7 := rfl

theorem stdDevRadicand_nonneg (est : ThreePointEstimate α)
    (h1 : est.lowPoint ≤ est.midPoint) (h2 : est.midPoint ≤ est.highPoint) :
    0 ≤ stdDevRadicand est := by
  rw [stdDevRadicand_eq, computeMean_sub_low, high_sub_computeMean]
  have ha : 0 ≤ est.midPoint - est.lowPoint := sub_nonneg.mpr h1
  have hb : 0 ≤ est.highPoint - est.midPoint := sub_nonneg.mpr h2
  have hc : 0 ≤ est.highPoint - est.lowPoint := sub_nonneg.mpr (le_trans h1 h2)
  positivity

theorem stdDevRadicand_pos (est : ThreePointEstimate α)
    (h1 : est.lowPoint ≤ est.midPoint) (h2 : est.midPoint ≤ est.highPoint)
    (h3 : est.lowPoint < est.highPoint) : 0 < stdDevRadicand est := by
  rw [stdDevRadicand_eq, computeMean_sub_low, high_sub_computeMean]
  have ha : 0 ≤ est.midPoint - est.lowPoint := sub_nonneg.mpr h1
  have hb : 0 ≤ est.highPoint - est.midPoint := sub_nonneg.mpr h2
  have hc : 0 < est.highPoint - est.lowPoint := sub_pos.mpr h3
  positivity

theorem stdDevRadicand_eq_zero_iff (est : ThreePointEstimate α)
    (h1 : est.lowPoint ≤ est.midPoint) (h2 : est.midPoint ≤ est.highPoint) :
    stdDevRadicand est = 0 ↔ est.lowPoint = est.highPoint := by
  constructor
  · intro h0
    by_contra hne
    have hlt : est.lowPoint < est.highPoint := lt_of_le_of_ne (le_trans h1 h2) hne
    exact absurd h0 (ne_of_gt (stdDevRadicand_pos est h1 h2 hlt))
  · intro heq
    have hmid : est.midPoint = est.lowPoint := le_antisymm (by rw [heq]; exact h2) h1
    rw [stdDevRadicand_eq, computeMean_sub_low, hmid, ← heq]
    simp

theorem computeStdDev_degenerate (Sqrt : α → α) (hsqrt : Sqrt 0 = 0) :
    computeStdDev Sqrt (⟨5, 5, 5⟩ : ThreePointEstimate α) = 0 := by
  have h : stdDevRadicand (⟨5, 5, 5⟩ : ThreePointEstimate α) = 0 := by
    norm_num [stdDevRadicand, computeMean]
  rw [computeStdDev, h, hsqrt]

theorem determineOutputRange_degenerate (Sqrt : α → α) (hsqrt : Sqrt 0 = 0) :
    determineOutputRange Sqrt [(⟨5, 5, 5⟩ : ThreePointEstimate α)] = Except.ok (5, 5) := by
  have hm : computeMean (⟨5, 5, 5⟩ : ThreePointEstimate α) = 5 := by
    norm_num [computeMean]
  simp only [determineOutputRange, List.foldl_nil, computeStdDev_degenerate Sqrt hsqrt, hm]
  norm_num

/-- On the single estimate `(5, 5, 5)` the range is `(5, 5)`, so the binning loop does not
run at all (whatever the fuel) and the one basis is empty. -/
theorem constructInputBases_degenerate (Sqrt : α → α) (NormalCDF : α → α → α → α) (fuel : Nat)
    (hsqrt : Sqrt 0 = 0) :
    constructInputBases Sqrt NormalCDF fuel [(⟨5, 5, 5⟩ : ThreePointEstimate α)]
      = Except.ok ([[]], 5, 5) := by
  unfold constructInputBases
  rw [determineOutputRange_degenerate Sqrt hsqrt]
  cases fuel <;> simp [basesLoop, binLoop]

theorem range_map_getD (b : List α) :
    (List.range b.length).map (fun i => b.getD i 0) = b := by
  apply List.ext_getElem?
  intro i
  by_cases hi : i < b.length
  · rw [List.getElem?_map, List.getElem?_range hi, Option.map_some',
      List.getElem?_eq_getElem hi, List.getD_eq_getElem _ _ hi]
  · rw [List.getElem?_eq_none (by simp; omega), List.getElem?_eq_none (by omega)]

/-- Summing the column sums of equally long bases gives the sum of the bases' sums. -/
theorem sum_columns (n : Nat) :
    ∀ (bases : List (List α)), (∀ b ∈ bases, b.length = n) →
      ((List.range n).map (fun i => (bases.map (fun b => b.getD i 0)).sum)).sum
        = (bases.map List.sum).sum := by
  intro bases
  induction bases with
  | nil => intro _; simp
  | cons b rest ih =>
    intro hlen
    have hb : b.length = n := hlen b (List.mem_cons_self _ _)
    have hrest := ih (fun b2 hb2 => hlen b2 (List.mem_cons_of_mem _ hb2))
    simp only [List.map_cons, List.sum_cons]
    rw [List.sum_map_add, hrest]
    congr 1
    rw [← hb, range_map_getD]

theorem sum_map_div_const (k : α) (f : Nat → α) (l : List Nat) :
    (l.map (fun i => f i / k)).sum = (l.map f).sum / k := by
  induction l with
  | nil => simp
  | cons a l ih => simp only [List.map_cons, List.sum_cons, ih]; ring

theorem foldl_collect (inputs : List (RiskEventInput α)) :
    ∀ (acc : List (ThreePointEstimate α) × α),
      inputs.foldl (fun acc inp => (acc.1 ++ [inp.estimate], acc.2 + inp.likelihood)) acc
        = (acc.1 ++ inputs.map (fun inp => inp.estimate),
            acc.2 + (inputs.map (fun inp => inp.likelihood)).sum) := by
  induction inputs with
  | nil => intro acc; simp
  | cons inp rest ih =>
    intro acc
    simp only [List.foldl_cons, ih, List.map_cons, List.sum_cons, List.append_assoc,
      List.singleton_append, add_assoc]

theorem collectEvents_eq (inputs : List (RiskEventInput α)) :
    collectEvents inputs
      = (inputs.map (fun inp => inp.estimate), (inputs.map (fun inp => inp.likelihood)).sum) := by
  unfold collectEvents
  rw [foldl_collect]
  simp

theorem linearPoolingRiskEvents_run (Sqrt : α → α) (NormalCDF : α → α → α → α) (fuel : Nat)
    (inputs : List (RiskEventInput α)) (dist : List α) (minPoint maxPoint : α)
    (h : linearPooling Sqrt NormalCDF fuel (inputs.map (fun inp => inp.estimate))
      = Except.ok (dist, minPoint, maxPoint)) :
    linearPoolingRiskEvents Sqrt NormalCDF fuel inputs
      = Except.ok (dist, minPoint, maxPoint,
          (inputs.map (fun inp => inp.likelihood)).sum / (inputs.length : α)) := by
  unfold linearPoolingRiskEvents
  rw [collectEvents_eq]
  simp only [h]

theorem logisticPoolingRiskEvents_run (Sqrt : α → α) (NormalCDF : α → α → α → α)
    (Pow : α → α → α) (fuel : Nat)
    (inputs : List (RiskEventInput α)) (dist : List α) (minPoint maxPoint : α)
    (h : logisticPooling Sqrt NormalCDF Pow fuel (inputs.map (fun inp => inp.estimate))
      = Except.ok (dist, minPoint, maxPoint)) :
    logisticPoolingRiskEvents Sqrt NormalCDF Pow fuel inputs
      = Except.ok (dist, minPoint, maxPoint,
          (inputs.map (fun inp => inp.likelihood)).sum / (inputs.length : α)) := by
  unfold logisticPoolingRiskEvents
  rw [collectEvents_eq]
  simp only [h]

theorem linearPoolingRiskItems_eq (Sqrt : α → α) (NormalCDF : α → α → α → α) (fuel : Nat)
    (inputs : List (RiskItemInput α)) :
    linearPoolingRiskItems Sqrt NormalCDF fuel inputs
      = linearPooling Sqrt NormalCDF fuel (inputs.map (fun inp => inp.estimate)) := by
  unfold linearPoolingRiskItems
  rw [foldl_collectItems, List.nil_append]

theorem logisticPoolingRiskItems_eq (Sqrt : α → α) (NormalCDF : α → α → α → α)
    (Pow : α → α → α) (fuel : Nat) (inputs : List (RiskItemInput α)) :
    logisticPoolingRiskItems Sqrt NormalCDF Pow fuel inputs
      = logisticPooling Sqrt NormalCDF Pow fuel (inputs.map (fun inp => inp.estimate)) := by
  unfold logisticPoolingRiskItems
  rw [foldl_collectItems, List.nil_append]

/-- Both pooling functions return a result on a non-empty input with enough fuel, over the
same range. -/
theorem pooling_ok (Sqrt : α → α) (NormalCDF : α → α → α → α) (Pow : α → α → α) (fuel : Nat)
    (hfuel : 1000 ≤ fuel) (inputs : List (ThreePointEstimate α)) (hne : inputs ≠ []) :
    ∃ (linear logistic : List α) (minPoint maxPoint : α),
      linearPooling Sqrt NormalCDF fuel inputs = Except.ok (linear, minPoint, maxPoint) ∧
      logisticPooling Sqrt NormalCDF Pow fuel inputs
        = Except.ok (logistic, minPoint, maxPoint) := by
  obtain ⟨⟨minPoint, maxPoint⟩, hrange⟩ := determineOutputRange_ok Sqrt inputs hne
  exact ⟨_, _, minPoint, maxPoint,
    linearPooling_run Sqrt NormalCDF fuel hfuel inputs hne minPoint maxPoint hrange,
    logisticPooling_run Sqrt NormalCDF Pow fuel hfuel inputs hne minPoint maxPoint hrange⟩

/-- Refined invariant of the loop of `determineOutputRange`: either no estimate replaced
the starting pair, or the pair is the window of the first estimate attaining the strictly
smallest lower end. -/
theorem foldl_rangeStep_first (Sqrt : α → α) :
    ∀ (rest : List (ThreePointEstimate α)) (acc : α × α),
      (rest.foldl (rangeStep Sqrt) acc = acc ∧ ∀ e ∈ rest, acc.1 ≤ windowLow Sqrt e) ∨
      ∃ (m : Nat) (est : ThreePointEstimate α),
        rest[m]? = some est ∧
        rest.foldl (rangeStep Sqrt) acc = (windowLow Sqrt est, windowHigh Sqrt est) ∧
        windowLow Sqrt est < acc.1 ∧
        (∀ i e, i < m → rest[i]? = some e → windowLow Sqrt est < windowLow Sqrt e) ∧
        ∀ e ∈ rest, windowLow Sqrt est ≤ windowLow Sqrt e := by
  intro rest
  induction rest with
  | nil => intro acc; exact Or.inl ⟨rfl, fun e he => absurd he (List.not_mem_nil e)⟩
  | cons e0 rest ih =>
    intro acc
    have hstep : rangeStep Sqrt acc e0
        = if windowLow Sqrt e0 < acc.1 then (windowLow Sqrt e0, windowHigh Sqrt e0)
          else acc := rfl
    simp only [List.foldl_cons]
    by_cases hlt : windowLow Sqrt e0 < acc.1
    · rw [hstep, if_pos hlt]
      rcases ih (windowLow Sqrt e0, windowHigh Sqrt e0) with ⟨hr, hall⟩ | ⟨m, est, hm, hr, hlow, hfirst, hall⟩
      · refine Or.inr ⟨0, e0, List.getElem?_cons_zero, hr, hlt, ?_, ?_⟩
        · intro i e hi _
          exact absurd hi (Nat.not_lt_zero i)
        · intro e he
          rcases List.mem_cons.mp he with rfl | hmem
          · exact le_refl _
          · exact hall e hmem
      · refine Or.inr ⟨m + 1, est, by rw [List.getElem?_cons_succ]; exact hm, hr,
          lt_trans hlow hlt, ?_, ?_⟩
        · intro i e hi hget
          cases i with
          | zero =>
            have : e0 = e := by simpa using hget
            rw [← this]
            exact hlow
          | succ i =>
            rw [List.getElem?_cons_succ] at hget
            exact hfirst i e (Nat.lt_of_succ_lt_succ hi) hget
        · intro e he
          rcases List.mem_cons.mp he with rfl | hmem
          · exact le_of_lt hlow
          · exact hall e hmem
    · rw [hstep, if_neg hlt]
      have hle : acc.1 ≤ windowLow Sqrt e0 := not_lt.mp hlt
      rcases ih acc with ⟨hr, hall⟩ | ⟨m, est, hm, hr, hlow, hfirst, hall⟩
      · refine Or.inl ⟨hr, ?_⟩
        intro e he
        rcases List.mem_cons.mp he with rfl | hmem
        · exact hle
        · exact hall e hmem
      · refine Or.inr ⟨m + 1, est, by rw [List.getElem?_cons_succ]; exact hm, hr, hlow, ?_, ?_⟩
        · intro i e hi hget
          cases i with
          | zero =>
            have : e0 = e := by simpa using hget
            rw [← this]
            exact lt_of_lt_of_le hlow hle
          | succ i =>
            rw [List.getElem?_cons_succ] at hget
            exact hfirst i e (Nat.lt_of_succ_lt_succ hi) hget
        · intro e he
          rcases List.mem_cons.mp he with rfl | hmem
          · exact le_trans (le_of_lt hlow) hle
          · exact hall e hmem

/-- Telescoping: the bins of a basis add up to the CDF difference over the whole span. -/
theorem basisOf_sum (cdf : α → α) (interval : α) :
    ∀ (n : Nat) (j : α),
      (basisOf cdf j interval n).sum = cdf (j + (n : α) * interval) - cdf j := by
  intro n
  induction n with
  | zero => intro j; simp [basisOf]
  | succ n ih =>
    intro j
    rw [basisOf_succ, List.sum_cons, ih (j + interval)]
    have e : j + interval + (n : α) * interval = j + ((n + 1 : Nat) : α) * interval := by
      push_cast
      ring
    rw [e]
    ring

theorem determineOutputRange_two_estimates :
    determineOutputRange Real.sqrt [⟨0, 31 / 4, 11⟩, ⟨8, 63 / 4, 19⟩]
      = Except.ok (-9, 23) := by
  have hm1 : computeMean (⟨0, 31 / 4, 11⟩ : ThreePointEstimate ℝ) = 7 := by
    norm_num [computeMean]
  have hm2 : computeMean (⟨8, 63 / 4, 19⟩ : ThreePointEstimate ℝ) = 15 := by
    norm_num [computeMean]
  have hs1 : computeStdDev Real.sqrt (⟨0, 31 / 4, 11⟩ : ThreePointEstimate ℝ) = 2 := by
    have : stdDevRadicand (⟨0, 31 / 4, 11⟩ : ThreePointEstimate ℝ) = 4 := by
      norm_num [stdDevRadicand, computeMean]
    rw [computeStdDev, this, real_sqrt_four]
  have hs2 : computeStdDev Real.sqrt (⟨8, 63 / 4, 19⟩ : ThreePointEstimate ℝ) = 2 := by
    have : stdDevRadicand (⟨8, 63 / 4, 19⟩ : ThreePointEstimate ℝ) = 4 := by
      norm_num [stdDevRadicand, computeMean]
    rw [computeStdDev, this, real_sqrt_four]
  simp only [determineOutputRange, List.foldl_cons, List.foldl_nil, rangeStep, hm1, hm2,
    hs1, hs2]
  norm_num

/-- Two Gaussian densities with the same variance differ by an exponential factor. -/
theorem gaussianPDFReal_shift (μ c : ℝ) (v : NNReal) (x : ℝ) :
    ProbabilityTheory.gaussianPDFReal μ v x
      = Real.exp (((x - c) ^ 2 - (x - μ) ^ 2) / (2 * v))
        * ProbabilityTheory.gaussianPDFReal c v x := by
  unfold ProbabilityTheory.gaussianPDFReal
  rw [mul_left_comm, ← Real.exp_add]
  congr 2
  ring

theorem cdf_sub_eq_measure (P : MeasureTheory.Measure ℝ) [MeasureTheory.IsProbabilityMeasure P]
    (a b : ℝ) (hab : a ≤ b) :
    ProbabilityTheory.cdf P b - ProbabilityTheory.cdf P a = (P (Set.Ioc a b)).toReal := by
  have h := (ProbabilityTheory.cdf P).measure_Ioc a b
  rw [ProbabilityTheory.measure_cdf] at h
  rw [h, ENNReal.toReal_ofReal (sub_nonneg.mpr (ProbabilityTheory.monotone_cdf P hab))]

theorem gaussianReal_compare (μ c : ℝ) (v : NNReal) (hv : v ≠ 0) (s : Set ℝ) (L : ℝ)
    (h : ∀ x ∈ s, ((x - c) ^ 2 - (x - μ) ^ 2) / (2 * (v : ℝ)) ≤ L) :
    ProbabilityTheory.gaussianReal μ v s
      ≤ ENNReal.ofReal (Real.exp L) * ProbabilityTheory.gaussianReal c v s := by
  rw [ProbabilityTheory.gaussianReal_apply μ hv s, ProbabilityTheory.gaussianReal_apply c hv s]
  calc ∫⁻ x in s, ProbabilityTheory.gaussianPDF μ v x
      ≤ ∫⁻ x in s, ENNReal.ofReal (Real.exp L) * ProbabilityTheory.gaussianPDF c v x := by
        apply MeasureTheory.setLIntegral_mono
          ((ProbabilityTheory.measurable_gaussianPDF c v).const_mul _)
        intro x hx
        unfold ProbabilityTheory.gaussianPDF
        rw [← ENNReal.ofReal_mul (Real.exp_pos _).le]
        apply ENNReal.ofReal_le_ofReal
        rw [gaussianPDFReal_shift μ c v x]
        exact mul_le_mul_of_nonneg_right (Real.exp_le_exp.mpr (h x hx))
          (ProbabilityTheory.gaussianPDFReal_nonneg _ _ _)
    _ = ENNReal.ofReal (Real.exp L) * ∫⁻ x in s, ProbabilityTheory.gaussianPDF c v x :=
        MeasureTheory.lintegral_const_mul _ (ProbabilityTheory.measurable_gaussianPDF c v)

theorem gaussianReal_shift_Ioc (μ I a b : ℝ) (v : NNReal) :
    ProbabilityTheory.gaussianReal μ v (Set.Ioc (a + I) (b + I))
      = ProbabilityTheory.gaussianReal (μ - I) v (Set.Ioc a b) := by
  have h : (ProbabilityTheory.gaussianReal μ v).map (fun x => x + -I)
      = ProbabilityTheory.gaussianReal (μ + -I) v :=
    ProbabilityTheory.gaussianReal_map_add_const (-I)
  rw [← sub_eq_add_neg] at h
  rw [← h, MeasureTheory.Measure.map_apply (measurable_add_const _) measurableSet_Ioc]
  congr 1
  ext x
  simp only [Set.mem_preimage, Set.mem_Ioc]
  constructor
  · rintro ⟨h1, h2⟩; constructor <;> linarith
  · rintro ⟨h1, h2⟩; constructor <;> linarith

theorem gaussianReal_Ioc_pos (μ : ℝ) (v : NNReal) (hv : v ≠ 0) (a b : ℝ) (hab : a < b) :
    0 < (ProbabilityTheory.gaussianReal μ v (Set.Ioc a b)).toReal := by
  apply ENNReal.toReal_pos
  · intro h0
    have := ProbabilityTheory.gaussianReal_absolutelyContinuous' μ hv h0
    rw [Real.volume_Ioc] at this
    simp at this
    linarith
  · exact MeasureTheory.measure_ne_top _ _

theorem toNNReal_sq_ne_zero (σ : ℝ) (hσ : 0 < σ) : Real.toNNReal (σ ^ 2) ≠ 0 := by
  intro h0
  rw [Real.toNNReal_eq_zero] at h0
  have : (0 : ℝ) < σ ^ 2 := by positivity
  linarith

/-- The mass of a bin is at most an exponential factor times the mass of the next bin. -/
theorem binMass_step_up (μ σ x I : ℝ) (hσ : 0 < σ) (hI : 0 < I) :
    ProbabilityTheory.cdf (ProbabilityTheory.gaussianReal μ (Real.toNNReal (σ ^ 2))) (x + I)
        - ProbabilityTheory.cdf (ProbabilityTheory.gaussianReal μ (Real.toNNReal (σ ^ 2))) x
      ≤ Real.exp ((2 * (x + I - μ) * I + I ^ 2) / (2 * σ ^ 2))
        * (ProbabilityTheory.cdf (ProbabilityTheory.gaussianReal μ (Real.toNNReal (σ ^ 2)))
              (x + I + I)
          - ProbabilityTheory.cdf (ProbabilityTheory.gaussianReal μ (Real.toNNReal (σ ^ 2)))
              (x + I)) := by
  have hv := toNNReal_sq_ne_zero σ hσ
  have hv2 : (0 : ℝ) < σ ^ 2 := by positivity
  have hcoe : ((Real.toNNReal (σ ^ 2) : NNReal) : ℝ) = σ ^ 2 := Real.coe_toNNReal _ hv2.le
  rw [cdf_sub_eq_measure _ x (x + I) (by linarith),
    cdf_sub_eq_measure _ (x + I) (x + I + I) (by linarith), gaussianReal_shift_Ioc]
  have h := gaussianReal_compare μ (μ - I) (Real.toNNReal (σ ^ 2)) hv (Set.Ioc x (x + I))
    ((2 * (x + I - μ) * I + I ^ 2) / (2 * σ ^ 2)) (by
      intro t ht
      rw [hcoe]
      apply div_le_div_of_nonneg_right _ (by positivity)
      have h2 : t ≤ x + I := ht.2
      nlinarith)
  have h2 := ENNReal.toReal_mono (ENNReal.mul_ne_top ENNReal.ofReal_ne_top
    (MeasureTheory.measure_ne_top _ _)) h
  rw [ENNReal.toReal_mul, ENNReal.toReal_ofReal (Real.exp_pos _).le] at h2
  exact h2

/-- The mass of a bin is at most an exponential factor times the mass of the previous bin. -/
theorem binMass_step_down (μ σ x I : ℝ) (hσ : 0 < σ) (hI : 0 < I) :
    ProbabilityTheory.cdf (ProbabilityTheory.gaussianReal μ (Real.toNNReal (σ ^ 2)))
          (x + I + I)
        - ProbabilityTheory.cdf (ProbabilityTheory.gaussianReal μ (Real.toNNReal (σ ^ 2)))
          (x + I)
      ≤ Real.exp (-(2 * (x - μ) * I + I ^ 2) / (2 * σ ^ 2))
        * (ProbabilityTheory.cdf (ProbabilityTheory.gaussianReal μ (Real.toNNReal (σ ^ 2)))
              (x + I)
          - ProbabilityTheory.cdf (ProbabilityTheory.gaussianReal μ (Real.toNNReal (σ ^ 2)))
              x) := by
  have hv := toNNReal_sq_ne_zero σ hσ
  have hv2 : (0 : ℝ) < σ ^ 2 := by positivity
  have hcoe : ((Real.toNNReal (σ ^ 2) : NNReal) : ℝ) = σ ^ 2 := Real.coe_toNNReal _ hv2.le
  rw [cdf_sub_eq_measure _ x (x + I) (by linarith),
    cdf_sub_eq_measure _ (x + I) (x + I + I) (by linarith), gaussianReal_shift_Ioc]
  have h := gaussianReal_compare (μ - I) μ (Real.toNNReal (σ ^ 2)) hv (Set.Ioc x (x + I))
    (-(2 * (x - μ) * I + I ^ 2) / (2 * σ ^ 2)) (by
      intro t ht
      rw [hcoe]
      apply div_le_div_of_nonneg_right _ (by positivity)
      have h2 : x < t := ht.1
      nlinarith)
  have h2 := ENNReal.toReal_mono (ENNReal.mul_ne_top ENNReal.ofReal_ne_top
    (MeasureTheory.measure_ne_top _ _)) h
  rw [ENNReal.toReal_mul, ENNReal.toReal_ofReal (Real.exp_pos _).le] at h2
  exact h2

theorem binMass_pos (μ σ x I : ℝ) (hσ : 0 < σ) (hI : 0 < I) :
    0 < ProbabilityTheory.cdf (ProbabilityTheory.gaussianReal μ (Real.toNNReal (σ ^ 2)))
          (x + I)
        - ProbabilityTheory.cdf (ProbabilityTheory.gaussianReal μ (Real.toNNReal (σ ^ 2))) x := by
  rw [cdf_sub_eq_measure _ x (x + I) (by linarith)]
  exact gaussianReal_Ioc_pos μ _ (toNNReal_sq_ne_zero σ hσ) x (x + I) (by linarith)

theorem basisOf_getD (cdf : α → α) (minPoint interval : α) (n i : Nat) (hi : i < n) :
    (basisOf cdf minPoint interval n).getD i 0
      = cdf (minPoint + (i : α) * interval + interval) - cdf (minPoint + (i : α) * interval) := by
  have h := basisOf_getElem? cdf minPoint interval n i hi
  rw [List.getD_eq_getElem?_getD, h]
  rfl

/-- Column `i` of the bases, read off the estimates. -/
theorem basesOf_column (Sqrt : α → α) (NormalCDF : α → α → α → α) (minPoint maxPoint : α)
    (inputs : List (ThreePointEstimate α)) (i : Nat) (hi : i < binCount minPoint maxPoint) :
    (basesOf Sqrt NormalCDF minPoint maxPoint inputs).map (fun b => b.getD i 0)
      = inputs.map (fun est =>
          NormalCDF (computeMean est) (computeStdDev Sqrt est)
              (minPoint + (i : α) * ((maxPoint - minPoint) / 1000)
                + (maxPoint - minPoint) / 1000)
            - NormalCDF (computeMean est) (computeStdDev Sqrt est)
              (minPoint + (i : α) * ((maxPoint - minPoint) / 1000))) := by
  unfold basesOf
  rw [List.map_map]
  apply List.map_congr_left
  intro est _
  exact basisOf_getD _ _ _ _ _ hi

/-- Every column product of Gaussian bin masses is positive. -/
theorem column_pos (Sqrt : ℝ → ℝ) (x I : ℝ) (hI : 0 < I) :
    ∀ (ests : List (ThreePointEstimate ℝ)), (∀ e ∈ ests, 0 < computeStdDev Sqrt e) →
      0 < (ests.map (fun e =>
        ProbabilityTheory.cdf (ProbabilityTheory.gaussianReal (computeMean e)
            (Real.toNNReal (computeStdDev Sqrt e ^ 2))) (x + I)
          - ProbabilityTheory.cdf (ProbabilityTheory.gaussianReal (computeMean e)
            (Real.toNNReal (computeStdDev Sqrt e ^ 2))) x)).prod := by
  intro ests
  induction ests with
  | nil => intro _; simp
  | cons e rest ih =>
    intro hpos
    rw [List.map_cons, List.prod_cons]
    exact mul_pos (binMass_pos _ _ x I (hpos e (List.mem_cons_self _ _)) hI)
      (ih (fun e2 he2 => hpos e2 (List.mem_cons_of_mem _ he2)))

/-- The column product at `x` is at most an exponential factor times the one at `x + I`. -/
theorem column_step_up (Sqrt : ℝ → ℝ) (x I : ℝ) (hI : 0 < I) :
    ∀ (ests : List (ThreePointEstimate ℝ)), (∀ e ∈ ests, 0 < computeStdDev Sqrt e) →
      (ests.map (fun e =>
        ProbabilityTheory.cdf (ProbabilityTheory.gaussianReal (computeMean e)
            (Real.toNNReal (computeStdDev Sqrt e ^ 2))) (x + I)
          - ProbabilityTheory.cdf (ProbabilityTheory.gaussianReal (computeMean e)
            (Real.toNNReal (computeStdDev Sqrt e ^ 2))) x)).prod
      ≤ Real.exp ((ests.map (fun e =>
          (2 * (x + I - computeMean e) * I + I ^ 2) / (2 * computeStdDev Sqrt e ^ 2))).sum)
        * (ests.map (fun e =>
        ProbabilityTheory.cdf (ProbabilityTheory.gaussianReal (computeMean e)
            (Real.toNNReal (computeStdDev Sqrt e ^ 2))) (x + I + I)
          - ProbabilityTheory.cdf (ProbabilityTheory.gaussianReal (computeMean e)
            (Real.toNNReal (computeStdDev Sqrt e ^ 2))) (x + I))).prod := by
  intro ests
  induction ests with
  | nil => intro _; simp
  | cons e rest ih =>
    intro hpos
    have hrest := ih (fun e2 he2 => hpos e2 (List.mem_cons_of_mem _ he2))
    have hhead := binMass_step_up (computeMean e) (computeStdDev Sqrt e) x I
      (hpos e (List.mem_cons_self _ _)) hI
    have hp := column_pos Sqrt x I hI rest (fun e2 he2 => hpos e2 (List.mem_cons_of_mem _ he2))
    have hp2 := binMass_pos (computeMean e) (computeStdDev Sqrt e) (x + I) I
      (hpos e (List.mem_cons_self _ _)) hI
    simp only [List.map_cons, List.prod_cons, List.sum_cons, Real.exp_add]
    have h := mul_le_mul hhead hrest hp.le (mul_nonneg (Real.exp_pos _).le hp2.le)
    calc _ ≤ _ := h
      _ = _ := by ring

/-- The column product at `x + I` is at most an exponential factor times the one at `x`. -/
theorem column_step_down (Sqrt : ℝ → ℝ) (x I : ℝ) (hI : 0 < I) :
    ∀ (ests : List (ThreePointEstimate ℝ)), (∀ e ∈ ests, 0 < computeStdDev Sqrt e) →
      (ests.map (fun e =>
        ProbabilityTheory.cdf (ProbabilityTheory.gaussianReal (computeMean e)
            (Real.toNNReal (computeStdDev Sqrt e ^ 2))) (x + I + I)
          - ProbabilityTheory.cdf (ProbabilityTheory.gaussianReal (computeMean e)
            (Real.toNNReal (computeStdDev Sqrt e ^ 2))) (x + I))).prod
      ≤ Real.exp ((ests.map (fun e =>
          -(2 * (x - computeMean e) * I + I ^ 2) / (2 * computeStdDev Sqrt e ^ 2))).sum)
        * (ests.map (fun e =>
        ProbabilityTheory.cdf (ProbabilityTheory.gaussianReal (computeMean e)
            (Real.toNNReal (computeStdDev Sqrt e ^ 2))) (x + I)
          - ProbabilityTheory.cdf (ProbabilityTheory.gaussianReal (computeMean e)
            (Real.toNNReal (computeStdDev Sqrt e ^ 2))) x)).prod := by
  intro ests
  induction ests with
  | nil => intro _; simp
  | cons e rest ih =>
    intro hpos
    have hrest := ih (fun e2 he2 => hpos e2 (List.mem_cons_of_mem _ he2))
    have hhead := binMass_step_down (computeMean e) (computeStdDev Sqrt e) x I
      (hpos e (List.mem_cons_self _ _)) hI
    have hp := column_pos Sqrt (x + I) I hI rest
      (fun e2 he2 => hpos e2 (List.mem_cons_of_mem _ he2))
    have hp2 := binMass_pos (computeMean e) (computeStdDev Sqrt e) x I
      (hpos e (List.mem_cons_self _ _)) hI
    simp only [List.map_cons, List.prod_cons, List.sum_cons, Real.exp_add]
    have h := mul_le_mul hhead hrest hp.le (mul_nonneg (Real.exp_pos _).le hp2.le)
    calc _ ≤ _ := h
      _ = _ := by ring

theorem sqrt_stats (est : ThreePointEstimate ℝ) (v : ℝ) (hv : stdDevRadicand est = v)
    (hpos : 0 < v) :
    0 < computeStdDev Real.sqrt est ∧ computeStdDev Real.sqrt est ^ 2 = v := by
  unfold computeStdDev
  rw [hv]
  exact ⟨Real.sqrt_pos.mpr hpos, Real.sq_sqrt hpos.le⟩

theorem labor_stats :
    (computeMean (⟨15 / 2, 10, 15⟩ : ThreePointEstimate ℝ) = 125 / 12 ∧
      stdDevRadicand (⟨15 / 2, 10, 15⟩ : ThreePointEstimate ℝ) = 275 / 144) ∧
    (computeMean (⟨6, 17 / 2, 25 / 2⟩ : ThreePointEstimate ℝ) = 35 / 4 ∧
      stdDevRadicand (⟨6, 17 / 2, 25 / 2⟩ : ThreePointEstimate ℝ) = 165 / 112) ∧
    (computeMean (⟨5, 15 / 2, 13⟩ : ThreePointEstimate ℝ) = 8 ∧
      stdDevRadicand (⟨5, 15 / 2, 13⟩ : ThreePointEstimate ℝ) = 15 / 7) ∧
    (computeMean (⟨7, 11, 15⟩ : ThreePointEstimate ℝ) = 11 ∧
      stdDevRadicand (⟨7, 11, 15⟩ : ThreePointEstimate ℝ) = 16 / 7) := by
  norm_num [computeMean, stdDevRadicand]

/-- The range chosen for the four labor estimates is the window of the third one. -/
theorem labor_range :
    determineOutputRange Real.sqrt
        [⟨15 / 2, 10, 15⟩, ⟨6, 17 / 2, 25 / 2⟩, ⟨5, 15 / 2, 13⟩, ⟨7, 11, 15⟩]
      = Except.ok (8 - 8 * computeStdDev Real.sqrt ⟨5, 15 / 2, 13⟩,
          8 + 8 * computeStdDev Real.sqrt ⟨5, 15 / 2, 13⟩) := by
  obtain ⟨⟨hm1, hr1⟩, ⟨hm2, hr2⟩, ⟨hm3, hr3⟩, ⟨hm4, hr4⟩⟩ := labor_stats
  obtain ⟨hp1, hq1⟩ := sqrt_stats _ _ hr1 (by norm_num)
  obtain ⟨hp2, hq2⟩ := sqrt_stats _ _ hr2 (by norm_num)
  obtain ⟨hp3, hq3⟩ := sqrt_stats _ _ hr3 (by norm_num)
  obtain ⟨hp4, hq4⟩ := sqrt_stats _ _ hr4 (by norm_num)
  have b1 : computeStdDev Real.sqrt (⟨15 / 2, 10, 15⟩ : ThreePointEstimate ℝ) < 139 / 100 := by
    by_contra h
    push_neg at h
    nlinarith
  have b2 : 121 / 100
      < computeStdDev Real.sqrt (⟨6, 17 / 2, 25 / 2⟩ : ThreePointEstimate ℝ) := by
    by_contra h
    push_neg at h
    nlinarith
  have b2u : computeStdDev Real.sqrt (⟨6, 17 / 2, 25 / 2⟩ : ThreePointEstimate ℝ)
      < 122 / 100 := by
    by_contra h
    push_neg at h
    nlinarith
  have b3 : 146 / 100 < computeStdDev Real.sqrt (⟨5, 15 / 2, 13⟩ : ThreePointEstimate ℝ) := by
    by_contra h
    push_neg at h
    nlinarith
  have b4 : computeStdDev Real.sqrt (⟨7, 11, 15⟩ : ThreePointEstimate ℝ) < 152 / 100 := by
    by_contra h
    push_neg at h
    nlinarith
  have hA : rangeStep Real.sqrt
      (windowLow Real.sqrt ⟨15 / 2, 10, 15⟩, windowHigh Real.sqrt ⟨15 / 2, 10, 15⟩)
      ⟨6, 17 / 2, 25 / 2⟩
      = (windowLow Real.sqrt ⟨6, 17 / 2, 25 / 2⟩, windowHigh Real.sqrt ⟨6, 17 / 2, 25 / 2⟩) := by
    have h : windowLow Real.sqrt (⟨6, 17 / 2, 25 / 2⟩ : ThreePointEstimate ℝ)
        < windowLow Real.sqrt (⟨15 / 2, 10, 15⟩ : ThreePointEstimate ℝ) := by
      unfold windowLow
      rw [hm1, hm2]
      linarith
    exact if_pos h
  have hB : rangeStep Real.sqrt
      (windowLow Real.sqrt ⟨6, 17 / 2, 25 / 2⟩, windowHigh Real.sqrt ⟨6, 17 / 2, 25 / 2⟩)
      ⟨5, 15 / 2, 13⟩
      = (windowLow Real.sqrt ⟨5, 15 / 2, 13⟩, windowHigh Real.sqrt ⟨5, 15 / 2, 13⟩) := by
    have h : windowLow Real.sqrt (⟨5, 15 / 2, 13⟩ : ThreePointEstimate ℝ)
        < windowLow Real.sqrt (⟨6, 17 / 2, 25 / 2⟩ : ThreePointEstimate ℝ) := by
      unfold windowLow
      rw [hm2, hm3]
      linarith
    exact if_pos h
  have hC : rangeStep Real.sqrt
      (windowLow Real.sqrt ⟨5, 15 / 2, 13⟩, windowHigh Real.sqrt ⟨5, 15 / 2, 13⟩)
      ⟨7, 11, 15⟩
      = (windowLow Real.sqrt ⟨5, 15 / 2, 13⟩, windowHigh Real.sqrt ⟨5, 15 / 2, 13⟩) := by
    have h : ¬ (windowLow Real.sqrt (⟨7, 11, 15⟩ : ThreePointEstimate ℝ)
        < windowLow Real.sqrt (⟨5, 15 / 2, 13⟩ : ThreePointEstimate ℝ)) := by
      unfold windowLow
      rw [hm3, hm4]
      linarith
    exact if_neg h
  rw [determineOutputRange_cons]
  simp only [List.foldl_cons, List.foldl_nil]
  rw [hA, hB, hC]
  unfold windowLow windowHigh
  rw [hm3]

/-- Closed form of `logisticPooling` with `Real.sqrt`, the Gaussian CDF and `Real.rpow`
bin `i` is the column product of the Gaussian bin masses at
`x_i = minPoint + i * interval`, raised to the power `1/k`. -/
theorem logisticPooling_gaussian_run (inputs : List (ThreePointEstimate ℝ))
    (hne : inputs ≠ []) (minPoint maxPoint : ℝ)
    (hrange : determineOutputRange Real.sqrt inputs = Except.ok (minPoint, maxPoint)) :
    logisticPooling Real.sqrt
        (fun mu sigma x =>
          ProbabilityTheory.cdf (ProbabilityTheory.gaussianReal mu (Real.toNNReal (sigma ^ 2))) x)
        Real.rpow 1000 inputs
      = Except.ok ((List.range (binCount minPoint maxPoint)).map (fun (i : Nat) =>
          Real.rpow (inputs.map (fun e =>
            ProbabilityTheory.cdf (ProbabilityTheory.gaussianReal (computeMean e)
                (Real.toNNReal (computeStdDev Real.sqrt e ^ 2)))
                (minPoint + (i : ℝ) * ((maxPoint - minPoint) / 1000)
                  + (maxPoint - minPoint) / 1000)
              - ProbabilityTheory.cdf (ProbabilityTheory.gaussianReal (computeMean e)
                (Real.toNNReal (computeStdDev Real.sqrt e ^ 2)))
                (minPoint + (i : ℝ) * ((maxPoint - minPoint) / 1000)))).prod
            (1 / (inputs.length : ℝ))), minPoint, maxPoint) := by
  rw [logisticPooling_run Real.sqrt _ Real.rpow 1000 (le_refl 1000) inputs hne minPoint
    maxPoint hrange]
  refine congrArg (fun l => Except.ok (l, minPoint, maxPoint)) ?_
  apply List.map_congr_left
  intro i hi
  have hi2 : i < binCount minPoint maxPoint := List.mem_range.mp hi
  rw [foldl_mul_getD, one_mul, basesOf_column _ _ _ _ _ _ hi2, basesOf_length]

/-- In exact arithmetic, for every non-empty list of estimates with `low ≤ mid ≤ high` and
`low < high`, when `math.Sqrt` is positive on positive arguments, the binning loop needs no
more than 1000 iterations: with fuel for 1000 iterations `constructInputBases` returns, with
`minPoint < maxPoint`, and every basis it returns has exactly 1000 entries, as do the arrays
returned by `linearPooling` and `logisticPooling`. -/
theorem exact_thousand_bins (Sqrt : α → α) (NormalCDF : α → α → α → α)
    (Pow : α → α → α) (fuel : Nat) (inputs : List (ThreePointEstimate α))
    (hsqrt : ∀ x, 0 < x → 0 < Sqrt x) (hne : inputs ≠ [])
    (hwf : ∀ est ∈ inputs, est.lowPoint ≤ est.midPoint ∧ est.midPoint ≤ est.highPoint ∧
      est.lowPoint < est.highPoint)
    (hfuel : 1000 ≤ fuel) :
    ∃ (inputBases : List (List α)) (minPoint maxPoint : α) (linear logistic : List α),
      constructInputBases Sqrt NormalCDF fuel inputs
        = Except.ok (inputBases, minPoint, maxPoint) ∧
      minPoint < maxPoint ∧
      (∀ b ∈ inputBases, b.length = 1000) ∧
      linearPooling Sqrt NormalCDF fuel inputs = Except.ok (linear, minPoint, maxPoint) ∧
      linear.length = 1000 ∧
      logisticPooling Sqrt NormalCDF Pow fuel inputs
        = Except.ok (logistic, minPoint, maxPoint) ∧
      logistic.length = 1000 := by
  obtain ⟨minPoint, maxPoint, hrange, _, est, hest, hlo, hhi⟩ :=
    determineOutputRange_window Sqrt inputs hne
  have hlt : minPoint < maxPoint := by
    obtain ⟨h1, h2, h3⟩ := hwf est hest
    have hstd : 0 < computeStdDev Sqrt est := hsqrt _ (stdDevRadicand_pos est h1 h2 h3)
    rw [hlo, hhi, windowLow, windowHigh]
    linarith
  have hcount : binCount minPoint maxPoint = 1000 := by simp [binCount, hlt]
  refine ⟨basesOf Sqrt NormalCDF minPoint maxPoint inputs, minPoint, maxPoint, _, _,
    constructInputBases_run Sqrt NormalCDF fuel hfuel inputs minPoint maxPoint hrange, hlt, ?_,
    linearPooling_run Sqrt NormalCDF fuel hfuel inputs hne minPoint maxPoint hrange, ?_,
    logisticPooling_run Sqrt NormalCDF Pow fuel hfuel inputs hne minPoint maxPoint hrange, ?_⟩
  · intro b hb
    rw [basesOf_mem_length Sqrt NormalCDF minPoint maxPoint inputs b hb, hcount]
  · simp [hcount]
  · simp [hcount]

/-- In exact arithmetic, for every estimate with `low ≤ mid ≤ high`, the mean
`(low + 4*mid + high) / 6` lies between `low` and `high`, the radicand
`(mean - low) * (high - mean) / 7` is non-negative, and `computeStdDev` returns a
non-negative value (`math.Sqrt` being non-negative on non-negative arguments). -/
theorem exact_mean_stdDev_bounds (Sqrt : α → α) (est : ThreePointEstimate α)
    (hsqrt : ∀ x, 0 ≤ x → 0 ≤ Sqrt x)
    (h1 : est.lowPoint ≤ est.midPoint) (h2 : est.midPoint ≤ est.highPoint) :
    computeMean est = (est.lowPoint + 4 * est.midPoint + est.highPoint) / 6 ∧
    est.lowPoint ≤ computeMean est ∧ computeMean est ≤ est.highPoint ∧
    0 ≤ (computeMean est - est.lowPoint) * (est.highPoint - computeMean est) / 7 ∧
    computeStdDev Sqrt est
      = Sqrt ((computeMean est - est.lowPoint) * (est.highPoint - computeMean est) / 7) ∧
    0 ≤ computeStdDev Sqrt est := by
  have ha : 0 ≤ est.midPoint - est.lowPoint := sub_nonneg.mpr h1
  have hb : 0 ≤ est.highPoint - est.midPoint := sub_nonneg.mpr h2
  have hc : 0 ≤ est.highPoint - est.lowPoint := sub_nonneg.mpr (le_trans h1 h2)
  have hrad := stdDevRadicand_nonneg est h1 h2
  refine ⟨rfl, ?_, ?_, hrad, rfl, hsqrt _ hrad⟩
  · rw [← sub_nonneg, computeMean_sub_low]
    positivity
  · rw [← sub_nonneg, high_sub_computeMean]
    positivity

/-- In exact arithmetic, for every estimate with `low ≤ mid ≤ high`, `computeStdDev` returns
0 if and only if `low = high` (`math.Sqrt` vanishing on non-negative arguments only at 0). -/
theorem exact_stdDev_eq_zero_iff (Sqrt : α → α) (est : ThreePointEstimate α)
    (hsqrt : ∀ x, 0 ≤ x → (Sqrt x = 0 ↔ x = 0))
    (h1 : est.lowPoint ≤ est.midPoint) (h2 : est.midPoint ≤ est.highPoint) :
    computeStdDev Sqrt est = 0 ↔ est.lowPoint = est.highPoint := by
  unfold computeStdDev
  rw [hsqrt _ (stdDevRadicand_nonneg est h1 h2)]
  exact stdDevRadicand_eq_zero_iff est h1 h2

/-- In exact arithmetic, for every estimate with `low = high`, the radicand is
`-4 * (mid - low)^2 / 63`, so it is 0 exactly when `mid = low`; in that case
`computeStdDev` returns `math.Sqrt 0`, which is 0. -/
theorem exact_radicand_zero_width (Sqrt : α → α) (est : ThreePointEstimate α)
    (hsqrt : Sqrt 0 = 0) (heq : est.lowPoint = est.highPoint) :
    stdDevRadicand est = -4 * (est.midPoint - est.lowPoint) ^ 2 / 63 ∧
    stdDevRadicand est ≤ 0 ∧
    (stdDevRadicand est = 0 ↔ est.midPoint = est.lowPoint) ∧
    (est.midPoint = est.lowPoint → computeStdDev Sqrt est = 0) := by
  have hrad : stdDevRadicand est = -4 * (est.midPoint - est.lowPoint) ^ 2 / 63 := by
    rw [stdDevRadicand_eq, computeMean, ← heq]
    ring
  have hiff : stdDevRadicand est = 0 ↔ est.midPoint = est.lowPoint := by
    rw [hrad]
    constructor
    · intro h0
      have h63 : (63 : α) ≠ 0 := by norm_num
      have h4 : (-4 : α) ≠ 0 := by norm_num
      have hsq : (est.midPoint - est.lowPoint) ^ 2 = 0 := by
        rcases div_eq_zero_iff.mp h0 with h | h
        · rcases mul_eq_zero.mp h with h | h
          · exact absurd h h4
          · exact h
        · exact absurd h h63
      exact sub_eq_zero.mp (pow_eq_zero_iff (by norm_num) |>.mp hsq)
    · intro hmid
      rw [hmid]
      simp
  refine ⟨hrad, ?_, hiff, ?_⟩
  · rw [hrad]
    have hsq : 0 ≤ (est.midPoint - est.lowPoint) ^ 2 := sq_nonneg _
    have : -4 * (est.midPoint - est.lowPoint) ^ 2 / 63
        = -(4 * (est.midPoint - est.lowPoint) ^ 2 / 63) := by ring
    rw [this]
    exact neg_nonpos.mpr (by positivity)
  · intro hmid
    rw [computeStdDev, hiff.mpr hmid, hsqrt]

/-- Telescoping in exact arithmetic. When `determineOutputRange` returns
`minPoint < maxPoint` (and there is fuel for the 1000 bins), every basis has 1000 entries and
they add up to `CDF (minPoint + 1000 * interval) - CDF minPoint`, which is
`CDF maxPoint - CDF minPoint`, for any function `NormalCDF`. -/
theorem exact_basis_sum_telescopes (Sqrt : α → α) (NormalCDF : α → α → α → α) (fuel : Nat)
    (inputs : List (ThreePointEstimate α)) (minPoint maxPoint : α)
    (hrange : determineOutputRange Sqrt inputs = Except.ok (minPoint, maxPoint))
    (hlt : minPoint < maxPoint) (hfuel : 1000 ≤ fuel) :
    ∃ inputBases : List (List α),
      constructInputBases Sqrt NormalCDF fuel inputs
        = Except.ok (inputBases, minPoint, maxPoint) ∧
      inputBases.length = inputs.length ∧
      ∀ (k : Nat) (est : ThreePointEstimate α) (basis : List α),
        inputs[k]? = some est → inputBases[k]? = some basis →
        basis.length = 1000 ∧
        basis.sum
          = NormalCDF (computeMean est) (computeStdDev Sqrt est)
              (minPoint + 1000 * ((maxPoint - minPoint) / 1000))
            - NormalCDF (computeMean est) (computeStdDev Sqrt est) minPoint ∧
        basis.sum
          = NormalCDF (computeMean est) (computeStdDev Sqrt est) maxPoint
            - NormalCDF (computeMean est) (computeStdDev Sqrt est) minPoint := by
  have hcount : binCount minPoint maxPoint = 1000 := by simp [binCount, hlt]
  refine ⟨basesOf Sqrt NormalCDF minPoint maxPoint inputs,
    constructInputBases_run Sqrt NormalCDF fuel hfuel inputs minPoint maxPoint hrange,
    basesOf_length Sqrt NormalCDF minPoint maxPoint inputs, ?_⟩
  intro k est basis hest hbasis
  unfold basesOf at hbasis
  rw [List.getElem?_map, hest, Option.map_some'] at hbasis
  have hb := Option.some.inj hbasis
  subst hb
  have hsum := basisOf_sum (NormalCDF (computeMean est) (computeStdDev Sqrt est))
    ((maxPoint - minPoint) / 1000) 1000 minPoint
  have hend : minPoint + 1000 * ((maxPoint - minPoint) / 1000) = maxPoint := by ring
  rw [hcount]
  refine ⟨basisOf_length _ _ _ _, ?_, ?_⟩
  · rw [hsum]
    norm_num
  · rw [hsum]
    push_cast
    rw [hend]

/-- In exact real arithmetic (`math.Sqrt`, the normal CDF and `math.Pow` read as
`Real.sqrt`, the Gaussian CDF and `Real.rpow`), for the four labor estimates of `main`:
`logisticPooling` (and the risk-item wrapper that `main` calls) returns an array of exactly
1000 bins; every standard deviation handed to the CDF is positive and every entry is a
positive real; and every index `i` at which the array is largest has its x-coordinate
`minPoint + i * (maxPoint - minPoint) / 1000` between 9 and 11. -/
theorem exact_labor_peak :
    ∃ (pooledBasis : List ℝ) (minPoint maxPoint : ℝ),
      logisticPoolingRiskItems Real.sqrt
          (fun mu sigma x =>
            ProbabilityTheory.cdf (ProbabilityTheory.gaussianReal mu (Real.toNNReal (sigma ^ 2))) x)
          Real.rpow 1000 testRiskItemInputs
        = Except.ok (pooledBasis, minPoint, maxPoint) ∧
      logisticPooling Real.sqrt
          (fun mu sigma x =>
            ProbabilityTheory.cdf (ProbabilityTheory.gaussianReal mu (Real.toNNReal (sigma ^ 2))) x)
          Real.rpow 1000
          [⟨15 / 2, 10, 15⟩, ⟨6, 17 / 2, 25 / 2⟩, ⟨5, 15 / 2, 13⟩, ⟨7, 11, 15⟩]
        = Except.ok (pooledBasis, minPoint, maxPoint) ∧
      pooledBasis.length = 1000 ∧
      (∀ est ∈ [(⟨15 / 2, 10, 15⟩ : ThreePointEstimate ℝ), ⟨6, 17 / 2, 25 / 2⟩,
          ⟨5, 15 / 2, 13⟩, ⟨7, 11, 15⟩],
        0 < stdDevRadicand est ∧ 0 < computeStdDev Real.sqrt est) ∧
      (∀ y ∈ pooledBasis, 0 < y) ∧
      ∀ (i : Nat) (y : ℝ), pooledBasis[i]? = some y → (∀ z ∈ pooledBasis, z ≤ y) →
        9 ≤ minPoint + (i : ℝ) * ((maxPoint - minPoint) / 1000) ∧
        minPoint + (i : ℝ) * ((maxPoint - minPoint) / 1000) ≤ 11 := by
  obtain ⟨⟨hm1, hr1⟩, ⟨hm2, hr2⟩, ⟨hm3, hr3⟩, ⟨hm4, hr4⟩⟩ := labor_stats
  obtain ⟨hp1, hq1⟩ := sqrt_stats _ _ hr1 (by norm_num)
  obtain ⟨hp2, hq2⟩ := sqrt_stats _ _ hr2 (by norm_num)
  obtain ⟨hp3, hq3⟩ := sqrt_stats _ _ hr3 (by norm_num)
  obtain ⟨hp4, hq4⟩ := sqrt_stats _ _ hr4 (by norm_num)
  have hrange := labor_range
  have hposall : ∀ e ∈ [(⟨15 / 2, 10, 15⟩ : ThreePointEstimate ℝ), ⟨6, 17 / 2, 25 / 2⟩,
      ⟨5, 15 / 2, 13⟩, ⟨7, 11, 15⟩], 0 < computeStdDev Real.sqrt e := by
    intro e he
    simp only [List.mem_cons, List.mem_singleton, List.not_mem_nil, or_false] at he
    rcases he with rfl | rfl | rfl | rfl <;> assumption
  have hradall : ∀ e ∈ [(⟨15 / 2, 10, 15⟩ : ThreePointEstimate ℝ), ⟨6, 17 / 2, 25 / 2⟩,
      ⟨5, 15 / 2, 13⟩, ⟨7, 11, 15⟩], 0 < stdDevRadicand e := by
    intro e he
    simp only [List.mem_cons, List.mem_singleton, List.not_mem_nil, or_false] at he
    rcases he with rfl | rfl | rfl | rfl
    · rw [hr1]; norm_num
    · rw [hr2]; norm_num
    · rw [hr3]; norm_num
    · rw [hr4]; norm_num
  -- the third standard deviation, which fixes the range, and bounds on it
  obtain ⟨s3, hs3⟩ : ∃ s3 : ℝ,
      s3 = computeStdDev Real.sqrt (⟨5, 15 / 2, 13⟩ : ThreePointEstimate ℝ) := ⟨_, rfl⟩
  rw [← hs3] at hrange hp3 hq3
  have b3l : 146 / 100 < s3 := by
    by_contra h
    push_neg at h
    nlinarith
  have b3u : s3 < 147 / 100 := by
    by_contra h
    push_neg at h
    nlinarith
  have hlt : 8 - 8 * s3 < 8 + 8 * s3 := by linarith
  have hcount : binCount (8 - 8 * s3) (8 + 8 * s3) = 1000 := by
    unfold binCount
    rw [if_pos hlt]
  have hrun := logisticPooling_gaussian_run
    [⟨15 / 2, 10, 15⟩, ⟨6, 17 / 2, 25 / 2⟩, ⟨5, 15 / 2, 13⟩, ⟨7, 11, 15⟩]
    (List.cons_ne_nil _ _) _ _ hrange
  rw [hcount] at hrun
  -- the bin width
  obtain ⟨I, hI⟩ : ∃ I : ℝ, I = (8 + 8 * s3 - (8 - 8 * s3)) / 1000 := ⟨_, rfl⟩
  rw [← hI] at hrun
  have hIval : I = 16 * s3 / 1000 := by rw [hI]; ring
  have hI0 : 0 < I := by rw [hIval]; positivity
  have hIu : I < 24 / 1000 := by rw [hIval]; linarith
  -- the column product as a function of the left edge of the bin
  obtain ⟨P, hP⟩ : ∃ P : ℝ → ℝ, P = fun x =>
      ([(⟨15 / 2, 10, 15⟩ : ThreePointEstimate ℝ), ⟨6, 17 / 2, 25 / 2⟩,
        ⟨5, 15 / 2, 13⟩, ⟨7, 11, 15⟩].map (fun e =>
          ProbabilityTheory.cdf (ProbabilityTheory.gaussianReal (computeMean e)
              (Real.toNNReal (computeStdDev Real.sqrt e ^ 2))) (x + I)
            - ProbabilityTheory.cdf (ProbabilityTheory.gaussianReal (computeMean e)
              (Real.toNNReal (computeStdDev Real.sqrt e ^ 2))) x)).prod := ⟨_, rfl⟩
  have hPpos : ∀ x, 0 < P x := by
    intro x
    rw [hP]
    exact column_pos Real.sqrt x I hI0 _ hposall
  have hPup : ∀ x, x < 9 → P x < P (x + I) := by
    intro x hx
    have h := column_step_up Real.sqrt x I hI0 _ hposall
    simp only [List.map_cons, List.map_nil, List.sum_cons, List.sum_nil, hm1, hm2, hm3, hm4,
      hq1, hq2, ← hs3, hq3, hq4] at h
    have hprod : ∀ z, P z =
        ([(⟨15 / 2, 10, 15⟩ : ThreePointEstimate ℝ), ⟨6, 17 / 2, 25 / 2⟩,
        ⟨5, 15 / 2, 13⟩, ⟨7, 11, 15⟩].map (fun e =>
          ProbabilityTheory.cdf (ProbabilityTheory.gaussianReal (computeMean e)
              (Real.toNNReal (computeStdDev Real.sqrt e ^ 2))) (z + I)
            - ProbabilityTheory.cdf (ProbabilityTheory.gaussianReal (computeMean e)
              (Real.toNNReal (computeStdDev Real.sqrt e ^ 2))) z)).prod := by
      intro z; rw [hP]
    simp only [List.map_cons, List.map_nil, hm1, hm2, hm3, hm4, hq1, hq2, ← hs3, hq3, hq4]
      at hprod
    rw [← hprod x, ← hprod (x + I)] at h
    have hS : (2 * (x + I - 125 / 12) * I + I ^ 2) / (2 * (275 / 144))
        + ((2 * (x + I - 35 / 4) * I + I ^ 2) / (2 * (165 / 112))
        + ((2 * (x + I - 8) * I + I ^ 2) / (2 * (15 / 7))
        + ((2 * (x + I - 11) * I + I ^ 2) / (2 * (16 / 7)) + 0))) < 0 := by
      have e : (2 * (x + I - 125 / 12) * I + I ^ 2) / (2 * (275 / 144))
        + ((2 * (x + I - 35 / 4) * I + I ^ 2) / (2 * (165 / 112))
        + ((2 * (x + I - 8) * I + I ^ 2) / (2 * (15 / 7))
        + ((2 * (x + I - 11) * I + I ^ 2) / (2 * (16 / 7)) + 0)))
          = I * ((2 * (x + I - 125 / 12) + I) * (72 / 275)
            + (2 * (x + I - 35 / 4) + I) * (56 / 165)
            + (2 * (x + I - 8) + I) * (7 / 30)
            + (2 * (x + I - 11) + I) * (7 / 32)) := by ring
      rw [e]
      exact mul_neg_of_pos_of_neg hI0 (by linarith)
    have hE := Real.exp_lt_one_iff.mpr hS
    calc P x ≤ _ := h
      _ < 1 * P (x + I) := mul_lt_mul_of_pos_right hE (hPpos _)
      _ = P (x + I) := one_mul _
  have hPdown : ∀ x, 11 - I < x → P (x + I) < P x := by
    intro x hx
    have h := column_step_down Real.sqrt x I hI0 _ hposall
    simp only [List.map_cons, List.map_nil, List.sum_cons, List.sum_nil, hm1, hm2, hm3, hm4,
      hq1, hq2, ← hs3, hq3, hq4] at h
    have hprod : ∀ z, P z =
        ([(⟨15 / 2, 10, 15⟩ : ThreePointEstimate ℝ), ⟨6, 17 / 2, 25 / 2⟩,
        ⟨5, 15 / 2, 13⟩, ⟨7, 11, 15⟩].map (fun e =>
          ProbabilityTheory.cdf (ProbabilityTheory.gaussianReal (computeMean e)
              (Real.toNNReal (computeStdDev Real.sqrt e ^ 2))) (z + I)
            - ProbabilityTheory.cdf (ProbabilityTheory.gaussianReal (computeMean e)
              (Real.toNNReal (computeStdDev Real.sqrt e ^ 2))) z)).prod := by
      intro z; rw [hP]
    simp only [List.map_cons, List.map_nil, hm1, hm2, hm3, hm4, hq1, hq2, ← hs3, hq3, hq4]
      at hprod
    rw [← hprod x, ← hprod (x + I)] at h
    have hS : -(2 * (x - 125 / 12) * I + I ^ 2) / (2 * (275 / 144))
        + (-(2 * (x - 35 / 4) * I + I ^ 2) / (2 * (165 / 112))
        + (-(2 * (x - 8) * I + I ^ 2) / (2 * (15 / 7))
        + (-(2 * (x - 11) * I + I ^ 2) / (2 * (16 / 7)) + 0))) < 0 := by
      have e : -(2 * (x - 125 / 12) * I + I ^ 2) / (2 * (275 / 144))
        + (-(2 * (x - 35 / 4) * I + I ^ 2) / (2 * (165 / 112))
        + (-(2 * (x - 8) * I + I ^ 2) / (2 * (15 / 7))
        + (-(2 * (x - 11) * I + I ^ 2) / (2 * (16 / 7)) + 0)))
          = I * (-((2 * (x - 125 / 12) + I) * (72 / 275)
            + (2 * (x - 35 / 4) + I) * (56 / 165)
            + (2 * (x - 8) + I) * (7 / 30)
            + (2 * (x - 11) + I) * (7 / 32))) := by ring
      rw [e]
      exact mul_neg_of_pos_of_neg hI0 (by linarith)
    have hE := Real.exp_lt_one_iff.mpr hS
    calc P (x + I) ≤ _ := h
      _ < 1 * P x := mul_lt_mul_of_pos_right hE (hPpos _)
      _ = P x := one_mul _
  -- the array in terms of `P`
  have hrun2 : logisticPooling Real.sqrt
      (fun mu sigma x =>
        ProbabilityTheory.cdf (ProbabilityTheory.gaussianReal mu (Real.toNNReal (sigma ^ 2))) x)
      Real.rpow 1000
      [⟨15 / 2, 10, 15⟩, ⟨6, 17 / 2, 25 / 2⟩, ⟨5, 15 / 2, 13⟩, ⟨7, 11, 15⟩]
      = Except.ok ((List.range 1000).map (fun (i : Nat) =>
          Real.rpow (P (8 - 8 * s3 + (i : ℝ) * I)) (1 / (4 : ℝ))), 8 - 8 * s3, 8 + 8 * s3) := by
    have hlen : (([(⟨15 / 2, 10, 15⟩ : ThreePointEstimate ℝ), ⟨6, 17 / 2, 25 / 2⟩,
        ⟨5, 15 / 2, 13⟩, ⟨7, 11, 15⟩].length : Nat) : ℝ) = 4 := by norm_num
    rw [hrun]
    refine congrArg (fun l => Except.ok (l, 8 - 8 * s3, 8 + 8 * s3)) ?_
    apply List.map_congr_left
    intro i _
    rw [hP, hlen]
  have hc : (0 : ℝ) < 1 / (4 : ℝ) := by norm_num
  refine ⟨_, _, _, ?_, hrun2, ?_, fun e he => ⟨hradall e he, hposall e he⟩, ?_, ?_⟩
  · rw [logisticPoolingRiskItems_eq]
    exact hrun2
  · rw [List.length_map, List.length_range]
  · intro y hy
    obtain ⟨i, _, rfl⟩ := List.mem_map.mp hy
    exact Real.rpow_pos_of_pos (hPpos _) _
  · intro i y hy hmax
    rw [← hI]
    have hi : i < 1000 := by
      by_contra hcon
      rw [List.getElem?_eq_none (by rw [List.length_map, List.length_range]; omega)] at hy
      exact Option.noConfusion hy
    rw [List.getElem?_map, List.getElem?_range hi, Option.map_some'] at hy
    have hy2 := Option.some.inj hy
    have hmax2 : ∀ k : Nat, k < 1000 →
        Real.rpow (P (8 - 8 * s3 + (k : ℝ) * I)) (1 / (4 : ℝ)) ≤ y :=
      fun k hk => hmax _ (List.mem_map.mpr ⟨k, List.mem_range.mpr hk, rfl⟩)
    constructor
    · by_contra hx
      push_neg at hx
      have hi1 : i + 1 < 1000 := by
        by_contra hcon
        have h999 : (999 : ℝ) ≤ (i : ℝ) := by
          have : 999 ≤ i := by omega
          exact_mod_cast this
        have hmul : 0 ≤ s3 * ((i : ℝ) - 999) := mul_nonneg hp3.le (by linarith)
        rw [hIval] at hx
        linarith only [hx, hmul, h999, b3l, hp3]
      have hstep := hPup _ hx
      have hcast : 8 - 8 * s3 + ((i + 1 : Nat) : ℝ) * I = 8 - 8 * s3 + (i : ℝ) * I + I := by
        push_cast
        ring
      have h1 := hmax2 (i + 1) hi1
      rw [hcast, ← hy2] at h1
      have h2 := Real.rpow_lt_rpow (hPpos _).le hstep hc
      exact absurd h1 (not_le.mpr h2)
    · by_contra hx
      push_neg at hx
      cases i with
      | zero =>
        simp only [Nat.cast_zero, zero_mul, add_zero] at hx
        linarith
      | succ k =>
        have hcast : 8 - 8 * s3 + ((k + 1 : Nat) : ℝ) * I = 8 - 8 * s3 + (k : ℝ) * I + I := by
          push_cast
          ring
        rw [hcast] at hx hy2
        have hstep := hPdown (8 - 8 * s3 + (k : ℝ) * I) (by linarith)
        have h1 := hmax2 k (by omega)
        rw [← hy2] at h1
        have h2 := Real.rpow_lt_rpow (hPpos _).le hstep hc
        exact absurd h1 (not_le.mpr h2)

end Lemmas

section Claims

variable {α : Type} [LinearOrderedField α]

/-- C1: for every non-empty list of estimates (and fuel for the 1000 bins), `linearPooling`
returns an array of the same length as every basis built by `constructInputBases`, over the
same `minPoint` and `maxPoint`, and its `i`-th entry is the sum of the bases' `i`-th bins
divided by the number `k` of estimates. -/
theorem linearPooling_arithmetic_mean (Sqrt : α → α) (NormalCDF : α → α → α → α) (fuel : Nat)
    (inputs : List (ThreePointEstimate α)) (hne : inputs ≠ []) (hfuel : 1000 ≤ fuel) :
    ∃ (inputBases : List (List α)) (minPoint maxPoint : α) (pooledBasis : List α),
      constructInputBases Sqrt NormalCDF fuel inputs
        = Except.ok (inputBases, minPoint, maxPoint) ∧
      linearPooling Sqrt NormalCDF fuel inputs = Except.ok (pooledBasis, minPoint, maxPoint) ∧
      inputBases.length = inputs.length ∧
      (∀ b ∈ inputBases, pooledBasis.length = b.length) ∧
      ∀ i, i < pooledBasis.length →
        pooledBasis[i]?
          = some ((inputBases.map (fun b => b.getD i 0)).sum / (inputs.length : α)) := by
  obtain ⟨⟨minPoint, maxPoint⟩, hrange⟩ := determineOutputRange_ok Sqrt inputs hne
  refine ⟨basesOf Sqrt NormalCDF minPoint maxPoint inputs, minPoint, maxPoint, _,
    constructInputBases_run Sqrt NormalCDF fuel hfuel inputs minPoint maxPoint hrange,
    linearPooling_run Sqrt NormalCDF fuel hfuel inputs hne minPoint maxPoint hrange,
    basesOf_length Sqrt NormalCDF minPoint maxPoint inputs, ?_, ?_⟩
  · intro b hb
    rw [basesOf_mem_length Sqrt NormalCDF minPoint maxPoint inputs b hb]
    simp
  · intro i hi
    have hi2 : i < binCount minPoint maxPoint := by simpa using hi
    rw [List.getElem?_map, List.getElem?_range hi2, Option.map_some', foldl_add_getD,
      basesOf_length, zero_add]

/-- C2: for every non-empty list of estimates (and fuel for the 1000 bins), `logisticPooling`
returns an array of the same length as every basis built by `constructInputBases`, over the
same `minPoint` and `maxPoint`, whose `i`-th entry is `Pow` of the product of the bases'
`i`-th bins and `1/k`; when `k = 1` and `Pow x 1 = x` (as `math.Pow` does), the output is the
single basis itself. -/
theorem logisticPooling_geometric_mean (Sqrt : α → α) (NormalCDF : α → α → α → α)
    (Pow : α → α → α) (fuel : Nat) (inputs : List (ThreePointEstimate α))
    (hne : inputs ≠ []) (hfuel : 1000 ≤ fuel) :
    ∃ (inputBases : List (List α)) (minPoint maxPoint : α) (pooledBasis : List α),
      constructInputBases Sqrt NormalCDF fuel inputs
        = Except.ok (inputBases, minPoint, maxPoint) ∧
      logisticPooling Sqrt NormalCDF Pow fuel inputs
        = Except.ok (pooledBasis, minPoint, maxPoint) ∧
      inputBases.length = inputs.length ∧
      (∀ b ∈ inputBases, pooledBasis.length = b.length) ∧
      (∀ i, i < pooledBasis.length →
        pooledBasis[i]?
          = some (Pow (inputBases.map (fun b => b.getD i 0)).prod (1 / (inputs.length : α)))) ∧
      (inputs.length = 1 → (∀ x, Pow x 1 = x) → inputBases = [pooledBasis]) := by
  obtain ⟨⟨minPoint, maxPoint⟩, hrange⟩ := determineOutputRange_ok Sqrt inputs hne
  have hentry : ∀ i, i < ((List.range (binCount minPoint maxPoint)).map (fun i =>
            Pow ((basesOf Sqrt NormalCDF minPoint maxPoint inputs).foldl
              (fun acc b => acc * b.getD i 0) 1)
              (1 / ((basesOf Sqrt NormalCDF minPoint maxPoint inputs).length : α)))).length →
        ((List.range (binCount minPoint maxPoint)).map (fun i =>
            Pow ((basesOf Sqrt NormalCDF minPoint maxPoint inputs).foldl
              (fun acc b => acc * b.getD i 0) 1)
              (1 / ((basesOf Sqrt NormalCDF minPoint maxPoint inputs).length : α))))[i]?
          = some (Pow ((basesOf Sqrt NormalCDF minPoint maxPoint inputs).map
              (fun b => b.getD i 0)).prod (1 / (inputs.length : α))) := by
    intro i hi
    have hi2 : i < binCount minPoint maxPoint := by simpa using hi
    rw [List.getElem?_map, List.getElem?_range hi2, Option.map_some', foldl_mul_getD,
      basesOf_length, one_mul]
  refine ⟨basesOf Sqrt NormalCDF minPoint maxPoint inputs, minPoint, maxPoint, _,
    constructInputBases_run Sqrt NormalCDF fuel hfuel inputs minPoint maxPoint hrange,
    logisticPooling_run Sqrt NormalCDF Pow fuel hfuel inputs hne minPoint maxPoint hrange,
    basesOf_length Sqrt NormalCDF minPoint maxPoint inputs, ?_, hentry, ?_⟩
  · intro b hb
    rw [basesOf_mem_length Sqrt NormalCDF minPoint maxPoint inputs b hb]
    simp
  · intro hk hpow
    obtain ⟨est, rfl⟩ := List.length_eq_one.mp hk
    simp only [basesOf, List.map_cons, List.map_nil, List.foldl_cons, List.foldl_nil,
      List.length_singleton, Nat.cast_one, div_one, hpow, one_mul, List.cons.injEq, and_true]
    apply List.ext_getElem?
    intro i
    by_cases hi : i < binCount minPoint maxPoint
    · rw [List.getElem?_map, List.getElem?_range hi, Option.map_some']
      have hb : i < (basisOf (NormalCDF (computeMean est) (computeStdDev Sqrt est)) minPoint
          ((maxPoint - minPoint) / 1000) (binCount minPoint maxPoint)).length := by
        rw [basisOf_length]; exact hi
      rw [List.getElem?_eq_getElem hb, List.getD_eq_getElem _ _ hb]
    · rw [List.getElem?_eq_none (by rw [basisOf_length]; omega),
        List.getElem?_eq_none (by simp; omega)]

/-- C1, at a concrete input: two estimates over the reals, `math.Sqrt` read as `Real.sqrt`
and the CDF as that of the real Gaussian measure. -/
theorem linearPooling_arithmetic_mean_witness :
    ∃ (inputBases : List (List ℝ)) (minPoint maxPoint : ℝ) (pooledBasis : List ℝ),
      constructInputBases Real.sqrt
          (fun mu sigma x =>
            ProbabilityTheory.cdf (ProbabilityTheory.gaussianReal mu (Real.toNNReal (sigma ^ 2))) x)
          1000 [⟨0, 31 / 4, 11⟩, ⟨8, 63 / 4, 19⟩]
        = Except.ok (inputBases, minPoint, maxPoint) ∧
      linearPooling Real.sqrt
          (fun mu sigma x =>
            ProbabilityTheory.cdf (ProbabilityTheory.gaussianReal mu (Real.toNNReal (sigma ^ 2))) x)
          1000 [⟨0, 31 / 4, 11⟩, ⟨8, 63 / 4, 19⟩]
        = Except.ok (pooledBasis, minPoint, maxPoint) ∧
      inputBases.length = [(⟨0, 31 / 4, 11⟩ : ThreePointEstimate ℝ), ⟨8, 63 / 4, 19⟩].length ∧
      (∀ b ∈ inputBases, pooledBasis.length = b.length) ∧
      ∀ i, i < pooledBasis.length →
        pooledBasis[i]?
          = some ((inputBases.map (fun b => b.getD i 0)).sum
              / ([(⟨0, 31 / 4, 11⟩ : ThreePointEstimate ℝ), ⟨8, 63 / 4, 19⟩].length : ℝ)) :=
  linearPooling_arithmetic_mean Real.sqrt _ 1000 [⟨0, 31 / 4, 11⟩, ⟨8, 63 / 4, 19⟩]
    (List.cons_ne_nil _ _) (le_refl 1000)

/-- C2, at a concrete input: a single estimate over the reals, with `math.Pow` read as
`Real.rpow`, for which `Pow x 1 = x`; the pooled array is the estimate's own basis. -/
theorem logisticPooling_geometric_mean_witness :
    ∃ (inputBases : List (List ℝ)) (minPoint maxPoint : ℝ) (pooledBasis : List ℝ),
      constructInputBases Real.sqrt
          (fun mu sigma x =>
            ProbabilityTheory.cdf (ProbabilityTheory.gaussianReal mu (Real.toNNReal (sigma ^ 2))) x)
          1000 [⟨0, 31 / 4, 11⟩]
        = Except.ok (inputBases, minPoint, maxPoint) ∧
      logisticPooling Real.sqrt
          (fun mu sigma x =>
            ProbabilityTheory.cdf (ProbabilityTheory.gaussianReal mu (Real.toNNReal (sigma ^ 2))) x)
          Real.rpow 1000 [⟨0, 31 / 4, 11⟩]
        = Except.ok (pooledBasis, minPoint, maxPoint) ∧
      inputBases = [pooledBasis] := by
  obtain ⟨inputBases, minPoint, maxPoint, pooledBasis, h1, h2, _, _, _, h6⟩ :=
    logisticPooling_geometric_mean Real.sqrt
      (fun mu sigma x =>
        ProbabilityTheory.cdf (ProbabilityTheory.gaussianReal mu (Real.toNNReal (sigma ^ 2))) x)
      Real.rpow 1000 [⟨0, 31 / 4, 11⟩] (List.cons_ne_nil _ _) (le_refl 1000)
  exact ⟨inputBases, minPoint, maxPoint, pooledBasis, h1, h2, h6 rfl Real.rpow_one⟩

/-- C3 fails at two well-formed estimates: `(0, 7.75, 11)` has mean 7 and standard
deviation 2, `(8, 15.75, 19)` has mean 15 and standard deviation 2; the range returned is
the first estimate's window `(-9, 23)`, whose upper end is below the upper end `31` of the
second estimate's window. -/
theorem determineOutputRange_union_counterexample :
    ((0 : ℝ) ≤ 31 / 4 ∧ (31 / 4 : ℝ) ≤ 11) ∧ ((8 : ℝ) ≤ 63 / 4 ∧ (63 / 4 : ℝ) ≤ 19) ∧
    determineOutputRange Real.sqrt [⟨0, 31 / 4, 11⟩, ⟨8, 63 / 4, 19⟩]
      = Except.ok (-9, 23) ∧
    computeMean (⟨8, 63 / 4, 19⟩ : ThreePointEstimate ℝ)
      + 8 * computeStdDev Real.sqrt ⟨8, 63 / 4, 19⟩ = 31 ∧
    ¬ ((23 : ℝ) ≥ computeMean (⟨8, 63 / 4, 19⟩ : ThreePointEstimate ℝ)
      + 8 * computeStdDev Real.sqrt ⟨8, 63 / 4, 19⟩) := by
  have hm1 : computeMean (⟨0, 31 / 4, 11⟩ : ThreePointEstimate ℝ) = 7 := by
    norm_num [computeMean]
  have hm2 : computeMean (⟨8, 63 / 4, 19⟩ : ThreePointEstimate ℝ) = 15 := by
    norm_num [computeMean]
  have hs1 : computeStdDev Real.sqrt (⟨0, 31 / 4, 11⟩ : ThreePointEstimate ℝ) = 2 := by
    have : stdDevRadicand (⟨0, 31 / 4, 11⟩ : ThreePointEstimate ℝ) = 4 := by
      norm_num [stdDevRadicand, computeMean]
    rw [computeStdDev, this, real_sqrt_four]
  have hs2 : computeStdDev Real.sqrt (⟨8, 63 / 4, 19⟩ : ThreePointEstimate ℝ) = 2 := by
    have : stdDevRadicand (⟨8, 63 / 4, 19⟩ : ThreePointEstimate ℝ) = 4 := by
      norm_num [stdDevRadicand, computeMean]
    rw [computeStdDev, this, real_sqrt_four]
  refine ⟨by norm_num, by norm_num, ?_, ?_, ?_⟩
  · simp only [determineOutputRange, List.foldl_cons, List.foldl_nil, rangeStep, hm1, hm2,
      hs1, hs2]
    norm_num
  · rw [hm2, hs2]; norm_num
  · rw [hm2, hs2]; norm_num

/-- C3, amended: for every non-empty list of well-formed estimates (`low ≤ mid ≤ high`),
in binary64 and for any `math.Sqrt`, `determineOutputRange` returns the 8-sigma window of
one of the input estimates, and no estimate's window starts below it:
`mean_i - 8*std_i < minPoint` is false for every `i`, which is
`minPoint ≤ mean_i - 8*std_i` unless one of the two is `NaN`. Nothing is claimed of
`maxPoint` beyond its being the upper end of that one window. -/
theorem determineOutputRange_lower_cover (Sqrt : F64 → F64)
    (inputs : List (ThreePointEstimate F64)) (hne : inputs ≠ [])
    (_hwf : ∀ est ∈ inputs, est.lowPoint ≤ est.midPoint ∧ est.midPoint ≤ est.highPoint) :
    ∃ minPoint maxPoint : F64,
      determineOutputRange Sqrt inputs = Except.ok (minPoint, maxPoint) ∧
      (∃ est ∈ inputs, minPoint = computeMean est - 8 * computeStdDev Sqrt est ∧
        maxPoint = computeMean est + 8 * computeStdDev Sqrt est) ∧
      (∀ est ∈ inputs, ¬ (computeMean est - 8 * computeStdDev Sqrt est < minPoint)) ∧
      ∀ est ∈ inputs, minPoint ≠ F64.nan →
        computeMean est - 8 * computeStdDev Sqrt est ≠ F64.nan →
        minPoint ≤ computeMean est - 8 * computeStdDev Sqrt est := by
  cases inputs with
  | nil => exact absurd rfl hne
  | cons e0 rest =>
    obtain ⟨h1, h2, h3⟩ := foldl_rangeStep_not_below Sqrt F64.lt_irrefl F64.lt_trans rest
      (windowLow Sqrt e0, windowHigh Sqrt e0)
    have hbelow : ∀ est ∈ e0 :: rest, ¬ (windowLow Sqrt est
        < (rest.foldl (rangeStep Sqrt) (windowLow Sqrt e0, windowHigh Sqrt e0)).1) := by
      intro est hest
      rcases List.mem_cons.mp hest with rfl | hmem
      · exact h1 _ (F64.lt_irrefl _)
      · exact h2 est hmem
    refine ⟨_, _, determineOutputRange_cons_eq Sqrt e0 rest, ?_, hbelow, ?_⟩
    · rcases h3 with h3 | ⟨est, hmem, h3⟩
      · exact ⟨e0, List.mem_cons_self _ _, by rw [h3]; rfl, by rw [h3]; rfl⟩
      · exact ⟨est, List.mem_cons_of_mem _ hmem, by rw [h3]; rfl, by rw [h3]; rfl⟩
    · intro est hest hmin hlow
      exact F64.le_of_not_lt _ _ hlow hmin (hbelow est hest)

/-- C3 amended, at the two estimates of the counterexample, in binary64 with the correctly
rounded square root. -/
theorem determineOutputRange_lower_cover_witness :
    (∀ est ∈ [(⟨0, 31 / 4, 11⟩ : ThreePointEstimate F64), ⟨8, 63 / 4, 19⟩],
      est.lowPoint ≤ est.midPoint ∧ est.midPoint ≤ est.highPoint) ∧
    ∃ minPoint maxPoint : F64,
      determineOutputRange F64.sqrt [⟨0, 31 / 4, 11⟩, ⟨8, 63 / 4, 19⟩]
        = Except.ok (minPoint, maxPoint) ∧
      (∃ est ∈ [(⟨0, 31 / 4, 11⟩ : ThreePointEstimate F64), ⟨8, 63 / 4, 19⟩],
        minPoint = computeMean est - 8 * computeStdDev F64.sqrt est ∧
        maxPoint = computeMean est + 8 * computeStdDev F64.sqrt est) ∧
      (∀ est ∈ [(⟨0, 31 / 4, 11⟩ : ThreePointEstimate F64), ⟨8, 63 / 4, 19⟩],
        ¬ (computeMean est - 8 * computeStdDev F64.sqrt est < minPoint)) ∧
      ∀ est ∈ [(⟨0, 31 / 4, 11⟩ : ThreePointEstimate F64), ⟨8, 63 / 4, 19⟩],
        minPoint ≠ F64.nan →
        computeMean est - 8 * computeStdDev F64.sqrt est ≠ F64.nan →
        minPoint ≤ computeMean est - 8 * computeStdDev F64.sqrt est :=
  have hwf : ∀ est ∈ [(⟨0, 31 / 4, 11⟩ : ThreePointEstimate F64), ⟨8, 63 / 4, 19⟩],
      est.lowPoint ≤ est.midPoint ∧ est.midPoint ≤ est.highPoint := by
    intro est hest
    simp only [List.mem_cons, List.mem_singleton, List.not_mem_nil, or_false] at hest
    rcases hest with rfl | rfl <;> decide!
  ⟨hwf, determineOutputRange_lower_cover F64.sqrt [⟨0, 31 / 4, 11⟩, ⟨8, 63 / 4, 19⟩]
    (List.cons_ne_nil _ _) hwf⟩

/-- C4: over any carrier, binary64 included, and for any `math.Sqrt` and CDF. Let
`(minPoint, maxPoint)` be the range `determineOutputRange` returns for the list,
`interval = (maxPoint - minPoint) / 1000`, and `x_j` the value that `j` repeated additions
of `interval` to `minPoint` give. `constructInputBases` returns only if the loop condition
`x_m < maxPoint` holds for `m < n` and fails at `m = n`, for some `n` within the fuel; and
for that `n` it returns one basis per estimate, each of exactly `n` entries, the `j`-th
entry of the basis of estimate `est` being `CDF (x_j + interval) - CDF x_j` for the CDF with
`Mu = computeMean est` and `Sigma = computeStdDev est`. -/
theorem constructInputBases_bin_mass {β : Type} [NatCast β] [Add β] [Sub β] [Mul β] [Div β]
    [LT β] [DecidableRel (fun (a b : β) => a < b)]
    (Sqrt : β → β) (NormalCDF : β → β → β → β)
    (fuel : Nat) (inputs : List (ThreePointEstimate β)) (minPoint maxPoint : β)
    (hrange : determineOutputRange Sqrt inputs = Except.ok (minPoint, maxPoint)) :
    (∀ r : List (List β) × β × β,
      constructInputBases Sqrt NormalCDF fuel inputs = Except.ok r →
      ∃ n : Nat, n ≤ fuel ∧
        (∀ m : Nat, m < n →
          Nat.iterate (fun x => x + (maxPoint - minPoint) / 1000) m minPoint < maxPoint) ∧
        ¬ (Nat.iterate (fun x => x + (maxPoint - minPoint) / 1000) n minPoint
          < maxPoint)) ∧
    ∀ n : Nat, n ≤ fuel →
      (∀ m : Nat, m < n →
        Nat.iterate (fun x => x + (maxPoint - minPoint) / 1000) m minPoint < maxPoint) →
      ¬ (Nat.iterate (fun x => x + (maxPoint - minPoint) / 1000) n minPoint < maxPoint) →
      ∃ inputBases : List (List β),
        constructInputBases Sqrt NormalCDF fuel inputs
          = Except.ok (inputBases, minPoint, maxPoint) ∧
        inputBases.length = inputs.length ∧
        ∀ (k : Nat) (est : ThreePointEstimate β), inputs[k]? = some est →
          ∃ basis : List β, inputBases[k]? = some basis ∧ basis.length = n ∧
            ∀ j, j < n →
              basis[j]?
                = some (NormalCDF (computeMean est) (computeStdDev Sqrt est)
                      (Nat.iterate (fun x => x + (maxPoint - minPoint) / 1000) j minPoint
                        + (maxPoint - minPoint) / 1000)
                    - NormalCDF (computeMean est) (computeStdDev Sqrt est)
                      (Nat.iterate (fun x => x + (maxPoint - minPoint) / 1000) j
                        minPoint)) := by
  refine ⟨fun r hr => constructInputBases_ok_run Sqrt NormalCDF fuel inputs minPoint maxPoint
    hrange r hr, ?_⟩
  intro n hfuel hrun hstop
  refine ⟨_, constructInputBases_binsFrom Sqrt NormalCDF fuel n inputs minPoint maxPoint
    hrange hfuel hrun hstop, List.length_map _ _, ?_⟩
  intro k est hest
  refine ⟨_, by rw [List.getElem?_map, hest]; rfl, binsFrom_length _ _ _ _, ?_⟩
  intro j hj
  exact binsFrom_getElem? _ _ n j _ hj

/-- C4 at the first labor estimate `(7.5, 10, 15)` of `main`, in binary64 with the correctly
rounded square root, the CDF being replaced by the identity: the loop condition holds at the
first 1001 values of the loop variable and fails at the next, and the basis has the 1001
entries `(x_j + interval) - x_j`. -/
theorem constructInputBases_bin_mass_witness :
    determineOutputRange F64.sqrt [⟨15 / 2, 10, 15⟩]
      = Except.ok (windowLow F64.sqrt ⟨15 / 2, 10, 15⟩,
          windowHigh F64.sqrt ⟨15 / 2, 10, 15⟩) ∧
    (∀ m : Nat, m < 1001 →
      Nat.iterate (fun x => x + (windowHigh F64.sqrt
          (⟨15 / 2, 10, 15⟩ : ThreePointEstimate F64)
          - windowLow F64.sqrt ⟨15 / 2, 10, 15⟩) / 1000) m
        (windowLow F64.sqrt ⟨15 / 2, 10, 15⟩)
      < windowHigh F64.sqrt ⟨15 / 2, 10, 15⟩) ∧
    ¬ (Nat.iterate (fun x => x + (windowHigh F64.sqrt
          (⟨15 / 2, 10, 15⟩ : ThreePointEstimate F64)
          - windowLow F64.sqrt ⟨15 / 2, 10, 15⟩) / 1000) 1001
        (windowLow F64.sqrt ⟨15 / 2, 10, 15⟩)
      < windowHigh F64.sqrt ⟨15 / 2, 10, 15⟩) ∧
    ∃ inputBases : List (List F64),
      constructInputBases F64.sqrt (fun _ _ x => x) 1001 [⟨15 / 2, 10, 15⟩]
        = Except.ok (inputBases, windowLow F64.sqrt ⟨15 / 2, 10, 15⟩,
            windowHigh F64.sqrt ⟨15 / 2, 10, 15⟩) ∧
      inputBases.length = [(⟨15 / 2, 10, 15⟩ : ThreePointEstimate F64)].length ∧
      ∀ (k : Nat) (est : ThreePointEstimate F64),
        [(⟨15 / 2, 10, 15⟩ : ThreePointEstimate F64)][k]? = some est →
        ∃ basis : List F64, inputBases[k]? = some basis ∧ basis.length = 1001 ∧
          ∀ j, j < 1001 →
            basis[j]?
              = some (Nat.iterate (fun x => x + (windowHigh F64.sqrt
                        (⟨15 / 2, 10, 15⟩ : ThreePointEstimate F64)
                        - windowLow F64.sqrt ⟨15 / 2, 10, 15⟩) / 1000) j
                      (windowLow F64.sqrt ⟨15 / 2, 10, 15⟩)
                    + (windowHigh F64.sqrt (⟨15 / 2, 10, 15⟩ : ThreePointEstimate F64)
                      - windowLow F64.sqrt ⟨15 / 2, 10, 15⟩) / 1000
                  - Nat.iterate (fun x => x + (windowHigh F64.sqrt
                        (⟨15 / 2, 10, 15⟩ : ThreePointEstimate F64)
                        - windowLow F64.sqrt ⟨15 / 2, 10, 15⟩) / 1000) j
                      (windowLow F64.sqrt ⟨15 / 2, 10, 15⟩)) :=
  ⟨determineOutputRange_single F64.sqrt ⟨15 / 2, 10, 15⟩, labor_run.1, labor_run.2.1,
    (constructInputBases_bin_mass F64.sqrt (fun _ _ x => x) 1001 [⟨15 / 2, 10, 15⟩] _ _
      (determineOutputRange_single F64.sqrt ⟨15 / 2, 10, 15⟩)).2 1001 (Nat.le_refl 1001)
      labor_run.1 labor_run.2.1⟩

/-- C5 fails on the program. On the first estimate `(7.5, 10, 15)` of `main`, which
satisfies `low ≤ mid ≤ high` and `low < high`, the binary64 loop variable is still below
`maxPoint` after 1000 additions of the interval: `constructInputBases` returns a basis of
1001 entries, and so do `linearPooling` and `logisticPooling`, whatever the CDF and `Pow`;
with fuel for 1000 iterations only, the loop is still running. On
`(2^50 - 1, 2^50, 2^50 + 1)` the addition of the interval leaves the loop variable
unchanged and the loop does not terminate, whatever the fuel. -/
theorem constructInputBases_extra_bin (NormalCDF : F64 → F64 → F64 → F64)
    (Pow : F64 → F64 → F64) :
    ((15 / 2 : F64) ≤ 10 ∧ (10 : F64) ≤ 15 ∧ (15 / 2 : F64) < 15) ∧
    (∃ basis : List F64,
      constructInputBases F64.sqrt NormalCDF 1001 [⟨15 / 2, 10, 15⟩]
        = Except.ok ([basis], windowLow F64.sqrt ⟨15 / 2, 10, 15⟩,
            windowHigh F64.sqrt ⟨15 / 2, 10, 15⟩) ∧
      basis.length = 1001) ∧
    (∃ linear : List F64,
      linearPooling F64.sqrt NormalCDF 1001 [⟨15 / 2, 10, 15⟩]
        = Except.ok (linear, windowLow F64.sqrt ⟨15 / 2, 10, 15⟩,
            windowHigh F64.sqrt ⟨15 / 2, 10, 15⟩) ∧
      linear.length = 1001) ∧
    (∃ logistic : List F64,
      logisticPooling F64.sqrt NormalCDF Pow 1001 [⟨15 / 2, 10, 15⟩]
        = Except.ok (logistic, windowLow F64.sqrt ⟨15 / 2, 10, 15⟩,
            windowHigh F64.sqrt ⟨15 / 2, 10, 15⟩) ∧
      logistic.length = 1001) ∧
    constructInputBases F64.sqrt NormalCDF 1000 [⟨15 / 2, 10, 15⟩]
      = Except.error Fault.fuelExhausted ∧
    ((1125899906842623 : F64) ≤ 1125899906842624 ∧
      (1125899906842624 : F64) ≤ 1125899906842625 ∧
      (1125899906842623 : F64) < 1125899906842625) ∧
    ∀ fuel : Nat,
      constructInputBases F64.sqrt NormalCDF fuel
          [⟨1125899906842623, 1125899906842624, 1125899906842625⟩]
        = Except.error Fault.fuelExhausted := by
  obtain ⟨hrun, hstop, _⟩ := labor_run
  have hbases := constructInputBases_binsFrom F64.sqrt NormalCDF 1001 1001
    [⟨15 / 2, 10, 15⟩] _ _ (determineOutputRange_single F64.sqrt ⟨15 / 2, 10, 15⟩)
    (Nat.le_refl 1001) hrun hstop
  rw [List.map_singleton] at hbases
  have hlen : ∀ b ∈ [binsFrom (NormalCDF (computeMean (⟨15 / 2, 10, 15⟩ : ThreePointEstimate F64))
      (computeStdDev F64.sqrt ⟨15 / 2, 10, 15⟩))
      ((windowHigh F64.sqrt (⟨15 / 2, 10, 15⟩ : ThreePointEstimate F64)
        - windowLow F64.sqrt ⟨15 / 2, 10, 15⟩) / 1000)
      (windowLow F64.sqrt ⟨15 / 2, 10, 15⟩) 1001], b.length = 1001 := by
    intro b hb
    rw [List.mem_singleton.mp hb]
    exact binsFrom_length _ _ _ _
  refine ⟨by decide!, ⟨_, hbases, binsFrom_length _ _ _ _⟩,
    linearPooling_length F64.sqrt NormalCDF 1001 1001 _ _ _ _ _ hbases rfl hlen,
    logisticPooling_length F64.sqrt NormalCDF Pow 1001 1001 _ _ _ _ _ hbases rfl hlen,
    ?_, by decide!, ?_⟩
  · exact constructInputBases_running F64.sqrt NormalCDF 1000 _ [] _ _
      (determineOutputRange_single F64.sqrt ⟨15 / 2, 10, 15⟩)
      (fun m hm => hrun m (Nat.lt_succ_of_le hm))
  · intro fuel
    unfold constructInputBases
    rw [determineOutputRange_single]
    simp only [basesLoop, binLoop_stuck _ _ _ _ narrow_window_stuck.1 narrow_window_stuck.2]

/-- C6 fails on the program. The estimate `(0.1, 0.1, 0.1)` satisfies `low ≤ mid ≤ high`,
but in binary64 `0.1 + 4 * 0.1 + 0.1` divided by 6 is `0.09999999999999999`, below `low`:
the radicand `(mean - low) * (high - mean) / 7` is negative and `computeStdDev` returns
`NaN`, which is not `≥ 0`. -/
theorem computeMean_below_low :
    ((1 / 10 : F64) ≤ 1 / 10) ∧
    computeMean (⟨1 / 10, 1 / 10, 1 / 10⟩ : ThreePointEstimate F64) < 1 / 10 ∧
    ¬ ((1 / 10 : F64) ≤ computeMean (⟨1 / 10, 1 / 10, 1 / 10⟩ : ThreePointEstimate F64)) ∧
    stdDevRadicand (⟨1 / 10, 1 / 10, 1 / 10⟩ : ThreePointEstimate F64) < 0 ∧
    computeStdDev F64.sqrt (⟨1 / 10, 1 / 10, 1 / 10⟩ : ThreePointEstimate F64) = F64.nan ∧
    ¬ ((0 : F64) ≤ computeStdDev F64.sqrt (⟨1 / 10, 1 / 10, 1 / 10⟩ : ThreePointEstimate F64)) := by
  decide!

/-- C7 fails on the program in both directions, by the rounding that C6 fails by. At
`(0.1, 0.1, 0.1)`, with `low == high`, `computeStdDev` returns `NaN`, not 0. At
`(1, 1, 1 + 2^(-52))`, with `low ≤ mid ≤ high` and `low < high`, the mean rounds to 1 and
`computeStdDev` returns exactly 0. -/
theorem computeStdDev_zero_mismatch :
    ((1 / 10 : F64) ≤ 1 / 10) ∧
    computeStdDev F64.sqrt (⟨1 / 10, 1 / 10, 1 / 10⟩ : ThreePointEstimate F64) = F64.nan ∧
    computeStdDev F64.sqrt (⟨1 / 10, 1 / 10, 1 / 10⟩ : ThreePointEstimate F64) ≠ 0 ∧
    ((1 : F64) ≤ 1 ∧ (1 : F64) ≤ 1 + 1 / 4503599627370496) ∧
    (1 : F64) < 1 + 1 / 4503599627370496 ∧
    (1 : F64) ≠ 1 + 1 / 4503599627370496 ∧
    computeStdDev F64.sqrt
      (⟨1, 1, 1 + 1 / 4503599627370496⟩ : ThreePointEstimate F64) = 0 := by
  decide!

/-- C8 fails at the estimate `(0, 3, 0)`, which has `low = high`: its mean is 2 and the
radicand is `(2 - 0) * (0 - 2) / 7 = -4/7`, not 0. -/
theorem stdDevRadicand_zero_width_counterexample :
    (⟨0, 3, 0⟩ : ThreePointEstimate ℚ).lowPoint = (⟨0, 3, 0⟩ : ThreePointEstimate ℚ).highPoint ∧
    computeMean (⟨0, 3, 0⟩ : ThreePointEstimate ℚ) = 2 ∧
    stdDevRadicand (⟨0, 3, 0⟩ : ThreePointEstimate ℚ) = -4 / 7 ∧
    stdDevRadicand (⟨0, 3, 0⟩ : ThreePointEstimate ℚ) ≠ 0 := by
  norm_num [stdDevRadicand, computeMean]

/-- C8, amended: for every estimate of binary64 numbers with `low == high` (finite),
whatever the value of `mid`, the radicand `(mean - low) * (high - mean) / 7` is never above
zero, and `computeStdDev` returns 0 or `NaN`; the radicand is 0 and `computeStdDev` returns
0 when the computed mean equals `low`. The mean need not equal `low`: it differs for
`mid ≠ low`, as at `(0, 3, 0)`, and by rounding even for `mid == low`, as at
`(0.1, 0.1, 0.1)`. -/
theorem stdDevRadicand_zero_width (est : ThreePointEstimate F64) (k : Int)
    (hlow : est.lowPoint = F64.fin k) (hhigh : est.highPoint = est.lowPoint) :
    ¬ (0 < stdDevRadicand est) ∧
    (computeStdDev F64.sqrt est = 0 ∨ computeStdDev F64.sqrt est = F64.nan) ∧
    (computeMean est = est.lowPoint →
      stdDevRadicand est = 0 ∧ computeStdDev F64.sqrt est = 0) := by
  have h : stdDevRadicand est
      = (computeMean est - est.lowPoint) * (est.highPoint - computeMean est) / 7 := rfl
  have hnonpos : F64.isNonPos (stdDevRadicand est) = true := by
    rw [h, hhigh, hlow]
    apply F64.div_seven_nonPos
    rcases F64.sub_opposite (computeMean est) k with ⟨h1, h2⟩ | ⟨h1, h2⟩
    · exact F64.mul_nonNeg_nonPos _ _ h1 h2
    · exact F64.mul_nonPos_nonNeg _ _ h1 h2
  refine ⟨F64.not_pos_of_nonPos _ hnonpos, F64.sqrt_nonPos _ hnonpos, ?_⟩
  intro hmean
  have hrad : stdDevRadicand est = 0 := by
    rw [h, hmean, hhigh, hlow, F64.sub_self_fin]
    decide!
  refine ⟨hrad, ?_⟩
  rw [computeStdDev, hrad]
  decide!

/-- C8 amended, at `(5, 5, 5)` in binary64, whose computed mean is 5, and at `(0, 3, 0)`,
whose standard deviation is `NaN`. -/
theorem stdDevRadicand_zero_width_witness :
    stdDevRadicand (⟨5, 5, 5⟩ : ThreePointEstimate F64) = 0 ∧
    computeStdDev F64.sqrt (⟨5, 5, 5⟩ : ThreePointEstimate F64) = 0 ∧
    ¬ (0 < stdDevRadicand (⟨0, 3, 0⟩ : ThreePointEstimate F64)) ∧
    computeStdDev F64.sqrt (⟨0, 3, 0⟩ : ThreePointEstimate F64) = F64.nan :=
  ⟨((stdDevRadicand_zero_width ⟨5, 5, 5⟩ (5 * 2 ^ 1074) (by decide!) rfl).2.2
      (by decide!)).1,
    ((stdDevRadicand_zero_width ⟨5, 5, 5⟩ (5 * 2 ^ 1074) (by decide!) rfl).2.2
      (by decide!)).2,
    (stdDevRadicand_zero_width ⟨0, 3, 0⟩ 0 rfl rfl).1,
    by decide!⟩

/-- C9 fails: with `math.Sqrt` read as `Real.sqrt` and the CDF as that of the real Gaussian
measure, `constructInputBases` on the single estimate `(5, 5, 5)` does not fail; it returns
one basis, the empty one, over the range `(5, 5)`. -/
theorem constructInputBases_degenerate_counterexample :
    constructInputBases Real.sqrt
        (fun mu sigma x =>
          ProbabilityTheory.cdf (ProbabilityTheory.gaussianReal mu (Real.toNNReal (sigma ^ 2))) x)
        1000 [⟨5, 5, 5⟩]
      = Except.ok ([[]], 5, 5) :=
  constructInputBases_degenerate Real.sqrt _ 1000 Real.sqrt_zero

/-- C9, amended: discretizing the degenerate estimate `(5, 5, 5)` does not fail. When
`math.Sqrt 0 = 0`, `constructInputBases` on the list holding only `(5, 5, 5)` returns a
single empty basis with `minPoint = maxPoint = 5` (the binning loop runs zero times and the
CDF is never evaluated), and `linearPooling` and `logisticPooling` return the empty array
with the same range: no failure, no basis of zeros and no basis of NaNs. -/
theorem degenerate_estimate_empty_basis (Sqrt : α → α) (NormalCDF : α → α → α → α)
    (Pow : α → α → α) (fuel : Nat) (hsqrt : Sqrt 0 = 0) :
    constructInputBases Sqrt NormalCDF fuel [(⟨5, 5, 5⟩ : ThreePointEstimate α)]
      = Except.ok ([[]], 5, 5) ∧
    linearPooling Sqrt NormalCDF fuel [(⟨5, 5, 5⟩ : ThreePointEstimate α)]
      = Except.ok ([], 5, 5) ∧
    logisticPooling Sqrt NormalCDF Pow fuel [(⟨5, 5, 5⟩ : ThreePointEstimate α)]
      = Except.ok ([], 5, 5) := by
  have h := constructInputBases_degenerate Sqrt NormalCDF fuel hsqrt
  refine ⟨h, ?_, ?_⟩
  · unfold linearPooling
    rw [h]
    simp [poolLoop]
  · unfold logisticPooling
    rw [h]
    simp [poolLoop]

/-- C9 amended, over the reals with `Real.sqrt`, the Gaussian CDF and `Real.rpow`. -/
theorem degenerate_estimate_empty_basis_witness :
    Real.sqrt 0 = 0 ∧
    linearPooling Real.sqrt
        (fun mu sigma x =>
          ProbabilityTheory.cdf (ProbabilityTheory.gaussianReal mu (Real.toNNReal (sigma ^ 2))) x)
        1000 [⟨5, 5, 5⟩]
      = Except.ok ([], 5, 5) ∧
    logisticPooling Real.sqrt
        (fun mu sigma x =>
          ProbabilityTheory.cdf (ProbabilityTheory.gaussianReal mu (Real.toNNReal (sigma ^ 2))) x)
        Real.rpow 1000 [⟨5, 5, 5⟩]
      = Except.ok ([], 5, 5) :=
  ⟨Real.sqrt_zero,
    (degenerate_estimate_empty_basis Real.sqrt _ Real.rpow 1000 Real.sqrt_zero).2⟩

/-- C10 fails at the estimate `(0, 8.5, 8)`, which has `mid > high`: `computeMean` returns 7,
`computeStdDev` returns `sqrt ((7 - 0) * (8 - 7) / 7) = 1`, and the range determiner accepts
the estimate and returns its window `(-1, 15)`. -/
theorem computeMean_ill_formed_counterexample :
    (⟨0, 17 / 2, 8⟩ : ThreePointEstimate ℝ).midPoint
      > (⟨0, 17 / 2, 8⟩ : ThreePointEstimate ℝ).highPoint ∧
    computeMean (⟨0, 17 / 2, 8⟩ : ThreePointEstimate ℝ) = 7 ∧
    computeStdDev Real.sqrt (⟨0, 17 / 2, 8⟩ : ThreePointEstimate ℝ) = 1 ∧
    determineOutputRange Real.sqrt [⟨0, 17 / 2, 8⟩] = Except.ok (-1, 15) := by
  have hm : computeMean (⟨0, 17 / 2, 8⟩ : ThreePointEstimate ℝ) = 7 := by
    norm_num [computeMean]
  have hs : computeStdDev Real.sqrt (⟨0, 17 / 2, 8⟩ : ThreePointEstimate ℝ) = 1 := by
    have : stdDevRadicand (⟨0, 17 / 2, 8⟩ : ThreePointEstimate ℝ) = 1 := by
      norm_num [stdDevRadicand, computeMean]
    rw [computeStdDev, this, Real.sqrt_one]
  refine ⟨by norm_num, hm, hs, ?_⟩
  simp only [determineOutputRange, List.foldl_nil, hm, hs]
  norm_num

/-- C10, amended: `computeMean` and `computeStdDev` make no check of the ordering of
`low`, `mid` and `high`. For every estimate, also one with `low > mid` or `mid > high`,
`computeMean` returns `(low + 4*mid + high) / 6`, `computeStdDev` returns `math.Sqrt` of
`(mean - low) * (high - mean) / 7`, and the range determiner on that single estimate
returns `(mean - 8*std, mean + 8*std)` rather than a failure. -/
theorem computeMean_computeStdDev_unchecked (Sqrt : α → α) (est : ThreePointEstimate α) :
    computeMean est = (est.lowPoint + 4 * est.midPoint + est.highPoint) / 6 ∧
    computeStdDev Sqrt est
      = Sqrt ((computeMean est - est.lowPoint) * (est.highPoint - computeMean est) / 7) ∧
    determineOutputRange Sqrt [est]
      = Except.ok (computeMean est - 8 * computeStdDev Sqrt est,
          computeMean est + 8 * computeStdDev Sqrt est) :=
  ⟨rfl, rfl, rfl⟩

/-- C11: on the empty list of estimates `determineOutputRange` fails, because `inputs[0]`
has no element, and so do `constructInputBases`, `linearPooling` and `logisticPooling`,
whatever the fuel: none of them returns a distribution. -/
theorem empty_input_fails (Sqrt : α → α) (NormalCDF : α → α → α → α) (Pow : α → α → α)
    (fuel : Nat) :
    determineOutputRange Sqrt ([] : List (ThreePointEstimate α))
      = Except.error Fault.indexOutOfRange ∧
    constructInputBases Sqrt NormalCDF fuel [] = Except.error Fault.indexOutOfRange ∧
    linearPooling Sqrt NormalCDF fuel [] = Except.error Fault.indexOutOfRange ∧
    logisticPooling Sqrt NormalCDF Pow fuel [] = Except.error Fault.indexOutOfRange :=
  ⟨rfl, rfl, rfl, rfl⟩

/-- C13: for every non-empty list of `k` estimates (and fuel for the 1000 bins), the entries
of the array returned by `linearPooling` add up to `1/k` times the sum of the sums of the
bases built by `constructInputBases`. -/
theorem linearPooling_sum (Sqrt : α → α) (NormalCDF : α → α → α → α) (fuel : Nat)
    (inputs : List (ThreePointEstimate α)) (hne : inputs ≠ []) (hfuel : 1000 ≤ fuel) :
    ∃ (inputBases : List (List α)) (minPoint maxPoint : α) (pooledBasis : List α),
      constructInputBases Sqrt NormalCDF fuel inputs
        = Except.ok (inputBases, minPoint, maxPoint) ∧
      linearPooling Sqrt NormalCDF fuel inputs = Except.ok (pooledBasis, minPoint, maxPoint) ∧
      pooledBasis.sum = 1 / (inputs.length : α) * (inputBases.map List.sum).sum := by
  obtain ⟨⟨minPoint, maxPoint⟩, hrange⟩ := determineOutputRange_ok Sqrt inputs hne
  refine ⟨basesOf Sqrt NormalCDF minPoint maxPoint inputs, minPoint, maxPoint, _,
    constructInputBases_run Sqrt NormalCDF fuel hfuel inputs minPoint maxPoint hrange,
    linearPooling_run Sqrt NormalCDF fuel hfuel inputs hne minPoint maxPoint hrange, ?_⟩
  simp only [foldl_add_getD, zero_add]
  rw [sum_map_div_const, sum_columns _ _ (basesOf_mem_length Sqrt NormalCDF minPoint maxPoint
    inputs), basesOf_length]
  ring

/-- C13, at two estimates over the reals. -/
theorem linearPooling_sum_witness :
    ∃ (inputBases : List (List ℝ)) (minPoint maxPoint : ℝ) (pooledBasis : List ℝ),
      constructInputBases Real.sqrt
          (fun mu sigma x =>
            ProbabilityTheory.cdf (ProbabilityTheory.gaussianReal mu (Real.toNNReal (sigma ^ 2))) x)
          1000 [⟨0, 31 / 4, 11⟩, ⟨8, 63 / 4, 19⟩]
        = Except.ok (inputBases, minPoint, maxPoint) ∧
      linearPooling Real.sqrt
          (fun mu sigma x =>
            ProbabilityTheory.cdf (ProbabilityTheory.gaussianReal mu (Real.toNNReal (sigma ^ 2))) x)
          1000 [⟨0, 31 / 4, 11⟩, ⟨8, 63 / 4, 19⟩]
        = Except.ok (pooledBasis, minPoint, maxPoint) ∧
      pooledBasis.sum
        = 1 / ([(⟨0, 31 / 4, 11⟩ : ThreePointEstimate ℝ), ⟨8, 63 / 4, 19⟩].length : ℝ)
          * (inputBases.map List.sum).sum :=
  linearPooling_sum Real.sqrt _ 1000 [⟨0, 31 / 4, 11⟩, ⟨8, 63 / 4, 19⟩]
    (List.cons_ne_nil _ _) (le_refl 1000)

/-- C14: likelihood does not influence the distribution. For every non-empty list of risk
events (and fuel for the 1000 bins), `linearPoolingRiskEvents` and
`logisticPoolingRiskEvents` return exactly the array, `minPoint` and `maxPoint` that
`linearPooling` and `logisticPooling` return on the extracted estimates, as do the
risk-item wrappers on the same estimates; hence any other event list with the same
estimates in the same order yields the same arrays and the same range. -/
theorem riskEvents_ignore_likelihood (Sqrt : α → α) (NormalCDF : α → α → α → α)
    (Pow : α → α → α) (fuel : Nat) (events : List (RiskEventInput α))
    (hne : events ≠ []) (hfuel : 1000 ≤ fuel) :
    ∃ (linear logistic : List α) (minPoint maxPoint : α),
      linearPooling Sqrt NormalCDF fuel (events.map (fun ev => ev.estimate))
        = Except.ok (linear, minPoint, maxPoint) ∧
      logisticPooling Sqrt NormalCDF Pow fuel (events.map (fun ev => ev.estimate))
        = Except.ok (logistic, minPoint, maxPoint) ∧
      linearPoolingRiskItems Sqrt NormalCDF fuel
          (events.map (fun ev => RiskItemInput.mk ev.estimate))
        = Except.ok (linear, minPoint, maxPoint) ∧
      logisticPoolingRiskItems Sqrt NormalCDF Pow fuel
          (events.map (fun ev => RiskItemInput.mk ev.estimate))
        = Except.ok (logistic, minPoint, maxPoint) ∧
      ∀ events2 : List (RiskEventInput α),
        events2.map (fun ev => ev.estimate) = events.map (fun ev => ev.estimate) →
        ∃ likelihood : α,
          linearPoolingRiskEvents Sqrt NormalCDF fuel events2
            = Except.ok (linear, minPoint, maxPoint, likelihood) ∧
          logisticPoolingRiskEvents Sqrt NormalCDF Pow fuel events2
            = Except.ok (logistic, minPoint, maxPoint, likelihood) := by
  have hne2 : events.map (fun ev => ev.estimate) ≠ [] := by
    cases events with
    | nil => exact absurd rfl hne
    | cons ev rest => simp
  obtain ⟨linear, logistic, minPoint, maxPoint, hlin, hlog⟩ :=
    pooling_ok Sqrt NormalCDF Pow fuel hfuel _ hne2
  refine ⟨linear, logistic, minPoint, maxPoint, hlin, hlog, ?_, ?_, ?_⟩
  · rw [linearPoolingRiskItems_eq, List.map_map]
    exact hlin
  · rw [logisticPoolingRiskItems_eq, List.map_map]
    exact hlog
  · intro events2 hsame
    rw [← hsame] at hlin hlog
    exact ⟨_, linearPoolingRiskEvents_run Sqrt NormalCDF fuel events2 _ _ _ hlin,
      logisticPoolingRiskEvents_run Sqrt NormalCDF Pow fuel events2 _ _ _ hlog⟩

/-- C14, at two events over the reals: the events `((0, 7.75, 11), 0.9)` and
`((8, 15.75, 19), 0.1)` give the same arrays and range as the same estimates with
likelihoods `0.2` and `0.5`. -/
theorem riskEvents_ignore_likelihood_witness :
    ∃ (linear logistic : List ℝ) (minPoint maxPoint likelihood likelihood2 : ℝ),
      linearPoolingRiskEvents Real.sqrt
          (fun mu sigma x =>
            ProbabilityTheory.cdf (ProbabilityTheory.gaussianReal mu (Real.toNNReal (sigma ^ 2))) x)
          1000 [⟨⟨0, 31 / 4, 11⟩, 9 / 10⟩, ⟨⟨8, 63 / 4, 19⟩, 1 / 10⟩]
        = Except.ok (linear, minPoint, maxPoint, likelihood) ∧
      linearPoolingRiskEvents Real.sqrt
          (fun mu sigma x =>
            ProbabilityTheory.cdf (ProbabilityTheory.gaussianReal mu (Real.toNNReal (sigma ^ 2))) x)
          1000 [⟨⟨0, 31 / 4, 11⟩, 1 / 5⟩, ⟨⟨8, 63 / 4, 19⟩, 1 / 2⟩]
        = Except.ok (linear, minPoint, maxPoint, likelihood2) ∧
      logisticPoolingRiskEvents Real.sqrt
          (fun mu sigma x =>
            ProbabilityTheory.cdf (ProbabilityTheory.gaussianReal mu (Real.toNNReal (sigma ^ 2))) x)
          Real.rpow 1000 [⟨⟨0, 31 / 4, 11⟩, 9 / 10⟩, ⟨⟨8, 63 / 4, 19⟩, 1 / 10⟩]
        = Except.ok (logistic, minPoint, maxPoint, likelihood) ∧
      logisticPoolingRiskEvents Real.sqrt
          (fun mu sigma x =>
            ProbabilityTheory.cdf (ProbabilityTheory.gaussianReal mu (Real.toNNReal (sigma ^ 2))) x)
          Real.rpow 1000 [⟨⟨0, 31 / 4, 11⟩, 1 / 5⟩, ⟨⟨8, 63 / 4, 19⟩, 1 / 2⟩]
        = Except.ok (logistic, minPoint, maxPoint, likelihood2) := by
  obtain ⟨linear, logistic, minPoint, maxPoint, _, _, _, _, h⟩ :=
    riskEvents_ignore_likelihood Real.sqrt
      (fun mu sigma x =>
        ProbabilityTheory.cdf (ProbabilityTheory.gaussianReal mu (Real.toNNReal (sigma ^ 2))) x)
      Real.rpow 1000 [⟨⟨0, 31 / 4, 11⟩, 9 / 10⟩, ⟨⟨8, 63 / 4, 19⟩, 1 / 10⟩]
      (List.cons_ne_nil _ _) (le_refl 1000)
  obtain ⟨l1, h1, h2⟩ := h [⟨⟨0, 31 / 4, 11⟩, 9 / 10⟩, ⟨⟨8, 63 / 4, 19⟩, 1 / 10⟩] rfl
  obtain ⟨l2, h3, h4⟩ := h [⟨⟨0, 31 / 4, 11⟩, 1 / 5⟩, ⟨⟨8, 63 / 4, 19⟩, 1 / 2⟩] rfl
  exact ⟨linear, logistic, minPoint, maxPoint, l1, l2, h1, h3, h2, h4⟩

/-- C15: for every non-empty list of `n` risk events (and fuel for the 1000 bins), the
fourth value returned by `linearPoolingRiskEvents` and by `logisticPoolingRiskEvents` is
the sum of the events' likelihoods divided by `n`. -/
theorem riskEvents_mean_likelihood (Sqrt : α → α) (NormalCDF : α → α → α → α)
    (Pow : α → α → α) (fuel : Nat) (events : List (RiskEventInput α))
    (hne : events ≠ []) (hfuel : 1000 ≤ fuel) :
    ∃ (linear logistic : List α) (minPoint maxPoint : α),
      linearPoolingRiskEvents Sqrt NormalCDF fuel events
        = Except.ok (linear, minPoint, maxPoint,
            (events.map (fun ev => ev.likelihood)).sum / (events.length : α)) ∧
      logisticPoolingRiskEvents Sqrt NormalCDF Pow fuel events
        = Except.ok (logistic, minPoint, maxPoint,
            (events.map (fun ev => ev.likelihood)).sum / (events.length : α)) := by
  have hne2 : events.map (fun ev => ev.estimate) ≠ [] := by
    cases events with
    | nil => exact absurd rfl hne
    | cons ev rest => simp
  obtain ⟨linear, logistic, minPoint, maxPoint, hlin, hlog⟩ :=
    pooling_ok Sqrt NormalCDF Pow fuel hfuel _ hne2
  exact ⟨linear, logistic, minPoint, maxPoint,
    linearPoolingRiskEvents_run Sqrt NormalCDF fuel events _ _ _ hlin,
    logisticPoolingRiskEvents_run Sqrt NormalCDF Pow fuel events _ _ _ hlog⟩

/-- C15, at two events over the reals with likelihoods `0.9` and `0.1`: the value
returned is `0.5`. -/
theorem riskEvents_mean_likelihood_witness :
    ∃ (linear logistic : List ℝ) (minPoint maxPoint : ℝ),
      linearPoolingRiskEvents Real.sqrt
          (fun mu sigma x =>
            ProbabilityTheory.cdf (ProbabilityTheory.gaussianReal mu (Real.toNNReal (sigma ^ 2))) x)
          1000 [⟨⟨0, 31 / 4, 11⟩, 9 / 10⟩, ⟨⟨8, 63 / 4, 19⟩, 1 / 10⟩]
        = Except.ok (linear, minPoint, maxPoint, 1 / 2) ∧
      logisticPoolingRiskEvents Real.sqrt
          (fun mu sigma x =>
            ProbabilityTheory.cdf (ProbabilityTheory.gaussianReal mu (Real.toNNReal (sigma ^ 2))) x)
          Real.rpow 1000 [⟨⟨0, 31 / 4, 11⟩, 9 / 10⟩, ⟨⟨8, 63 / 4, 19⟩, 1 / 10⟩]
        = Except.ok (logistic, minPoint, maxPoint, 1 / 2) := by
  have h := riskEvents_mean_likelihood Real.sqrt
    (fun mu sigma x =>
      ProbabilityTheory.cdf (ProbabilityTheory.gaussianReal mu (Real.toNNReal (sigma ^ 2))) x)
    Real.rpow 1000 [⟨⟨0, 31 / 4, 11⟩, 9 / 10⟩, ⟨⟨8, 63 / 4, 19⟩, 1 / 10⟩]
    (List.cons_ne_nil _ _) (le_refl 1000)
  have e : ([(⟨⟨0, 31 / 4, 11⟩, 9 / 10⟩ : RiskEventInput ℝ),
      ⟨⟨8, 63 / 4, 19⟩, 1 / 10⟩].map (fun ev => ev.likelihood)).sum
      / (([(⟨⟨0, 31 / 4, 11⟩, 9 / 10⟩ : RiskEventInput ℝ),
        ⟨⟨8, 63 / 4, 19⟩, 1 / 10⟩].length : ℕ) : ℝ) = 1 / 2 := by
    norm_num
  rw [e] at h
  exact h

/-- C17 fails on the program when a window is `NaN`. In binary64 the estimate `(0, 3, 0)`
has mean 2 and the negative radicand `(2 - 0) * (0 - 2) / 7`, so its standard deviation and
both ends of its window are `NaN`; as the first estimate of a list it is never replaced,
because `min < NaN` is false: on `[(0, 3, 0), (0, 7.75, 11)]` the result is `(NaN, NaN)`,
although the second estimate has the window `(-9, 23)`, and the returned `minPoint` is not
`≤` the lower end `-9`. -/
theorem determineOutputRange_nan_counterexample :
    determineOutputRange F64.sqrt [⟨0, 3, 0⟩, ⟨0, 31 / 4, 11⟩]
      = Except.ok (F64.nan, F64.nan) ∧
    computeMean (⟨0, 31 / 4, 11⟩ : ThreePointEstimate F64)
      - 8 * computeStdDev F64.sqrt ⟨0, 31 / 4, 11⟩ = -9 ∧
    computeMean (⟨0, 31 / 4, 11⟩ : ThreePointEstimate F64)
      + 8 * computeStdDev F64.sqrt ⟨0, 31 / 4, 11⟩ = 23 ∧
    ¬ ∃ minPoint maxPoint : F64,
      determineOutputRange F64.sqrt [⟨0, 3, 0⟩, ⟨0, 31 / 4, 11⟩]
        = Except.ok (minPoint, maxPoint) ∧
      ∀ e ∈ [(⟨0, 3, 0⟩ : ThreePointEstimate F64), ⟨0, 31 / 4, 11⟩],
        minPoint ≤ computeMean e - 8 * computeStdDev F64.sqrt e := by
  have h : determineOutputRange F64.sqrt [⟨0, 3, 0⟩, ⟨0, 31 / 4, 11⟩]
      = Except.ok (F64.nan, F64.nan) := by
    rw [determineOutputRange_cons_eq]
    exact congrArg Except.ok (by decide!)
  refine ⟨h, by decide!, by decide!, ?_⟩
  rintro ⟨minPoint, maxPoint, hr, hall⟩
  rw [h] at hr
  have hmin : minPoint = F64.nan := by
    injection hr with hr
    exact (congrArg Prod.fst hr).symm
  have h9 := hall ⟨0, 31 / 4, 11⟩ (List.mem_cons_of_mem _ (List.mem_cons_self _ _))
  rw [hmin] at h9
  exact absurd h9 (by decide!)

/-- C17, amended: for every non-empty list of estimates none of whose lower ends
`mean_i - 8*std_i` is `NaN`, in binary64 and for any `math.Sqrt`, `determineOutputRange`
returns as `minPoint` the minimum of the lower ends, and as `maxPoint` the upper end
`mean_m + 8*std_m` of the estimate at the first index `m` attaining that minimum: the pair
returned is the 8-sigma window of that single estimate. -/
theorem determineOutputRange_first_minimum (Sqrt : F64 → F64)
    (inputs : List (ThreePointEstimate F64)) (hne : inputs ≠ [])
    (hnan : ∀ e ∈ inputs, computeMean e - 8 * computeStdDev Sqrt e ≠ F64.nan) :
    ∃ (minPoint maxPoint : F64) (m : Nat) (est : ThreePointEstimate F64),
      determineOutputRange Sqrt inputs = Except.ok (minPoint, maxPoint) ∧
      inputs[m]? = some est ∧
      minPoint = computeMean est - 8 * computeStdDev Sqrt est ∧
      maxPoint = computeMean est + 8 * computeStdDev Sqrt est ∧
      (∀ e ∈ inputs, minPoint ≤ computeMean e - 8 * computeStdDev Sqrt e) ∧
      ∀ i e, i < m → inputs[i]? = some e →
        minPoint < computeMean e - 8 * computeStdDev Sqrt e := by
  cases inputs with
  | nil => exact absurd rfl hne
  | cons e0 rest =>
    have hnan0 : windowLow Sqrt e0 ≠ F64.nan := hnan e0 (List.mem_cons_self _ _)
    have hnanrest : ∀ e ∈ rest, windowLow Sqrt e ≠ F64.nan :=
      fun e he => hnan e (List.mem_cons_of_mem _ he)
    rcases foldl_rangeStep_first_of Sqrt F64.lt_irrefl F64.lt_trans rest
        (windowLow Sqrt e0, windowHigh Sqrt e0)
        (fun e he => F64.lt_separates _ (hnanrest e he)) with
      ⟨hr, hall⟩ | ⟨m, est, hm, hr, hlow, hfirst, hall⟩
    · refine ⟨windowLow Sqrt e0, windowHigh Sqrt e0, 0, e0, ?_, List.getElem?_cons_zero, rfl, rfl,
        ?_, ?_⟩
      · rw [determineOutputRange_cons_eq, hr]
      · intro e he
        rcases List.mem_cons.mp he with rfl | hmem
        · exact F64.le_of_not_lt _ _ hnan0 hnan0 (F64.lt_irrefl _)
        · exact F64.le_of_not_lt _ _ (hnanrest e hmem) hnan0 (hall e hmem)
      · intro i e hi _
        exact absurd hi (Nat.not_lt_zero i)
    · have hest : windowLow Sqrt est ≠ F64.nan := by
        have hmem : est ∈ rest := by
          obtain ⟨h1, h2⟩ := List.getElem?_eq_some.mp hm
          rw [← h2]
          exact List.getElem_mem _
        exact hnanrest est hmem
      refine ⟨windowLow Sqrt est, windowHigh Sqrt est, m + 1, est, ?_,
        by rw [List.getElem?_cons_succ]; exact hm, rfl, rfl, ?_, ?_⟩
      · rw [determineOutputRange_cons_eq, hr]
      · intro e he
        rcases List.mem_cons.mp he with rfl | hmem
        · exact F64.le_of_not_lt _ _ hnan0 hest
            (fun h => F64.lt_irrefl _ (F64.lt_trans _ _ _ h hlow))
        · exact F64.le_of_not_lt _ _ (hnanrest e hmem) hest (hall e hmem)
      · intro i e hi hget
        cases i with
        | zero =>
          have : e0 = e := by simpa using hget
          rw [← this]
          exact hlow
        | succ i =>
          rw [List.getElem?_cons_succ] at hget
          exact hfirst i e (Nat.lt_of_succ_lt_succ hi) hget

/-- C17 amended, at two estimates in binary64 with the correctly rounded square root: the
second one, `(0, 7.75, 11)`, has the smaller lower end `-9`, and its window `(-9, 23)` is
returned. -/
theorem determineOutputRange_first_minimum_witness :
    (∀ e ∈ [(⟨8, 63 / 4, 19⟩ : ThreePointEstimate F64), ⟨0, 31 / 4, 11⟩],
      computeMean e - 8 * computeStdDev F64.sqrt e ≠ F64.nan) ∧
    ∃ (minPoint maxPoint : F64) (m : Nat) (est : ThreePointEstimate F64),
      determineOutputRange F64.sqrt [⟨8, 63 / 4, 19⟩, ⟨0, 31 / 4, 11⟩]
        = Except.ok (minPoint, maxPoint) ∧
      [(⟨8, 63 / 4, 19⟩ : ThreePointEstimate F64), ⟨0, 31 / 4, 11⟩][m]? = some est ∧
      minPoint = computeMean est - 8 * computeStdDev F64.sqrt est ∧
      maxPoint = computeMean est + 8 * computeStdDev F64.sqrt est ∧
      (∀ e ∈ [(⟨8, 63 / 4, 19⟩ : ThreePointEstimate F64), ⟨0, 31 / 4, 11⟩],
        minPoint ≤ computeMean e - 8 * computeStdDev F64.sqrt e) ∧
      ∀ i e, i < m →
        [(⟨8, 63 / 4, 19⟩ : ThreePointEstimate F64), ⟨0, 31 / 4, 11⟩][i]? = some e →
        minPoint < computeMean e - 8 * computeStdDev F64.sqrt e :=
  have hnan : ∀ e ∈ [(⟨8, 63 / 4, 19⟩ : ThreePointEstimate F64), ⟨0, 31 / 4, 11⟩],
      computeMean e - 8 * computeStdDev F64.sqrt e ≠ F64.nan := by
    intro e he
    simp only [List.mem_cons, List.mem_singleton, List.not_mem_nil, or_false] at he
    rcases he with rfl | rfl <;> decide!
  ⟨hnan, determineOutputRange_first_minimum F64.sqrt [⟨8, 63 / 4, 19⟩, ⟨0, 31 / 4, 11⟩]
    (List.cons_ne_nil _ _) hnan⟩

/-- C18: for every non-empty list of estimates (and fuel for the 1000 bins), all bases
returned by `constructInputBases` have the same length, so every access `inputBases[j][i]`
with `i < len(inputBases[0])` and `j < len(inputBases)` is in bounds, and `linearPooling`
and `logisticPooling` return a result instead of failing with an index error. -/
theorem bases_same_length (Sqrt : α → α) (NormalCDF : α → α → α → α) (Pow : α → α → α)
    (fuel : Nat) (inputs : List (ThreePointEstimate α)) (hne : inputs ≠ [])
    (hfuel : 1000 ≤ fuel) :
    ∃ (inputBases : List (List α)) (minPoint maxPoint : α) (linear logistic : List α),
      constructInputBases Sqrt NormalCDF fuel inputs
        = Except.ok (inputBases, minPoint, maxPoint) ∧
      (∀ b1 ∈ inputBases, ∀ b2 ∈ inputBases, b1.length = b2.length) ∧
      (∀ (first : List α) (i j : Nat), inputBases[0]? = some first → i < first.length →
        j < inputBases.length → ∃ b x, inputBases[j]? = some b ∧ b[i]? = some x) ∧
      linearPooling Sqrt NormalCDF fuel inputs = Except.ok (linear, minPoint, maxPoint) ∧
      logisticPooling Sqrt NormalCDF Pow fuel inputs
        = Except.ok (logistic, minPoint, maxPoint) := by
  obtain ⟨⟨minPoint, maxPoint⟩, hrange⟩ := determineOutputRange_ok Sqrt inputs hne
  have hlen := basesOf_mem_length Sqrt NormalCDF minPoint maxPoint inputs
  refine ⟨basesOf Sqrt NormalCDF minPoint maxPoint inputs, minPoint, maxPoint, _, _,
    constructInputBases_run Sqrt NormalCDF fuel hfuel inputs minPoint maxPoint hrange, ?_, ?_,
    linearPooling_run Sqrt NormalCDF fuel hfuel inputs hne minPoint maxPoint hrange,
    logisticPooling_run Sqrt NormalCDF Pow fuel hfuel inputs hne minPoint maxPoint hrange⟩
  · intro b1 hb1 b2 hb2
    rw [hlen b1 hb1, hlen b2 hb2]
  · intro first i j h0 hi hj
    have hfirst : first ∈ basesOf Sqrt NormalCDF minPoint maxPoint inputs := by
      obtain ⟨h1, h2⟩ := List.getElem?_eq_some.mp h0
      rw [← h2]
      exact List.getElem_mem _
    have hb : (basesOf Sqrt NormalCDF minPoint maxPoint inputs)[j]
        ∈ basesOf Sqrt NormalCDF minPoint maxPoint inputs := List.getElem_mem _
    have hi2 : i < ((basesOf Sqrt NormalCDF minPoint maxPoint inputs)[j]).length := by
      rw [hlen _ hb, ← hlen _ hfirst]
      exact hi
    exact ⟨_, _, List.getElem?_eq_getElem hj, List.getElem?_eq_getElem hi2⟩

/-- C18, at two estimates over the reals. -/
theorem bases_same_length_witness :
    ∃ (inputBases : List (List ℝ)) (minPoint maxPoint : ℝ),
      constructInputBases Real.sqrt
          (fun mu sigma x =>
            ProbabilityTheory.cdf (ProbabilityTheory.gaussianReal mu (Real.toNNReal (sigma ^ 2))) x)
          1000 [⟨0, 31 / 4, 11⟩, ⟨8, 63 / 4, 19⟩]
        = Except.ok (inputBases, minPoint, maxPoint) ∧
      ∀ b1 ∈ inputBases, ∀ b2 ∈ inputBases, b1.length = b2.length := by
  obtain ⟨inputBases, minPoint, maxPoint, _, _, h1, h2, _⟩ :=
    bases_same_length Real.sqrt
      (fun mu sigma x =>
        ProbabilityTheory.cdf (ProbabilityTheory.gaussianReal mu (Real.toNNReal (sigma ^ 2))) x)
      Real.rpow 1000 [⟨0, 31 / 4, 11⟩, ⟨8, 63 / 4, 19⟩] (List.cons_ne_nil _ _) (le_refl 1000)
  exact ⟨inputBases, minPoint, maxPoint, h1, h2⟩

/-- C19 fails on the program, by the same extra iteration as C5. On `(7.5, 10, 15)`, where
`minPoint < maxPoint`, the basis has 1001 entries for every CDF, and the last one,
`CDF(j + interval) - CDF(j)` at the 1001st value of `j`, reaches beyond `maxPoint`. For
the CDF that is 0 up to `maxPoint` and 1 above it, the entries add up to 1, while
`CDF(maxPoint) - CDF(minPoint)` is 0. -/
theorem basis_sum_extra_bin :
    windowLow F64.sqrt (⟨15 / 2, 10, 15⟩ : ThreePointEstimate F64)
      < windowHigh F64.sqrt ⟨15 / 2, 10, 15⟩ ∧
    (∀ NormalCDF : F64 → F64 → F64 → F64, ∃ (basis : List F64) (j : F64),
      constructInputBases F64.sqrt NormalCDF 1001 [⟨15 / 2, 10, 15⟩]
        = Except.ok ([basis], windowLow F64.sqrt ⟨15 / 2, 10, 15⟩,
            windowHigh F64.sqrt ⟨15 / 2, 10, 15⟩) ∧
      basis.length = 1001 ∧
      j < windowHigh F64.sqrt ⟨15 / 2, 10, 15⟩ ∧
      windowHigh F64.sqrt ⟨15 / 2, 10, 15⟩
        < j + (windowHigh F64.sqrt (⟨15 / 2, 10, 15⟩ : ThreePointEstimate F64)
          - windowLow F64.sqrt ⟨15 / 2, 10, 15⟩) / 1000 ∧
      basis[1000]? = some
        (NormalCDF (computeMean ⟨15 / 2, 10, 15⟩) (computeStdDev F64.sqrt ⟨15 / 2, 10, 15⟩)
            (j + (windowHigh F64.sqrt (⟨15 / 2, 10, 15⟩ : ThreePointEstimate F64)
              - windowLow F64.sqrt ⟨15 / 2, 10, 15⟩) / 1000)
          - NormalCDF (computeMean ⟨15 / 2, 10, 15⟩)
            (computeStdDev F64.sqrt ⟨15 / 2, 10, 15⟩) j)) ∧
    (∃ basis : List F64,
      constructInputBases F64.sqrt
          (fun _ _ x =>
            if windowHigh F64.sqrt (⟨15 / 2, 10, 15⟩ : ThreePointEstimate F64) < x then 1
            else 0)
          1001 [⟨15 / 2, 10, 15⟩]
        = Except.ok ([basis], windowLow F64.sqrt ⟨15 / 2, 10, 15⟩,
            windowHigh F64.sqrt ⟨15 / 2, 10, 15⟩) ∧
      basis.foldl (fun sum x => sum + x) 0 = 1) ∧
    (if windowHigh F64.sqrt (⟨15 / 2, 10, 15⟩ : ThreePointEstimate F64)
          < windowHigh F64.sqrt (⟨15 / 2, 10, 15⟩ : ThreePointEstimate F64) then (1 : F64)
        else 0)
      - (if windowHigh F64.sqrt (⟨15 / 2, 10, 15⟩ : ThreePointEstimate F64)
          < windowLow F64.sqrt (⟨15 / 2, 10, 15⟩ : ThreePointEstimate F64) then (1 : F64)
        else 0) = 0 := by
  obtain ⟨hrun, hstop, hlast⟩ := labor_run
  have hbases := fun NormalCDF => constructInputBases_binsFrom F64.sqrt NormalCDF 1001 1001
    [⟨15 / 2, 10, 15⟩] _ _ (determineOutputRange_single F64.sqrt ⟨15 / 2, 10, 15⟩)
    (Nat.le_refl 1001) hrun hstop
  simp only [List.map_singleton] at hbases
  refine ⟨labor_window_lt.1, ?_, ?_, by decide!⟩
  · intro NormalCDF
    refine ⟨_, _, hbases NormalCDF, binsFrom_length _ _ _ _, hrun 1000 (by omega), ?_,
      binsFrom_getElem? _ _ 1001 1000 _ (by omega)⟩
    rw [hlast]
    exact labor_window_lt.2
  · refine ⟨_, hbases _, ?_⟩
    rw [binsFrom_succ_last, binsFrom_step _ _ 1000 _
      (fun m hm hlt => F64.lt_irrefl _ (F64.lt_trans _ _ _ hlt (hrun m (by omega)))),
      List.foldl_append, foldl_add_replicate_zero, hlast,
      if_pos labor_window_lt.2, if_neg (fun hlt => F64.lt_irrefl _
        (F64.lt_trans _ _ _ hlt (hrun 1000 (by omega))))]
    decide!

end Claims

end Aggregate
